import Mathlib

/-!
# dmenu: matching, windowing and navigation

A shallow embedding of `dmenu.c`.

* A C string is the list of its bytes before the terminating NUL; the end of
  the list plays the role of the terminator.
* An `Item *` is `Option Nat`: `none` is `NULL`, `some p` is the item stored at
  position `p` of the master list.  The `next` field of the source is the
  order of the list itself (the master list is built once by `readstdin`);
  the `left` and `right` fields are stored in the items and are mutated.
* `unsigned int` arithmetic is reduced modulo `2 ^ 32`, `size_t` arithmetic
  modulo `2 ^ 64`.
* `exit`, a `NULL` dereference and an exhausted loop bound of the model are
  explicit results (`Res`).
-/

namespace Dmenu

/-! ## Results of running a piece of the program -/

/-- Outcome of running a function of the program: it returned a value, the
process ended through `exit` after writing `out` to standard output, a missing
item or an out-of-range buffer position was accessed, or the loop bound of the
model ran out. -/
inductive Res (α : Type) where
  | ok (a : α)
  | exited (success : Bool) (out : List Nat)
  | fault
  | nofuel
deriving DecidableEq, Repr

/-- Sequencing: only a returned value continues. -/
def Res.bind {α β : Type} (r : Res α) (f : α → Res β) : Res β :=
  match r with
  | .ok a => f a
  | .exited b o => .exited b o
  | .fault => .fault
  | .nofuel => .nofuel

/-! ## Data -/

/-- The `struct Item` of the source, without `next` (the list order). -/
structure Item where
  text : List Nat
  left : Option Nat
  right : Option Nat
deriving DecidableEq, Repr

/-- The options and geometry fixed before the first keystroke; `textw` is the
text measurement of the drawing library. -/
structure Config where
  insensitive : Bool
  returnearly : Bool
  lines : Nat
  bh : Nat
  mw : Nat
  promptw : Nat
  inputw : Nat
  textw : List Nat → Nat
  bufsiz : Nat

/-- The mutable globals of the source. -/
structure State where
  items : List Item
  text : List Nat
  cursor : Nat
  matches_ : Option Nat
  sel : Option Nat
  prev : Option Nat
  curr : Option Nat
  next : Option Nat
deriving DecidableEq, Repr

/-! ## Heap access -/

/-- Dereference an item pointer. -/
def rd (items : List Item) (p : Nat) : Res Item :=
  match items[p]? with
  | some it => .ok it
  | none => .fault

/-- The assignment `p->left = v`. -/
def setLeft (items : List Item) (p : Nat) (v : Option Nat) : Res (List Item) :=
  match items[p]? with
  | some it => .ok (items.set p { it with left := v })
  | none => .fault

/-- The assignment `p->right = v`. -/
def setRight (items : List Item) (p : Nat) (v : Option Nat) : Res (List Item) :=
  match items[p]? with
  | some it => .ok (items.set p { it with right := v })
  | none => .fault

/-! ## String comparison -/

/-- ASCII `tolower` on a byte. -/
def tolower (c : Nat) : Nat :=
  if 65 ≤ c ∧ c ≤ 90 then c + 32 else c

/-- The comparison `strncmp` (with `f` the identity) and `strncasecmp` (with
`f` the case folding) on the first `n` bytes of two strings: zero when they
agree, otherwise the sign of the first difference. -/
def strncmpWith (f : Nat → Nat) : List Nat → List Nat → Nat → Int
  | _, _, 0 => 0
  | [], [], _ + 1 => 0
  | [], _ :: _, _ + 1 => -1
  | _ :: _, [], _ + 1 => 1
  | a :: as, b :: bs, n + 1 =>
    if f a = f b then strncmpWith f as bs n else (f a : Int) - (f b : Int)

/-- The function pointer `fstrncmp`: `strncmp`, or `strncasecmp` after `-i`. -/
def fstrncmp (cfg : Config) (a b : List Nat) (n : Nat) : Int :=
  if cfg.insensitive then strncmpWith tolower a b n else strncmpWith id a b n

/-- The function `fstrstr`: the first suffix of `s` (at a byte of `s`, never at
its terminator) whose first `strlen(sub)` bytes compare equal to `sub`. -/
def fstrstr (cfg : Config) : List Nat → List Nat → Option (List Nat)
  | [], _ => none
  | c :: s, sub =>
    if fstrncmp cfg (c :: s) sub sub.length = 0 then some (c :: s)
    else fstrstr cfg s sub

/-! ## Building the match list -/

/-- The function `appenditem(item, &list, &last)`; the two locals are passed
and returned. -/
def appenditem (items : List Item) (item : Nat) (list last : Option Nat) :
    Res (List Item × Option Nat × Option Nat) :=
  match last with
  | none =>
    (setLeft items item none).bind fun i1 =>
    (setRight i1 item none).bind fun i2 =>
    .ok (i2, some item, some item)
  | some l =>
    (setRight items l (some item)).bind fun i0 =>
    (setLeft i0 item (some l)).bind fun i1 =>
    (setRight i1 item none).bind fun i2 =>
    .ok (i2, list, some item)

/-- The locals of `match` that survive an iteration of its first loop. -/
structure Tiers where
  items : List Item
  lexact : Option Nat
  exactend : Option Nat
  lprefix : Option Nat
  prefixend : Option Nat
  lsubstr : Option Nat
  substrend : Option Nat
deriving DecidableEq, Repr

/-- One iteration of the loop `for(item = items; item; item = item->next)` of
`match`, at the item stored at `item`. -/
def matchStep (cfg : Config) (text : List Nat) (t : Tiers) (item : Nat) : Res Tiers :=
  (rd t.items item).bind fun it =>
  if fstrncmp cfg text it.text (text.length + 1) = 0 then
    (appenditem t.items item t.lexact t.exactend).bind fun r =>
    .ok { t with items := r.1, lexact := r.2.1, exactend := r.2.2 }
  else if fstrncmp cfg text it.text text.length = 0 then
    (appenditem t.items item t.lprefix t.prefixend).bind fun r =>
    .ok { t with items := r.1, lprefix := r.2.1, prefixend := r.2.2 }
  else if (fstrstr cfg it.text text).isSome then
    (appenditem t.items item t.lsubstr t.substrend).bind fun r =>
    .ok { t with items := r.1, lsubstr := r.2.1, substrend := r.2.2 }
  else .ok t

/-- The first loop of `match` over the master list positions `idxs`. -/
def matchLoop (cfg : Config) (text : List Nat) : List Nat → Tiers → Res Tiers
  | [], t => .ok t
  | i :: rest, t => (matchStep cfg text t i).bind fun t1 => matchLoop cfg text rest t1

/-- The statements of `match` that join a non-empty tier `l` (ending the
chain built so far at `itemend`) onto `matches`. -/
def joinTier (items : List Item) (matches_ itemend l lend : Option Nat) :
    Res (List Item × Option Nat × Option Nat) :=
  match l with
  | none => .ok (items, matches_, itemend)
  | some h =>
    match itemend with
    | some e =>
      (setRight items e (some h)).bind fun i1 =>
      (setLeft i1 h (some e)).bind fun i2 =>
      .ok (i2, matches_, lend)
    | none => .ok (items, some h, lend)

/-! ## The window -/

/-- The budget `n` of `calcoffsets`, an `unsigned int`. -/
def budget (cfg : Config) : Nat :=
  if cfg.lines > 0 then (cfg.lines * cfg.bh) % 2 ^ 32
  else Int.toNat (((cfg.mw : Int)
    - ((cfg.promptw : Int) + cfg.inputw + cfg.textw [60] + cfg.textw [62])) % 2 ^ 32)

/-- The amount added to `i` for an item of text `t`. -/
def cost (cfg : Config) (t : List Nat) : Nat :=
  if cfg.lines > 0 then cfg.bh else min (cfg.textw t) (budget cfg)

/-- The loop `for(i = 0, next = curr; next; next = next->right)` of
`calcoffsets`, from the value `i` and the pointer `next`. -/
def scanNext (cfg : Config) (items : List Item) : Nat → Nat → Option Nat → Res (Option Nat)
  | _, _, none => .ok none
  | 0, _, some _ => .nofuel
  | fuel + 1, i, some p =>
    (rd items p).bind fun it =>
    if (i + cost cfg it.text) % 2 ^ 32 > budget cfg then .ok (some p)
    else scanNext cfg items fuel ((i + cost cfg it.text) % 2 ^ 32) it.right

/-- The loop `for(i = 0, prev = curr; prev && prev->left; prev = prev->left)`
of `calcoffsets`, from the value `i` and the pointer `prev`. -/
def scanPrev (cfg : Config) (items : List Item) : Nat → Nat → Option Nat → Res (Option Nat)
  | _, _, none => .ok none
  | 0, _, some p =>
    (rd items p).bind fun it =>
    match it.left with
    | none => .ok (some p)
    | some _ => .nofuel
  | fuel + 1, i, some p =>
    (rd items p).bind fun it =>
    match it.left with
    | none => .ok (some p)
    | some q =>
      (rd items q).bind fun itq =>
      if (i + cost cfg itq.text) % 2 ^ 32 > budget cfg then .ok (some p)
      else scanPrev cfg items fuel ((i + cost cfg itq.text) % 2 ^ 32) (some q)

/-- The function `calcoffsets`. -/
def calcoffsets (cfg : Config) (s : State) : Res State :=
  (scanNext cfg s.items s.items.length 0 s.curr).bind fun nx =>
  (scanPrev cfg s.items s.items.length 0 s.curr).bind fun pv =>
  .ok { s with next := nx, prev := pv }

/-- The function `handle_return`: write the value and `exit(EXIT_SUCCESS)`. -/
def handle_return {α : Type} (value : List Nat) : Res α :=
  .exited true value

/-- The function `match`. -/
def match_ (cfg : Config) (s : State) : Res State :=
  (matchLoop cfg s.text (List.range s.items.length)
    ⟨s.items, none, none, none, none, none, none⟩).bind fun t =>
  (joinTier t.items none none t.lexact t.exactend).bind fun r1 =>
  (joinTier r1.1 r1.2.1 r1.2.2 t.lprefix t.prefixend).bind fun r2 =>
  (joinTier r2.1 r2.2.1 r2.2.2 t.lsubstr t.substrend).bind fun r3 =>
  (calcoffsets cfg { s with items := r3.1, matches_ := r3.2.1, curr := r3.2.1,
                            prev := r3.2.1, next := r3.2.1, sel := r3.2.1 }).bind fun s1 =>
  if cfg.returnearly then
    match s1.curr with
    | none => .fault
    | some c =>
      (rd s1.items c).bind fun it =>
      if it.right = none then handle_return it.text else .ok s1
  else .ok s1

/-! ## The text buffer -/

/-- Conversion of an integer to `size_t`. -/
def toSize (i : Int) : Nat := Int.toNat (i % 2 ^ 64)

/-- Conversion of a `size_t` value to `ssize_t`. -/
def toSsize (x : Nat) : Int := if x < 2 ^ 63 then (x : Int) else (x : Int) - 2 ^ 64

/-- The test `(c & 0xc0) == 0x80`: `c` is a continuation byte. -/
def isCont (c : Nat) : Bool := c &&& 0xc0 == 0x80

/-- The loop of `nextrune` from the position `n`. -/
def nextruneLoop (text : List Nat) (incr : Int) : Nat → Nat → Res Nat
  | 0, _ => .nofuel
  | fuel + 1, n =>
    if n < text.length ∧ isCont (text.getD n 0) = true then
      nextruneLoop text incr fuel (toSize ((n : Int) + incr))
    else .ok n

/-- The function `nextrune`. -/
def nextrune (s : State) (incr : Int) : Res Nat :=
  nextruneLoop s.text incr (s.text.length + 1) (toSize ((s.cursor : Int) + incr))

/-- The read `text[r]`: a byte of the string, its terminator, or a position
outside the string. -/
def readText (text : List Nat) (r : Nat) : Res Nat :=
  if r < text.length then .ok (text.getD r 0)
  else if r = text.length then .ok 0
  else .fault

/-- The function `insert(s, n)`: `n > 0` inserts the first `n` bytes of `s` at
the cursor, `n < 0` removes the `-n` bytes before the cursor.  A cursor past
the terminator and a move to before the buffer are faults. -/
def insert (cfg : Config) (st : State) (s : List Nat) (n : Int) : Res State :=
  if toSize ((st.text.length : Int) + n) > cfg.bufsiz - 1 then .ok st
  else if st.cursor > st.text.length then .fault
  else if (st.cursor : Int) + n < 0 then .fault
  else if n > 0 ∧ (s.length : Int) < n then .fault
  else
    match_ cfg { st with
      text := if n > 0 then st.text.take st.cursor ++ s.take n.toNat ++ st.text.drop st.cursor
              else st.text.take ((st.cursor : Int) + n).toNat ++ st.text.drop st.cursor
      cursor := toSize ((st.cursor : Int) + n) }

/-! ## Keys -/

/-- A key press as `keypress` sees it after `XLookupString`: the key symbol,
the Control and Shift bits of the modifier state, and the looked-up string. -/
structure XKeyEvent where
  ksym : Nat
  control : Bool
  shift : Bool
  buf : List Nat
deriving DecidableEq, Repr

def XK_BackSpace : Nat := 0xff08
def XK_Tab : Nat := 0xff09
def XK_Return : Nat := 0xff0d
def XK_Escape : Nat := 0xff1b
def XK_Delete : Nat := 0xffff
def XK_Home : Nat := 0xff50
def XK_Left : Nat := 0xff51
def XK_Up : Nat := 0xff52
def XK_Right : Nat := 0xff53
def XK_Down : Nat := 0xff54
def XK_Prior : Nat := 0xff55
def XK_Next : Nat := 0xff56
def XK_End : Nat := 0xff57
def XK_KP_Enter : Nat := 0xff8d
def XK_a : Nat := 0x61
def XK_b : Nat := 0x62
def XK_c : Nat := 0x63
def XK_d : Nat := 0x64
def XK_e : Nat := 0x65
def XK_f : Nat := 0x66
def XK_h : Nat := 0x68
def XK_i : Nat := 0x69
def XK_j : Nat := 0x6a
def XK_k : Nat := 0x6b
def XK_n : Nat := 0x6e
def XK_p : Nat := 0x70
def XK_u : Nat := 0x75
def XK_w : Nat := 0x77
def XK_y : Nat := 0x79

/-- The test `iscntrl` on a byte. -/
def iscntrl (c : Nat) : Bool := c < 32 || c == 127

/-- The case `XK_Down`. -/
def keyDown (cfg : Config) (s : State) : Res State :=
  match s.sel with
  | none => .ok s
  | some p =>
    (rd s.items p).bind fun it =>
    match it.right with
    | none => .ok s
    | some r =>
      if some r = s.next then calcoffsets cfg { s with sel := some r, curr := s.next }
      else .ok { s with sel := some r }

/-- The case `XK_Up`. -/
def keyUp (cfg : Config) (s : State) : Res State :=
  match s.sel with
  | none => .ok s
  | some p =>
    (rd s.items p).bind fun it =>
    match it.left with
    | none => .ok s
    | some l =>
      (rd s.items l).bind fun itl =>
      if itl.right = s.curr then calcoffsets cfg { s with sel := some l, curr := s.prev }
      else .ok { s with sel := some l }

/-- The case `XK_Right`, falling through to `XK_Down`. -/
def keyRight (cfg : Config) (len : Nat) (s : State) : Res State :=
  if s.cursor < len then (nextrune s 1).bind fun r => .ok { s with cursor := r }
  else if cfg.lines > 0 then .ok s
  else keyDown cfg s

/-- The condition `!sel || !sel->left || lines > 0` of the case `XK_Left`. -/
def leftMovesCursor (cfg : Config) (s : State) : Res Bool :=
  match s.sel with
  | none => .ok true
  | some p => (rd s.items p).bind fun it => .ok (it.left.isNone || decide (cfg.lines > 0))

/-- The case `XK_Left`, falling through to `XK_Up`. -/
def keyLeft (cfg : Config) (s : State) : Res State :=
  (if s.cursor > 0 then leftMovesCursor cfg s else .ok false).bind fun b =>
  if b then (nextrune s (-1)).bind fun r => .ok { s with cursor := r }
  else if cfg.lines > 0 then .ok s
  else keyUp cfg s

/-- The case `XK_BackSpace`. -/
def keyBackSpace (cfg : Config) (s : State) : Res State :=
  if s.cursor > 0 then
    (nextrune s (-1)).bind fun r => insert cfg s [] (toSsize (toSize ((r : Int) - s.cursor)))
  else .ok s

/-- The case `XK_Delete`, falling through to `XK_BackSpace`. -/
def keyDelete (cfg : Config) (len : Nat) (s : State) : Res State :=
  if s.cursor = len then .ok s
  else (nextrune s 1).bind fun r => keyBackSpace cfg { s with cursor := r }

/-- The loop `while(next) { sel = curr = next; calcoffsets(); }`. -/
def endPages (cfg : Config) : Nat → State → Res State
  | 0, s => if s.next = none then .ok s else .nofuel
  | fuel + 1, s =>
    if s.next = none then .ok s
    else (calcoffsets cfg { s with sel := s.next, curr := s.next }).bind (endPages cfg fuel)

/-- The loop `while(sel && sel->right) sel = sel->right;`. -/
def selLast (items : List Item) : Nat → Option Nat → Res (Option Nat)
  | _, none => .ok none
  | 0, some p =>
    (rd items p).bind fun it =>
    match it.right with
    | none => .ok (some p)
    | some _ => .nofuel
  | fuel + 1, some p =>
    (rd items p).bind fun it =>
    match it.right with
    | none => .ok (some p)
    | some r => selLast items fuel (some r)

/-- The case `XK_End`. -/
def keyEnd (cfg : Config) (len : Nat) (s : State) : Res State :=
  if s.cursor < len then .ok { s with cursor := len }
  else
    (endPages cfg s.items.length s).bind fun s1 =>
    (selLast s1.items s1.items.length s1.sel).bind fun p =>
    .ok { s1 with sel := p }

/-- The case `XK_Home`. -/
def keyHome (cfg : Config) (s : State) : Res State :=
  if s.sel = s.matches_ then .ok { s with cursor := 0 }
  else calcoffsets cfg { s with sel := s.matches_, curr := s.matches_ }

/-- The case `XK_Next`. -/
def keyNext (cfg : Config) (s : State) : Res State :=
  if s.next = none then .ok s
  else calcoffsets cfg { s with sel := s.next, curr := s.next }

/-- The case `XK_Prior`. -/
def keyPrior (cfg : Config) (s : State) : Res State :=
  if s.prev = none then .ok s
  else calcoffsets cfg { s with sel := s.prev, curr := s.prev }

/-- The cases `XK_Return` and `XK_KP_Enter`. -/
def keyReturn (s : State) (shift : Bool) : Res State :=
  match s.sel with
  | none => handle_return s.text
  | some p =>
    if shift then handle_return s.text
    else (rd s.items p).bind fun it => handle_return it.text

/-- The case `XK_Tab`; a candidate that does not fit the buffer with its
terminator is a fault. -/
def keyTab (cfg : Config) (s : State) : Res State :=
  match s.sel with
  | none => .ok s
  | some p =>
    (rd s.items p).bind fun it =>
    if it.text.length < cfg.bufsiz then
      match_ cfg { s with text := it.text, cursor := it.text.length }
    else .fault

/-- The default case of the second switch. -/
def keyDefault (cfg : Config) (s : State) (buf : List Nat) : Res State :=
  if iscntrl (buf.headD 0) then .ok s else insert cfg s buf buf.length

/-- The second switch of `keypress`, on `ksym`; `len` is the length of the
text when `keypress` was entered. -/
def dispatch (cfg : Config) (len : Nat) (s : State) (ksym : Nat) (ev : XKeyEvent) : Res State :=
  if ksym = XK_Delete then keyDelete cfg len s
  else if ksym = XK_BackSpace then keyBackSpace cfg s
  else if ksym = XK_End then keyEnd cfg len s
  else if ksym = XK_Escape then .exited false []
  else if ksym = XK_Home then keyHome cfg s
  else if ksym = XK_Left then keyLeft cfg s
  else if ksym = XK_Up then keyUp cfg s
  else if ksym = XK_Next then keyNext cfg s
  else if ksym = XK_Prior then keyPrior cfg s
  else if ksym = XK_Return ∨ ksym = XK_KP_Enter then keyReturn s ev.shift
  else if ksym = XK_Right then keyRight cfg len s
  else if ksym = XK_Down then keyDown cfg s
  else if ksym = XK_Tab then keyTab cfg s
  else keyDefault cfg s ev.buf

/-- The case `XK_k` of the Control switch: `text[cursor] = 0; match();`. -/
def ctrlK (cfg : Config) (s : State) : Res State :=
  if s.cursor ≤ s.text.length then match_ cfg { s with text := s.text.take s.cursor }
  else .fault

/-- The case `XK_u` of the Control switch: `insert(NULL, 0 - cursor)`. -/
def ctrlU (cfg : Config) (s : State) : Res State :=
  insert cfg s [] (toSsize (toSize (0 - (s.cursor : Int))))

/-- One of the two loops of the case `XK_w`: delete the rune before the cursor
while it is a space (`space = true`) or while it is not (`space = false`). -/
def wordLoop (cfg : Config) (space : Bool) : Nat → State → Res State
  | 0, _ => .nofuel
  | fuel + 1, s =>
    if s.cursor > 0 then
      (nextrune s (-1)).bind fun r =>
      (readText s.text r).bind fun c =>
      if decide (c = 32) = space then
        (insert cfg s [] (toSsize (toSize ((r : Int) - s.cursor)))).bind (wordLoop cfg space fuel)
      else .ok s
    else .ok s

/-- The case `XK_w` of the Control switch. -/
def ctrlW (cfg : Config) (s : State) : Res State :=
  (wordLoop cfg true (s.text.length + 1) s).bind fun s1 =>
  wordLoop cfg false (s1.text.length + 1) s1

/-- The function `keypress`, without the drawing at its end. -/
def keypress (cfg : Config) (s : State) (ev : XKeyEvent) : Res State :=
  if ev.control then
    if tolower ev.ksym = XK_a then dispatch cfg s.text.length s XK_Home ev
    else if tolower ev.ksym = XK_b then dispatch cfg s.text.length s XK_Left ev
    else if tolower ev.ksym = XK_c then dispatch cfg s.text.length s XK_Escape ev
    else if tolower ev.ksym = XK_d then dispatch cfg s.text.length s XK_Delete ev
    else if tolower ev.ksym = XK_e then dispatch cfg s.text.length s XK_End ev
    else if tolower ev.ksym = XK_f then dispatch cfg s.text.length s XK_Right ev
    else if tolower ev.ksym = XK_h then dispatch cfg s.text.length s XK_BackSpace ev
    else if tolower ev.ksym = XK_i then dispatch cfg s.text.length s XK_Tab ev
    else if tolower ev.ksym = XK_j then dispatch cfg s.text.length s XK_Return ev
    else if tolower ev.ksym = XK_k then
      (ctrlK cfg s).bind fun s1 => dispatch cfg s.text.length s1 ev.ksym ev
    else if tolower ev.ksym = XK_n then dispatch cfg s.text.length s XK_Down ev
    else if tolower ev.ksym = XK_p then dispatch cfg s.text.length s XK_Up ev
    else if tolower ev.ksym = XK_u then
      (ctrlU cfg s).bind fun s1 => dispatch cfg s.text.length s1 ev.ksym ev
    else if tolower ev.ksym = XK_w then
      (ctrlW cfg s).bind fun s1 => dispatch cfg s.text.length s1 ev.ksym ev
    else .ok s
  else dispatch cfg s.text.length s ev.ksym ev

/-- The function `paste` on the selection data `p`, without the drawing. -/
def paste (cfg : Config) (s : State) (p : List Nat) : Res State :=
  insert cfg s p (p.takeWhile (fun c => c != 10)).length

/-- The items as `readstdin` leaves them, one per input line. -/
def readstdin (input : List (List Nat)) : List Item :=
  input.map fun t => ⟨t, none, none⟩

/-- The end of `setup`: the empty text and the first `match`. -/
def setup (cfg : Config) (input : List (List Nat)) : Res State :=
  match_ cfg ⟨readstdin input, [], 0, none, none, none, none, none⟩

/-! ## Specification vocabulary -/

/-- The `left` field of the item at `p`, when there is one. -/
def fleft (items : List Item) (p : Nat) : Option (Option Nat) := (items[p]?).map Item.left

/-- The `right` field of the item at `p`, when there is one. -/
def fright (items : List Item) (p : Nat) : Option (Option Nat) := (items[p]?).map Item.right

/-- The texts of the master list, in order. -/
def textsOf (items : List Item) : List (List Nat) := items.map Item.text

/-- The list `mv` is laid out in the heap as a doubly linked list through the
`left` and `right` fields, without repetition, starting and ending at `NULL`. -/
def Linked (items : List Item) (mv : List Nat) : Prop :=
  mv.Nodup ∧ ∀ pre p suf, mv = pre ++ p :: suf →
    fleft items p = some pre.getLast? ∧ fright items p = some suf.head?

/-- The tier the first loop of `match` puts a candidate text in: 0 exact,
1 prefix, 2 substring, 3 dropped. -/
def tierOf (cfg : Config) (text cand : List Nat) : Nat :=
  if fstrncmp cfg text cand (text.length + 1) = 0 then 0
  else if fstrncmp cfg text cand text.length = 0 then 1
  else if (fstrstr cfg cand text).isSome then 2
  else 3

/-- The positions among `idxs` whose text falls in tier `k`. -/
def tierList (cfg : Config) (text : List Nat) (texts : List (List Nat)) (k : Nat)
    (idxs : List Nat) : List Nat :=
  idxs.filter fun i => tierOf cfg text (texts.getD i []) == k

/-- The state of the first loop of `match` when the three tiers built so far
are `E`, `P` and `S`. -/
def TInv (texts : List (List Nat)) (t : Tiers) (E P S : List Nat) : Prop :=
  textsOf t.items = texts ∧ Linked t.items E ∧ Linked t.items P ∧ Linked t.items S ∧
  t.lexact = E.head? ∧ t.exactend = E.getLast? ∧
  t.lprefix = P.head? ∧ t.prefixend = P.getLast? ∧
  t.lsubstr = S.head? ∧ t.substrend = S.getLast? ∧
  (E ++ P ++ S).Nodup

/-- The ranked match list for the query `text` over the candidate texts
`texts`: the exact tier, then the prefix tier, then the substring tier, as
positions of the master list. -/
def mvOf (cfg : Config) (text : List Nat) (texts : List (List Nat)) : List Nat :=
  tierList cfg text texts 0 (List.range texts.length) ++
  tierList cfg text texts 1 (List.range texts.length) ++
  tierList cfg text texts 2 (List.range texts.length)

/-- The forward scan of `calcoffsets` over the remaining match list `suf`,
from the value `i`. -/
def scanNextL (cfg : Config) (texts : List (List Nat)) : Nat → List Nat → Option Nat
  | _, [] => none
  | i, p :: rest =>
    if (i + cost cfg (texts.getD p [])) % 2 ^ 32 > budget cfg then some p
    else scanNextL cfg texts ((i + cost cfg (texts.getD p [])) % 2 ^ 32) rest

/-- The backward scan of `calcoffsets` from the item `p` over the items
before it, nearest first, from the value `i`. -/
def scanPrevL (cfg : Config) (texts : List (List Nat)) : Nat → Nat → List Nat → Nat
  | _, p, [] => p
  | i, p, q :: rest =>
    if (i + cost cfg (texts.getD q [])) % 2 ^ 32 > budget cfg then p
    else scanPrevL cfg texts ((i + cost cfg (texts.getD q [])) % 2 ^ 32) q rest

/-- The session `match` leaves for the heap `items'`: every window pointer at
the head of the new match list `mv`, `next` after the forward scan. -/
def matchPost (cfg : Config) (s : State) (items' : List Item) (mv : List Nat) : State :=
  { items := items', text := s.text, cursor := s.cursor,
    matches_ := mv.head?, sel := mv.head?, prev := mv.head?, curr := mv.head?,
    next := scanNextL cfg (textsOf s.items) 0 mv }

/-- The result of `match` in terms of the new match list `mv` and the session
`s1` it leaves when it returns. -/
def matchOutcome (cfg : Config) (texts : List (List Nat)) (mv : List Nat) (s1 : State) :
    Res State :=
  if cfg.returnearly then
    match mv with
    | [] => .fault
    | [p] => .exited true (texts.getD p [])
    | _ :: _ :: _ => .ok s1
  else .ok s1

/-- The comparison rule in force: bytes are compared after case folding when
the comparison is case-insensitive, as they are otherwise. -/
def fold (cfg : Config) : Nat → Nat :=
  if cfg.insensitive then tolower else id

/-- The items reached from `p` through the `right` fields, as a traversal
`for(item = p; item; item = item->right)` visits them. -/
def viewFrom (items : List Item) : Nat → Option Nat → List Nat
  | _, none => []
  | 0, some _ => []
  | fuel + 1, some p => p :: viewFrom items fuel ((items[p]?).bind Item.right)

/-- The match list of a session: the items reached from `matches`. -/
def matchView (s : State) : List Nat :=
  viewFrom s.items s.items.length s.matches_

/-- Positions of the candidates whose text equals the query under the
comparison rule, in master-list order. -/
def specExact (cfg : Config) (q : List Nat) (texts : List (List Nat)) : List Nat :=
  (List.range texts.length).filter fun i =>
    decide ((texts.getD i []).map (fold cfg) = q.map (fold cfg))

/-- Positions of the candidates that start with the query without being equal
to it, in master-list order. -/
def specPrefix (cfg : Config) (q : List Nat) (texts : List (List Nat)) : List Nat :=
  (List.range texts.length).filter fun i =>
    decide (q.map (fold cfg) <+: (texts.getD i []).map (fold cfg) ∧
      ¬ (texts.getD i []).map (fold cfg) = q.map (fold cfg))

/-- Positions of the candidates that contain the query without starting with
it, in master-list order. -/
def specSubstr (cfg : Config) (q : List Nat) (texts : List (List Nat)) : List Nat :=
  (List.range texts.length).filter fun i =>
    decide (q.map (fold cfg) <:+: (texts.getD i []).map (fold cfg) ∧
      ¬ q.map (fold cfg) <+: (texts.getD i []).map (fold cfg))

/-- A configuration for examples: case-sensitive, no return-early, width mode
with a 200 pixel menu and ten pixels per byte. -/
def exampleCfg : Config :=
  { insensitive := false, returnearly := false, lines := 0, bh := 10, mw := 200,
    promptw := 0, inputw := 20, textw := fun t => 10 * t.length, bufsiz := 8192 }

/-- The session before the first `match`, for the candidate texts `input`
and the query `q`. -/
def freshState (input : List (List Nat)) (q : List Nat) : State :=
  ⟨readstdin input, q, q.length, none, none, none, none, none⟩

/-- Apply a function to the value a run returned. -/
def Res.map {α β : Type} (f : α → β) : Res α → Res β
  | .ok a => .ok (f a)
  | .exited b o => .exited b o
  | .fault => .fault
  | .nofuel => .nofuel

/-- What a re-filter is observed to produce: the match list, the window
bounds `curr` (first) and `next` (last), and the selection. -/
def window (s : State) : List Nat × Option Nat × Option Nat × Option Nat :=
  (matchView s, s.curr, s.next, s.sel)

/-- A key press that types the single byte `c`. -/
def typeKey (c : Nat) : XKeyEvent := ⟨c, false, false, [c]⟩

/-- A key press of the key `k` that carries no text. -/
def plainKey (k : Nat) : XKeyEvent := ⟨k, false, false, []⟩

/-- Run a sequence of key presses. -/
def pressAll (cfg : Config) (r : Res State) (evs : List XKeyEvent) : Res State :=
  evs.foldl (fun r ev => r.bind fun s => keypress cfg s ev) r

/-- The session in which the candidates "banana", "bar", "cab" were filtered
by typing "b", "a", "n", at the moment BackSpace has shortened the text to "ba"
and calls `match`: the links are the ones left by the earlier filters. -/
def staleState : State :=
  { items := [⟨[98, 97, 110, 97, 110, 97], none, none⟩, ⟨[98, 97, 114], some 0, none⟩,
              ⟨[99, 97, 98], some 1, none⟩],
    text := [98, 97], cursor := 2,
    matches_ := some 0, sel := some 0, prev := some 0, curr := some 0, next := none }

/-- The ranked match list the specification describes: exact, then proper
prefix, then substring-only candidates. -/
def specView (cfg : Config) (q : List Nat) (texts : List (List Nat)) : List Nat :=
  specExact cfg q texts ++ specPrefix cfg q texts ++ specSubstr cfg q texts

/-- The example configuration with return-early set. -/
def earlyCfg : Config := { exampleCfg with returnearly := true }

/-- The key presses that `keypress` treats as Submit: Return or keypad Enter
without Control, and Control-j. -/
def isSubmit (ev : XKeyEvent) : Prop :=
  (ev.control = false ∧ (ev.ksym = XK_Return ∨ ev.ksym = XK_KP_Enter)) ∨
  (ev.control = true ∧ tolower ev.ksym = XK_j)

instance (ev : XKeyEvent) : Decidable (isSubmit ev) := by
  unfold isSubmit; infer_instance

/-- The items a traversal `for(item = p; item != stop; item = item->right)`
visits, as the drawing code walks the window from `curr` to `next`. -/
def visibleFrom (items : List Item) (stop : Option Nat) : Nat → Option Nat → List Nat
  | 0, _ => []
  | fuel + 1, p =>
    if p = stop then []
    else
      match p with
      | none => []
      | some q => q :: visibleFrom items stop fuel ((items[q]?).bind Item.right)

/-- The visible items of a session: from `curr` up to, not including, `next`. -/
def visible (s : State) : List Nat :=
  visibleFrom s.items s.next s.items.length s.curr

/-- A row-mode configuration with three rows of ten pixels. -/
def rowCfg : Config := { exampleCfg with lines := 3 }

/-- Check from `l` on that the items of a list are linked to each other. -/
def linkedAt (items : List Item) : Option Nat → List Nat → Bool
  | _, [] => true
  | l, p :: rest =>
    (fleft items p == some l && fright items p == some rest.head?) && linkedAt items (some p) rest

/-- A computable check of `Linked`. -/
def linkedCheck (items : List Item) (mv : List Nat) : Bool :=
  decide mv.Nodup && linkedAt items none mv

/-- A session over five one-letter candidates, all of them matches of the
empty query, with the window not yet computed. -/
def fiveState : State :=
  { items := [⟨[97], none, some 1⟩, ⟨[98], some 0, some 2⟩, ⟨[99], some 1, some 3⟩,
              ⟨[100], some 2, some 4⟩, ⟨[101], some 3, none⟩],
    text := [], cursor := 0, matches_ := some 0, sel := some 0, prev := some 0,
    curr := some 0, next := none }

/-- The total that `calcoffsets` accumulates over the items `l`, without
wrap-around. -/
def sumCost (cfg : Config) (texts : List (List Nat)) (l : List Nat) : Nat :=
  (l.map fun p => cost cfg (texts.getD p [])).sum

/-- The measured render widths of the items `l`, added up. -/
def sumWidth (cfg : Config) (texts : List (List Nat)) (l : List Nat) : Nat :=
  (l.map fun p => cfg.textw (texts.getD p [])).sum

/-- A width-mode configuration whose budget is 20 pixels. -/
def narrowCfg : Config := { exampleCfg with mw := 60 }

/-- A session whose only match is 30 pixels wide. -/
def wideState : State :=
  { items := [⟨[97, 98, 99], none, none⟩], text := [], cursor := 0, matches_ := some 0,
    sel := some 0, prev := some 0, curr := some 0, next := none }

/-- The widths of the items `l`, each clamped to the budget, added up. -/
def sumClamped (cfg : Config) (texts : List (List Nat)) (l : List Nat) : Nat :=
  (l.map fun p => min (cfg.textw (texts.getD p [])) (budget cfg)).sum

/-- A session over the candidates "aaaaa", "bbbbb", "ccccc", "ddddd", all matches. -/
def fourState : State :=
  { items := [⟨[97, 97, 97, 97, 97], none, some 1⟩, ⟨[98, 98, 98, 98, 98], some 0, some 2⟩,
              ⟨[99, 99, 99, 99, 99], some 1, some 3⟩, ⟨[100, 100, 100, 100, 100], some 2, none⟩],
    text := [], cursor := 0, matches_ := some 0, sel := some 0, prev := some 0,
    curr := some 0, next := none }

/-- Five one-letter candidates "a" to "e". -/
def fiveTexts : List (List Nat) := [[97], [98], [99], [100], [101]]

/-- The key presses that `keypress` treats as SelectNext: Down without
Control, and Control-n. -/
def isSelectNext (ev : XKeyEvent) : Prop :=
  (ev.control = false ∧ ev.ksym = XK_Down) ∨ (ev.control = true ∧ tolower ev.ksym = XK_n)

instance (ev : XKeyEvent) : Decidable (isSelectNext ev) := by
  unfold isSelectNext; infer_instance

/-- Well-formedness of a byte string as UTF-8, with `pending` continuation
bytes still owed to the current lead byte. -/
def utf8Go : Nat → List Nat → Bool
  | pending, [] => pending == 0
  | 0, b :: rest =>
    if b < 0x80 then utf8Go 0 rest
    else if 0xc0 ≤ b ∧ b < 0xe0 then utf8Go 1 rest
    else if 0xe0 ≤ b ∧ b < 0xf0 then utf8Go 2 rest
    else if 0xf0 ≤ b ∧ b < 0xf8 then utf8Go 3 rest
    else false
  | k + 1, b :: rest => isCont b && utf8Go k rest

/-- The byte string is a sequence of complete UTF-8 encodings: each lead byte
is followed by exactly the continuation bytes it announces. -/
def utf8Valid (text : List Nat) : Bool := utf8Go 0 text

/-- A rune boundary of `text`: the end of the text, or the position of a byte
that is not a continuation byte. -/
def runeBoundary (text : List Nat) (c : Nat) : Prop :=
  c ≤ text.length ∧ (c = text.length ∨ isCont (text.getD c 0) = false)

instance (text : List Nat) (c : Nat) : Decidable (runeBoundary text c) := by
  unfold runeBoundary; infer_instance

/-- A session whose buffer is "béc" (bytes 0x62, 0xc3, 0xa9, 0x63), with the
cursor just after "é". -/
def accentState : State :=
  { items := [], text := [0x62, 0xc3, 0xa9, 0x63], cursor := 3, matches_ := none,
    sel := none, prev := none, curr := none, next := none }

/-- The arithmetic of `calcoffsets` stays in range: in row mode the `int`
product `lines * bh` does not overflow, in width mode the budget
`mw - (promptw + inputw + textw("<") + textw(">"))` is not negative. -/
def NoOverflow (cfg : Config) : Prop :=
  if 0 < cfg.lines then cfg.lines * cfg.bh < 2 ^ 31 else budget cfg < 2 ^ 31

instance (cfg : Config) : Decidable (NoOverflow cfg) := by
  unfold NoOverflow; infer_instance

/-- The window of the session `s` over the match list `mv`: either the list
is empty and every pointer is `NULL`, or `curr` heads a non-empty run of
items that holds `sel` and ends just before `next`, and `prev` is what the
backward scan from `curr` gives. -/
def Win (cfg : Config) (s : State) (mv : List Nat) : Prop :=
  (mv = [] ∧ s.curr = none ∧ s.next = none ∧ s.sel = none ∧ s.prev = none) ∨
  (∃ pre c vis rest x, mv = pre ++ c :: (vis ++ rest) ∧ s.curr = some c ∧
    s.next = rest.head? ∧
    s.prev = some (scanPrevL cfg (textsOf s.items) 0 c pre.reverse) ∧
    s.sel = some x ∧ x ∈ c :: vis)

/-- The invariant of a session: its match list is linked in the heap from
`matches`, and its window is in order. -/
def WinInv (cfg : Config) (s : State) : Prop :=
  ∃ mv, Linked s.items mv ∧ s.matches_ = mv.head? ∧ Win cfg s mv

/-- An input event of the session: a key press, or the arrival of pasted
selection data. -/
inductive Action where
  | key (ev : XKeyEvent)
  | pasted (p : List Nat)
deriving DecidableEq, Repr

/-- One turn of the event loop `run`. -/
def step (cfg : Config) (s : State) : Action → Res State
  | .key ev => keypress cfg s ev
  | .pasted p => paste cfg s p

/-- The sessions reachable from the first `match` of `setup` on the
candidates `input` by a sequence of events. -/
inductive Reachable (cfg : Config) (input : List (List Nat)) : State → Prop where
  | init (s : State) : setup cfg input = .ok s → Reachable cfg input s
  | next (s s' : State) (a : Action) : Reachable cfg input s → step cfg s a = .ok s' →
      Reachable cfg input s'

/-- The session `setup` leaves for the five candidates in row mode: the first
three items visible. -/
def fiveStart : State := { fiveState with next := some 3 }

/-- The session after End is pressed in `fiveStart`. -/
def fiveAtEnd : State :=
  { fiveState with sel := some 4, prev := some 0, curr := some 3, next := none }


/-- Two candidates "ab" and "ac" for the examples on selection. -/
def pairTexts : List (List Nat) := [[97, 98], [97, 99]]


/-- The session left by filtering the candidates "ab" and "ac" with the
query "a". -/
def pairState : State :=
  { items := [⟨[97, 98], none, some 1⟩, ⟨[97, 99], some 0, none⟩], text := [97], cursor := 1,
    matches_ := some 0, sel := some 0, prev := some 0, curr := some 0, next := none }

/-- A configuration whose text buffer holds at most four bytes. -/
def tinyCfg : Config := { exampleCfg with bufsiz := 5 }


/-- The key presses that `keypress` treats as AcceptCompletion: Tab without
Control, and Control-i. -/
def isAcceptCompletion (ev : XKeyEvent) : Prop :=
  (ev.control = false ∧ ev.ksym = XK_Tab) ∨ (ev.control = true ∧ tolower ev.ksym = XK_i)

instance (ev : XKeyEvent) : Decidable (isAcceptCompletion ev) := by
  unfold isAcceptCompletion; infer_instance


/-- The key presses that `keypress` treats as MoveCursor(-1): Left without
Control, and Control-b. -/
def isMoveLeft (ev : XKeyEvent) : Prop :=
  (ev.control = false ∧ ev.ksym = XK_Left) ∨ (ev.control = true ∧ tolower ev.ksym = XK_b)

instance (ev : XKeyEvent) : Decidable (isMoveLeft ev) := by
  unfold isMoveLeft; infer_instance

/-- The key presses that `keypress` treats as MoveCursor(+1): Right without
Control, and Control-f. -/
def isMoveRight (ev : XKeyEvent) : Prop :=
  (ev.control = false ∧ ev.ksym = XK_Right) ∨ (ev.control = true ∧ tolower ev.ksym = XK_f)

instance (ev : XKeyEvent) : Decidable (isMoveRight ev) := by
  unfold isMoveRight; infer_instance

/-- The session `fiveStart` with the buffer "béc" and the cursor after "é". -/
def accentRows : State := { fiveStart with text := [0x62, 0xc3, 0xa9, 0x63], cursor := 3 }


/-- The key presses that `keypress` treats as SelectLast: End without
Control, and Control-e. -/
def isSelectLast (ev : XKeyEvent) : Prop :=
  (ev.control = false ∧ ev.ksym = XK_End) ∨ (ev.control = true ∧ tolower ev.ksym = XK_e)

instance (ev : XKeyEvent) : Decidable (isSelectLast ev) := by
  unfold isSelectLast; infer_instance


/-- The key presses that `keypress` treats as SelectPrev: Up without Control,
and Control-p. -/
def isSelectPrev (ev : XKeyEvent) : Prop :=
  (ev.control = false ∧ ev.ksym = XK_Up) ∨ (ev.control = true ∧ tolower ev.ksym = XK_p)

instance (ev : XKeyEvent) : Decidable (isSelectPrev ev) := by
  unfold isSelectPrev; infer_instance

/-- The session after End and Up are pressed in `fiveStart`: the window holds
the items 4..5 and the fourth item, the first visible one, is selected. -/
def fivePaged : State :=
  { fiveState with sel := some 3, prev := some 0, curr := some 3, next := none }


/-- The window of the session is up to date: running `calcoffsets` again
changes nothing. -/
def Fresh (cfg : Config) (s : State) : Prop :=
  calcoffsets cfg s = .ok s


/-- The key press that `keypress` treats as SelectNextPage: Next (Page Down)
without Control. -/
def isSelectNextPage (ev : XKeyEvent) : Prop :=
  ev.control = false ∧ ev.ksym = XK_Next

instance (ev : XKeyEvent) : Decidable (isSelectNextPage ev) := by
  unfold isSelectNextPage; infer_instance

/-- The key press that `keypress` treats as SelectPrevPage: Prior (Page Up)
without Control. -/
def isSelectPrevPage (ev : XKeyEvent) : Prop :=
  ev.control = false ∧ ev.ksym = XK_Prior

instance (ev : XKeyEvent) : Decidable (isSelectPrevPage ev) := by
  unfold isSelectPrevPage; infer_instance


/-- The position reached from `k` by moving left over the maximal run of
bytes of `t` that satisfy `p`. -/
def skipLeft (p : Nat → Bool) (t : List Nat) : Nat → Nat
  | 0 => 0
  | k + 1 => if p (t.getD k 0) then skipLeft p t k else k + 1

/-- The position reached from the cursor `c` by skipping the maximal run of
space characters immediately left of it.  In well-formed UTF-8 the space is
the single byte 32, which is no part of any other rune. -/
def skipSpaces (t : List Nat) (c : Nat) : Nat := skipLeft (fun b => b == 32) t c

/-- The position reached from `j` by skipping the maximal run of non-space
runes left of it.  In well-formed UTF-8 no byte of a non-space rune is 32. -/
def skipWord (t : List Nat) (j : Nat) : Nat := skipLeft (fun b => b != 32) t j

/-- The key presses that are DeleteWordBackward: Control with `w`, where the
looked-up string is the control character of the key. -/
def isDeleteWordBackward (ev : XKeyEvent) : Prop :=
  ev.control = true ∧ tolower ev.ksym = XK_w ∧ iscntrl (ev.buf.headD 0) = true

instance (ev : XKeyEvent) : Decidable (isDeleteWordBackward ev) := by
  unfold isDeleteWordBackward; infer_instance

/-- A session over two candidates whose buffer is "ab cd  " with the cursor
at its end. -/
def wordState : State :=
  { pairState with text := [0x61, 0x62, 0x20, 0x63, 0x64, 0x20, 0x20], cursor := 7 }

/-- The key press Control-w, whose looked-up string is the byte 0x17. -/
def deleteWordKey : XKeyEvent := ⟨XK_w, true, false, [0x17]⟩



/-- A row-mode configuration whose row count times the row height,
268435456 * 16 = 2^32, is beyond the arithmetic of `calcoffsets`: the budget
`n` comes out as 0. -/
def wrapCfg : Config := { exampleCfg with lines := 268435456, bh := 16 }

/-- The session `setup` leaves for the five candidates under `wrapCfg`:
`next` is `curr`. -/
def fiveWrapped : State := { fiveState with next := some 0 }

/-- A single candidate whose text starts with a continuation byte: the bytes
0xa9, 0x78. -/
def strayTexts : List (List Nat) := [[0xa9, 0x78]]

/-- The session over `strayTexts` after Tab has copied the candidate into the
buffer and Left has moved the cursor before the "x". -/
def strayState : State :=
  { items := [⟨[0xa9, 0x78], none, none⟩], text := [0xa9, 0x78], cursor := 1,
    matches_ := some 0, sel := some 0, prev := some 0, curr := some 0, next := none }

/-! # Theorems -/

/-! ## Heap updates -/

theorem setLeft_ok (items : List Item) (p : Nat) (v : Option Nat) (hp : p < items.length) :
    ∃ items', setLeft items p v = .ok items' ∧ items'.length = items.length ∧
      textsOf items' = textsOf items ∧
      (∀ q, fleft items' q = if q = p then some v else fleft items q) ∧
      (∀ q, fright items' q = fright items q) := by
  have h : items[p]? = some items[p] := List.getElem?_eq_getElem hp
  refine ⟨items.set p { items[p] with left := v }, by simp [setLeft, h], by simp, ?_, ?_, ?_⟩
  · simp only [textsOf, List.map_set]
    apply List.ext_getElem? ; intro n
    by_cases hn : p = n
    · subst hn; simp [List.getElem?_set, hp]
    · simp [List.getElem?_set, hn]
  · intro q
    by_cases hq : q = p
    · subst hq; simp [fleft, List.getElem?_set, hp]
    · have : p ≠ q := fun h => hq h.symm
      simp [fleft, hq, List.getElem?_set, this]
  · intro q
    by_cases hq : q = p
    · subst hq; simp [fright, List.getElem?_set, hp]
    · have : p ≠ q := fun h => hq h.symm
      simp [fright, List.getElem?_set, this]

theorem setRight_ok (items : List Item) (p : Nat) (v : Option Nat) (hp : p < items.length) :
    ∃ items', setRight items p v = .ok items' ∧ items'.length = items.length ∧
      textsOf items' = textsOf items ∧
      (∀ q, fleft items' q = fleft items q) ∧
      (∀ q, fright items' q = if q = p then some v else fright items q) := by
  have h : items[p]? = some items[p] := List.getElem?_eq_getElem hp
  refine ⟨items.set p { items[p] with right := v }, by simp [setRight, h], by simp, ?_, ?_, ?_⟩
  · simp only [textsOf, List.map_set]
    apply List.ext_getElem? ; intro n
    by_cases hn : p = n
    · subst hn; simp [List.getElem?_set, hp]
    · simp [List.getElem?_set, hn]
  · intro q
    by_cases hq : q = p
    · subst hq; simp [fleft, List.getElem?_set, hp]
    · have : p ≠ q := fun h => hq h.symm
      simp [fleft, List.getElem?_set, this]
  · intro q
    by_cases hq : q = p
    · subst hq; simp [fright, List.getElem?_set, hp]
    · have : p ≠ q := fun h => hq h.symm
      simp [fright, hq, List.getElem?_set, this]

/-! ## Linked lists in the heap -/

theorem eq_nil_or_snoc (l : List Nat) : l = [] ∨ ∃ l' b, l = l' ++ [b] := by
  rcases List.eq_nil_or_concat l with h | ⟨l', b, h⟩
  · exact Or.inl h
  · exact Or.inr ⟨l', b, by rw [h, List.concat_eq_append]⟩

theorem split_snoc {l pre suf : List Nat} {a p : Nat} (h : l ++ [a] = pre ++ p :: suf) :
    (suf = [] ∧ p = a ∧ pre = l) ∨ (∃ suf', suf = suf' ++ [a] ∧ l = pre ++ p :: suf') := by
  rcases eq_nil_or_snoc suf with hs | ⟨s, b, hs⟩
  · subst hs
    have := List.append_inj' h (by simp)
    simp at this
    exact Or.inl ⟨rfl, this.2.symm, this.1.symm⟩
  · subst hs
    have h' : l ++ [a] = (pre ++ p :: s) ++ [b] := by simpa using h
    have := List.append_inj' h' (by simp)
    simp at this
    exact Or.inr ⟨s, by rw [this.2], this.1⟩

theorem Linked.nil (items : List Item) : Linked items [] := by
  refine ⟨List.nodup_nil, ?_⟩
  intro pre p suf h
  simp at h

theorem Linked.lt {items : List Item} {mv : List Nat} (h : Linked items mv) {p : Nat}
    (hp : p ∈ mv) : p < items.length := by
  obtain ⟨pre, suf, rfl⟩ := List.append_of_mem hp
  have := (h.2 pre p suf rfl).1
  simp only [fleft] at this
  by_contra hlt
  rw [List.getElem?_eq_none (by omega)] at this
  simp at this

theorem Linked.frame {items items' : List Item} {mv : List Nat} (h : Linked items mv)
    (hf : ∀ q ∈ mv, fleft items' q = fleft items q ∧ fright items' q = fright items q) :
    Linked items' mv := by
  refine ⟨h.1, ?_⟩
  intro pre p suf e
  have hp : p ∈ mv := by rw [e]; simp
  rw [(hf p hp).1, (hf p hp).2]
  exact h.2 pre p suf e

theorem last_unique {l pre suf l' : List Nat} {e : Nat} (hnd : l.Nodup)
    (h1 : l = pre ++ e :: suf) (h2 : l = l' ++ [e]) : suf = [] := by
  rcases eq_nil_or_snoc suf with hs | ⟨s, b, hs⟩
  · exact hs
  · subst hs
    exfalso
    have h' : l' ++ [e] = (pre ++ e :: s) ++ [b] := by rw [← h2, h1]; simp
    have := List.append_inj' h' (by simp)
    simp at this
    rw [h1, ← this.2] at hnd
    simp [List.nodup_append] at hnd

theorem appenditem_ok (items : List Item) (l : List Nat) (a : Nat) (hl : Linked items l)
    (hnd : a ∉ l) (ha : a < items.length) :
    ∃ items', appenditem items a l.head? l.getLast? = .ok (items', (l ++ [a]).head?, some a) ∧
      items'.length = items.length ∧ textsOf items' = textsOf items ∧
      Linked items' (l ++ [a]) ∧
      (∀ q, q ∉ l ++ [a] → fleft items' q = fleft items q ∧ fright items' q = fright items q) := by
  rcases eq_nil_or_snoc l with hn | ⟨l', e, hn⟩
  · subst hn
    obtain ⟨i1, h1, hl1, ht1, hL1, hR1⟩ := setLeft_ok items a none ha
    obtain ⟨i2, h2, hl2, ht2, hL2, hR2⟩ := setRight_ok i1 a none (by omega)
    refine ⟨i2, by simp [appenditem, h1, h2, Res.bind], by omega, by rw [ht2, ht1], ?_, ?_⟩
    · refine ⟨by simp, ?_⟩
      intro pre p suf e
      have hh : ([] : List Nat) ++ [a] = pre ++ p :: suf := by simpa using e
      rcases split_snoc hh with ⟨rfl, rfl, rfl⟩ | ⟨s', _, h'⟩
      · simp [hL2, hR2, hL1]
      · simp at h'
    · intro q hq
      have : q ≠ a := by simpa using hq
      simp [hL2, hR2, hL1, hR1, this]
  · subst hn
    have he : e < items.length := hl.lt (by simp)
    have hea : e ≠ a := by rintro rfl; simp at hnd
    obtain ⟨i0, h0, hl0, ht0, hL0, hR0⟩ := setRight_ok items e (some a) he
    obtain ⟨i1, h1, hl1, ht1, hL1, hR1⟩ := setLeft_ok i0 a (some e) (by omega)
    obtain ⟨i2, h2, hl2, ht2, hL2, hR2⟩ := setRight_ok i1 a none (by omega)
    refine ⟨i2, ?_, by omega, by rw [ht2, ht1, ht0], ?_, ?_⟩
    · have hh : (l' ++ [e]).head? = (l' ++ [e] ++ [a]).head? := by
        cases l' <;> simp
      simp [appenditem, h0, h1, h2, Res.bind, List.getLast?_concat, hh]
    · refine ⟨?_, ?_⟩
      · have := hl.1
        rw [List.nodup_append]
        refine ⟨this, by simp, ?_⟩
        intro x hx hx'
        simp only [List.mem_singleton] at hx'
        subst hx'
        exact hnd hx
      · intro pre p suf es
        rcases split_snoc es with ⟨rfl, rfl, rfl⟩ | ⟨s', rfl, h'⟩
        · simp [hL2, hR2, hL1, List.getLast?_concat]
        · have hpa : p ≠ a := by
            rintro rfl
            apply hnd; rw [h']; simp
          have := hl.2 pre p s' h'
          rw [hL2, hR2, hL1, hR1, hL0, hR0]
          simp only [hpa, if_false]
          refine ⟨this.1, ?_⟩
          by_cases hpe : p = e
          · subst hpe
            have := last_unique hl.1 h' rfl
            subst this
            simp
          · simp only [hpe, if_false, this.2]
            rcases eq_nil_or_snoc s' with hs | ⟨s, b, hs⟩
            · subst hs
              have := List.append_inj' (show l' ++ [e] = pre ++ [p] from h') (by simp)
              simp at this
              exact absurd this.2.symm hpe
            · subst hs
              cases s <;> simp
    · intro q hq
      have hqa : q ≠ a := by
        intro h; apply hq; simp [h]
      have hqe : q ≠ e := by
        intro h; apply hq; simp [h]
      simp [hL2, hR2, hL1, hR1, hL0, hR0, hqa, hqe]

theorem first_unique {l pre suf l' : List Nat} {h : Nat} (hnd : l.Nodup)
    (h1 : l = pre ++ h :: suf) (h2 : l = h :: l') : pre = [] := by
  cases pre with
  | nil => rfl
  | cons x pre' =>
    exfalso
    rw [h1] at h2
    simp at h2
    rw [h1, h2.1] at hnd
    simp [List.nodup_append] at hnd

theorem split_append {A B pre suf : List Nat} {p : Nat} (h : A ++ B = pre ++ p :: suf) :
    (∃ s, A = pre ++ p :: s ∧ suf = s ++ B) ∨ (∃ a, B = a ++ p :: suf ∧ pre = A ++ a) := by
  rcases List.append_eq_append_iff.1 h with ⟨a', h1, h2⟩ | ⟨c', h1, h2⟩
  · exact Or.inr ⟨a', h2, h1⟩
  · cases c' with
    | nil => exact Or.inr ⟨[], by simpa using h2.symm, by simpa using h1.symm⟩
    | cons x c'' =>
      simp at h2
      exact Or.inl ⟨c'', by rw [h1, h2.1], h2.2⟩

theorem joinTier_ok (items : List Item) (A B : List Nat) (hA : Linked items A)
    (hB : Linked items B) (hnd : (A ++ B).Nodup) :
    ∃ items', joinTier items A.head? A.getLast? B.head? B.getLast?
        = .ok (items', (A ++ B).head?, (A ++ B).getLast?) ∧
      items'.length = items.length ∧ textsOf items' = textsOf items ∧
      Linked items' (A ++ B) ∧
      (∀ q, q ∉ A ++ B → fleft items' q = fleft items q ∧ fright items' q = fright items q) := by
  cases B with
  | nil => exact ⟨items, by simp [joinTier], rfl, rfl, by simpa using hA, fun q _ => ⟨rfl, rfl⟩⟩
  | cons h B' =>
    rcases eq_nil_or_snoc A with hn | ⟨A', e, hn⟩
    · subst hn
      exact ⟨items, by simp [joinTier, List.getLast?_cons], rfl, rfl, by simpa using hB,
        fun q _ => ⟨rfl, rfl⟩⟩
    · subst hn
      have he : e < items.length := hA.lt (by simp)
      have hh : h < items.length := hB.lt (by simp)
      have hdisj : ∀ x, x ∈ A' ++ [e] → x ∈ h :: B' → False := by
        intro x hx hx'
        exact (List.nodup_append.1 hnd).2.2 hx hx'
      obtain ⟨i1, h1, hl1, ht1, hL1, hR1⟩ := setRight_ok items e (some h) he
      obtain ⟨i2, h2, hl2, ht2, hL2, hR2⟩ := setLeft_ok i1 h (some e) (by omega)
      refine ⟨i2, ?_, by omega, by rw [ht2, ht1], ⟨hnd, ?_⟩, ?_⟩
      · have e1 : (A' ++ [e]).head? = (A' ++ [e] ++ h :: B').head? := by cases A' <;> simp
        have e2 : (h :: B').getLast? = (A' ++ [e] ++ h :: B').getLast? := by
          rw [List.getLast?_append]; simp [List.getLast?_cons]
        simp only [joinTier, List.head?_cons, List.getLast?_concat, h1, h2, Res.bind, e1, e2]
      · intro pre p suf es
        rw [hL2, hR2, hL1, hR1]
        rcases split_append es with ⟨s, hs, rfl⟩ | ⟨a, ha, rfl⟩
        · have hpA : p ∈ A' ++ [e] := by rw [hs]; simp
          have hph : p ≠ h := by
            rintro rfl; exact hdisj p hpA (by simp)
          have := hA.2 pre p s hs
          simp only [hph, if_false]
          refine ⟨this.1, ?_⟩
          by_cases hpe : p = e
          · subst hpe
            have := last_unique hA.1 hs rfl
            subst this
            simp
          · simp only [hpe, if_false, this.2]
            rcases eq_nil_or_snoc s with hs' | ⟨s', b, hs'⟩
            · subst hs'
              have := List.append_inj' (show A' ++ [e] = pre ++ [p] from hs) (by simp)
              simp at this
              exact absurd this.2.symm hpe
            · subst hs'
              cases s' <;> simp
        · have hpB : p ∈ h :: B' := by rw [ha]; simp
          have hpe : p ≠ e := by
            rintro rfl; exact hdisj p (by simp) hpB
          have := hB.2 a p suf ha
          simp only [hpe, if_false]
          refine ⟨?_, this.2⟩
          by_cases hph : p = h
          · subst hph
            have := first_unique hB.1 ha rfl
            subst this
            simp [List.getLast?_concat]
          · simp only [hph, if_false, this.1]
            cases a with
            | nil => simp at ha; exact absurd ha.1.symm hph
            | cons x a' =>
              rw [List.getLast?_append]
              simp [List.getLast?_cons]
      · intro q hq
        have hqe : q ≠ e := by
          intro h'; apply hq; simp [h']
        have hqh : q ≠ h := by
          intro h'; apply hq; simp [h']
        simp [hL2, hR2, hL1, hR1, hqe, hqh]

/-! ## The first loop of match -/

theorem textsOf_length (items : List Item) : (textsOf items).length = items.length := by
  simp [textsOf]

theorem rd_ok (items : List Item) (p : Nat) (hp : p < items.length) :
    ∃ it, rd items p = .ok it ∧ it.text = (textsOf items).getD p [] ∧
      fleft items p = some it.left ∧ fright items p = some it.right := by
  have h : items[p]? = some items[p] := List.getElem?_eq_getElem hp
  refine ⟨items[p], by simp [rd, h], ?_, by simp [fleft, h], by simp [fright, h]⟩
  simp [textsOf, List.getD, h]

theorem tierList_snoc (cfg : Config) (text : List Nat) (texts : List (List Nat)) (k : Nat)
    (idxs : List Nat) (i : Nat) :
    tierList cfg text texts k (idxs ++ [i]) = tierList cfg text texts k idxs ++
      (if tierOf cfg text (texts.getD i []) = k then [i] else []) := by
  unfold tierList
  rw [List.filter_append]
  congr 1
  by_cases h : tierOf cfg text (texts.getD i []) = k
  · rw [if_pos h, List.filter_cons_of_pos (by simpa using h)]; rfl
  · rw [if_neg h, List.filter_cons_of_neg (by simpa using h)]; rfl

theorem matchStep_ok (cfg : Config) (text : List Nat) (texts : List (List Nat)) (t : Tiers)
    (E P S : List Nat) (i : Nat) (hinv : TInv texts t E P S) (hi : i < texts.length)
    (hfresh : i ∉ E ++ P ++ S) :
    ∃ t', matchStep cfg text t i = .ok t' ∧
      TInv texts t'
        (E ++ (if tierOf cfg text (texts.getD i []) = 0 then [i] else []))
        (P ++ (if tierOf cfg text (texts.getD i []) = 1 then [i] else []))
        (S ++ (if tierOf cfg text (texts.getD i []) = 2 then [i] else [])) := by
  obtain ⟨htx, hE, hP, hS, e1, e2, p1, p2, s1, s2, hnd⟩ := hinv
  have hil : i < t.items.length := by rw [← textsOf_length, htx]; exact hi
  obtain ⟨it, hrd, hit, -, -⟩ := rd_ok t.items i hil
  rw [htx] at hit
  generalize texts.getD i [] = c at hit ⊢
  have hiE : i ∉ E := fun h => hfresh (by simp [h])
  have hiP : i ∉ P := fun h => hfresh (by simp [h])
  have hiS : i ∉ S := fun h => hfresh (by simp [h])
  have hnd' := hnd
  rw [List.nodup_append, List.nodup_append] at hnd'
  obtain ⟨⟨hnE, hnP, hEP⟩, hnS, hEPS⟩ := hnd'
  have dEP : ∀ x, x ∈ E → x ∈ P → False := fun x a b => hEP a b
  have dES : ∀ x, x ∈ E → x ∈ S → False := fun x a b => hEPS (by simp [a]) b
  have dPS : ∀ x, x ∈ P → x ∈ S → False := fun x a b => hEPS (by simp [a]) b
  have n10 : ¬ (1 : Nat) = 0 := by decide
  have n12 : ¬ (1 : Nat) = 2 := by decide
  have n20 : ¬ (2 : Nat) = 0 := by decide
  have n21 : ¬ (2 : Nat) = 1 := by decide
  have n01 : ¬ (0 : Nat) = 1 := by decide
  have n02 : ¬ (0 : Nat) = 2 := by decide
  have n30 : ¬ (3 : Nat) = 0 := by decide
  have n31 : ¬ (3 : Nat) = 1 := by decide
  have n32 : ¬ (3 : Nat) = 2 := by decide
  simp only [matchStep, hrd, Res.bind, hit]
  by_cases c0 : fstrncmp cfg text c (text.length + 1) = 0
  · have ht : tierOf cfg text c = 0 := by unfold tierOf; rw [if_pos c0]
    obtain ⟨items', hap, hlen, htex, hlk, hfr⟩ := appenditem_ok t.items E i hE hiE hil
    rw [← e1, ← e2] at hap
    rw [if_pos c0, hap, ht, if_pos rfl, if_neg n01, if_neg n02]
    refine ⟨_, rfl, ?_⟩
    simp only [List.append_nil]
    refine ⟨by rw [htex, htx], hlk, ?_, ?_, rfl, by simp [List.getLast?_concat],
      p1, p2, s1, s2, ?_⟩
    · apply hP.frame; intro q hq; apply hfr
      simp only [List.mem_append, List.mem_singleton, not_or]
      exact ⟨fun h => dEP q h hq, fun h => hiP (h ▸ hq)⟩
    · apply hS.frame; intro q hq; apply hfr
      simp only [List.mem_append, List.mem_singleton, not_or]
      exact ⟨fun h => dES q h hq, fun h => hiS (h ▸ hq)⟩
    · have : (E ++ [i] ++ P ++ S).Perm (i :: (E ++ P ++ S)) := by
        simp only [List.append_assoc]
        exact List.perm_middle
      rw [this.nodup_iff]
      exact List.nodup_cons.2 ⟨hfresh, hnd⟩
  · by_cases c1 : fstrncmp cfg text c text.length = 0
    · have ht : tierOf cfg text c = 1 := by unfold tierOf; rw [if_neg c0, if_pos c1]
      obtain ⟨items', hap, hlen, htex, hlk, hfr⟩ := appenditem_ok t.items P i hP hiP hil
      rw [← p1, ← p2] at hap
      rw [if_neg c0, if_pos c1, hap, ht, if_pos rfl, if_neg n10, if_neg n12]
      refine ⟨_, rfl, ?_⟩
      simp only [List.append_nil]
      refine ⟨by rw [htex, htx], ?_, hlk, ?_, e1, e2, rfl, by simp [List.getLast?_concat],
        s1, s2, ?_⟩
      · apply hE.frame; intro q hq; apply hfr
        simp only [List.mem_append, List.mem_singleton, not_or]
        exact ⟨fun h => dEP q hq h, fun h => hiE (h ▸ hq)⟩
      · apply hS.frame; intro q hq; apply hfr
        simp only [List.mem_append, List.mem_singleton, not_or]
        exact ⟨fun h => dPS q h hq, fun h => hiS (h ▸ hq)⟩
      · have : (E ++ (P ++ [i]) ++ S).Perm (i :: (E ++ P ++ S)) := by
          have h1 : E ++ (P ++ [i]) ++ S = (E ++ P) ++ i :: S := by simp
          have h2 : E ++ P ++ S = (E ++ P) ++ S := rfl
          rw [h1, h2]
          exact List.perm_middle
        rw [this.nodup_iff]
        exact List.nodup_cons.2 ⟨hfresh, hnd⟩
    · by_cases c2 : (fstrstr cfg c text).isSome = true
      · have ht : tierOf cfg text c = 2 := by
          unfold tierOf; rw [if_neg c0, if_neg c1, if_pos c2]
        obtain ⟨items', hap, hlen, htex, hlk, hfr⟩ := appenditem_ok t.items S i hS hiS hil
        rw [← s1, ← s2] at hap
        rw [if_neg c0, if_neg c1, if_pos c2, hap, ht, if_pos rfl, if_neg n20, if_neg n21]
        refine ⟨_, rfl, ?_⟩
        simp only [List.append_nil]
        refine ⟨by rw [htex, htx], ?_, ?_, hlk, e1, e2, p1, p2, rfl,
          by simp [List.getLast?_concat], ?_⟩
        · apply hE.frame; intro q hq; apply hfr
          simp only [List.mem_append, List.mem_singleton, not_or]
          exact ⟨fun h => dES q hq h, fun h => hiE (h ▸ hq)⟩
        · apply hP.frame; intro q hq; apply hfr
          simp only [List.mem_append, List.mem_singleton, not_or]
          exact ⟨fun h => dPS q hq h, fun h => hiP (h ▸ hq)⟩
        · have : (E ++ P ++ (S ++ [i])).Perm (i :: (E ++ P ++ S)) := by
            have h1 : E ++ P ++ (S ++ [i]) = (E ++ P ++ S) ++ [i] := by simp
            rw [h1]
            exact List.perm_append_singleton i (E ++ P ++ S)
          rw [this.nodup_iff]
          exact List.nodup_cons.2 ⟨hfresh, hnd⟩
      · have ht : tierOf cfg text c = 3 := by
          unfold tierOf; rw [if_neg c0, if_neg c1, if_neg c2]
        rw [if_neg c0, if_neg c1, if_neg c2, ht, if_neg n30, if_neg n31, if_neg n32]
        refine ⟨_, rfl, ?_⟩
        simp only [List.append_nil]
        exact ⟨htx, hE, hP, hS, e1, e2, p1, p2, s1, s2, hnd⟩

theorem tierList_cons (cfg : Config) (text : List Nat) (texts : List (List Nat)) (k : Nat)
    (idxs : List Nat) (i : Nat) :
    tierList cfg text texts k (i :: idxs) =
      (if tierOf cfg text (texts.getD i []) = k then [i] else []) ++
        tierList cfg text texts k idxs := by
  unfold tierList
  by_cases h : tierOf cfg text (texts.getD i []) = k
  · rw [if_pos h, List.filter_cons_of_pos (by simpa using h)]; rfl
  · rw [if_neg h, List.filter_cons_of_neg (by simpa using h)]; rfl

theorem matchLoop_ok (cfg : Config) (text : List Nat) (texts : List (List Nat)) :
    ∀ (idxs : List Nat) (t : Tiers) (E P S : List Nat), TInv texts t E P S →
      (∀ i ∈ idxs, i < texts.length) → (∀ i ∈ idxs, i ∉ E ++ P ++ S) → idxs.Nodup →
      ∃ t', matchLoop cfg text idxs t = .ok t' ∧
        TInv texts t' (E ++ tierList cfg text texts 0 idxs) (P ++ tierList cfg text texts 1 idxs)
          (S ++ tierList cfg text texts 2 idxs) := by
  intro idxs
  induction idxs with
  | nil =>
    intro t E P S hinv _ _ _
    exact ⟨t, rfl, by simpa [tierList] using hinv⟩
  | cons i rest ih =>
    intro t E P S hinv hlt hfresh hnd
    obtain ⟨t1, h1, hinv1⟩ := matchStep_ok cfg text texts t E P S i hinv
      (hlt i (by simp)) (hfresh i (by simp))
    have hir : i ∉ rest := (List.nodup_cons.1 hnd).1
    obtain ⟨t2, h2, hinv2⟩ := ih t1 _ _ _ hinv1 (fun j hj => hlt j (by simp [hj]))
      (by
        intro j hj hmem
        have hji : j ≠ i := fun h => hir (h ▸ hj)
        apply hfresh j (by simp [hj])
        simp only [List.mem_append] at hmem ⊢
        rcases hmem with (hm | hm) | hm
        · rcases hm with hm | hm
          · exact Or.inl (Or.inl hm)
          · split at hm
            · simp at hm; exact absurd hm hji
            · simp at hm
        · rcases hm with hm | hm
          · exact Or.inl (Or.inr hm)
          · split at hm
            · simp at hm; exact absurd hm hji
            · simp at hm
        · rcases hm with hm | hm
          · exact Or.inr hm
          · split at hm
            · simp at hm; exact absurd hm hji
            · simp at hm)
      (List.nodup_cons.1 hnd).2
    refine ⟨t2, by simp [matchLoop, h1, Res.bind, h2], ?_⟩
    rw [tierList_cons, tierList_cons, tierList_cons]
    simpa only [List.append_assoc] using hinv2

theorem matchLoop_range (cfg : Config) (text : List Nat) (items : List Item) :
    ∃ t', matchLoop cfg text (List.range items.length) ⟨items, none, none, none, none, none, none⟩
        = .ok t' ∧
      TInv (textsOf items) t' (tierList cfg text (textsOf items) 0 (List.range items.length))
        (tierList cfg text (textsOf items) 1 (List.range items.length))
        (tierList cfg text (textsOf items) 2 (List.range items.length)) := by
  have h0 : TInv (textsOf items) ⟨items, none, none, none, none, none, none⟩ [] [] [] :=
    ⟨rfl, Linked.nil _, Linked.nil _, Linked.nil _, rfl, rfl, rfl, rfl, rfl, rfl, by simp⟩
  obtain ⟨t', h, hinv⟩ := matchLoop_ok cfg text (textsOf items) (List.range items.length) _ [] [] []
    h0 (by intro i hi; rw [textsOf_length]; exact List.mem_range.1 hi) (by simp)
    (List.nodup_range _)
  exact ⟨t', h, by simpa using hinv⟩

/-! ## The scans of calcoffsets -/

theorem Linked.length_le {items : List Item} {mv : List Nat} (h : Linked items mv) :
    mv.length ≤ items.length := by
  have hs : mv ⊆ List.range items.length := by
    intro x hx
    exact List.mem_range.2 (h.lt hx)
  have := (List.subperm_of_subset h.1 hs).length_le
  simpa using this

theorem Linked.rd {items : List Item} {mv pre suf : List Nat} {p : Nat} (h : Linked items mv)
    (e : mv = pre ++ p :: suf) :
    ∃ it, rd items p = .ok it ∧ it.text = (textsOf items).getD p [] ∧
      it.left = pre.getLast? ∧ it.right = suf.head? := by
  have hp : p < items.length := h.lt (by rw [e]; simp)
  obtain ⟨it, h1, h2, h3, h4⟩ := rd_ok items p hp
  have := h.2 pre p suf e
  rw [h3, h4] at this
  simp only [Option.some.injEq] at this
  exact ⟨it, h1, h2, this.1, this.2⟩

theorem scanNext_ok (cfg : Config) (items : List Item) (mv : List Nat) (h : Linked items mv) :
    ∀ (suf pre : List Nat) (fuel i : Nat), mv = pre ++ suf → suf.length ≤ fuel →
      scanNext cfg items fuel i suf.head? = .ok (scanNextL cfg (textsOf items) i suf) := by
  intro suf
  induction suf with
  | nil => intro pre fuel i _ _; cases fuel <;> rfl
  | cons p rest ih =>
    intro pre fuel i e hf
    cases fuel with
    | zero => simp at hf
    | succ f =>
      obtain ⟨it, h1, h2, -, h4⟩ := h.rd e
      simp only [List.head?_cons, scanNext, h1, Res.bind, scanNextL, h2]
      split
      · rfl
      · rw [h4]
        exact ih (pre ++ [p]) f _ (by rw [e]; simp) (by simpa using hf)

theorem scanPrev_ok (cfg : Config) (items : List Item) (mv : List Nat) (h : Linked items mv) :
    ∀ (rpre : List Nat) (p : Nat) (suf : List Nat) (fuel i : Nat),
      mv = rpre.reverse ++ p :: suf → rpre.length ≤ fuel →
      scanPrev cfg items fuel i (some p)
        = .ok (some (scanPrevL cfg (textsOf items) i p rpre)) := by
  intro rpre
  induction rpre with
  | nil =>
    intro p suf fuel i e _
    obtain ⟨it, h1, -, h3, -⟩ := h.rd e
    simp only [List.reverse_nil, List.getLast?_nil] at h3
    cases fuel <;> simp only [scanPrev, h1, Res.bind, h3, scanPrevL]
  | cons q rest ih =>
    intro p suf fuel i e hf
    obtain ⟨it, h1, -, h3, -⟩ := h.rd e
    have h3' : it.left = some q := by
      rw [h3]; simp [List.getLast?_concat]
    have e' : mv = rest.reverse ++ q :: (p :: suf) := by rw [e]; simp
    obtain ⟨itq, hq1, hq2, -, -⟩ := h.rd e'
    cases fuel with
    | zero => simp at hf
    | succ f =>
      simp only [scanPrev, h1, Res.bind, h3', hq1, scanPrevL, hq2]
      split
      · rfl
      · exact ih q (p :: suf) f _ e' (by simpa using hf)

theorem calcoffsets_ok (cfg : Config) (s : State) (mv pre suf : List Nat) (c : Nat)
    (h : Linked s.items mv) (e : mv = pre ++ c :: suf) (hc : s.curr = some c) :
    calcoffsets cfg s = .ok { s with
      next := scanNextL cfg (textsOf s.items) 0 (c :: suf)
      prev := some (scanPrevL cfg (textsOf s.items) 0 c pre.reverse) } := by
  have hlen := h.length_le
  have h1 := scanNext_ok cfg s.items mv h (c :: suf) pre s.items.length 0 e
    (by rw [e] at hlen; simp at hlen ⊢; omega)
  have h2 := scanPrev_ok cfg s.items mv h pre.reverse c suf s.items.length 0
    (by simpa using e) (by rw [e] at hlen; simp at hlen ⊢; omega)
  simp only [List.head?_cons] at h1
  simp only [calcoffsets, hc, h1, h2, Res.bind]

theorem calcoffsets_none (cfg : Config) (s : State) (hc : s.curr = none) :
    calcoffsets cfg s = .ok { s with next := none, prev := none } := by
  unfold calcoffsets
  rw [hc]
  cases s.items.length <;> simp [scanNext, scanPrev, Res.bind]

/-! ## The function match -/

theorem match_spec (cfg : Config) (s : State) :
    ∃ items', Linked items' (mvOf cfg s.text (textsOf s.items)) ∧
      textsOf items' = textsOf s.items ∧ items'.length = s.items.length ∧
      match_ cfg s = matchOutcome cfg (textsOf s.items) (mvOf cfg s.text (textsOf s.items))
        (matchPost cfg s items' (mvOf cfg s.text (textsOf s.items))) := by
  obtain ⟨t, hloop, htx, hE, hP, hS, e1, e2, p1, p2, s1, s2, hnd⟩ :=
    matchLoop_range cfg s.text s.items
  rw [← textsOf_length s.items] at hE hP hS e1 e2 p1 p2 s1 s2 hnd
  generalize hEd : tierList cfg s.text (textsOf s.items) 0 (List.range (textsOf s.items).length) = E
    at hE hP hS e1 e2 p1 p2 s1 s2 hnd
  generalize hPd : tierList cfg s.text (textsOf s.items) 1 (List.range (textsOf s.items).length) = P
    at hE hP hS e1 e2 p1 p2 s1 s2 hnd
  generalize hSd : tierList cfg s.text (textsOf s.items) 2 (List.range (textsOf s.items).length) = S
    at hE hP hS e1 e2 p1 p2 s1 s2 hnd
  have hmv : mvOf cfg s.text (textsOf s.items) = E ++ P ++ S := by
    unfold mvOf; rw [hEd, hPd, hSd]
  rw [hmv]
  have hndE : ([] ++ E).Nodup := by
    simp only [List.nil_append]
    exact ((List.nodup_append.1 ((List.nodup_append.1 hnd).1)).1)
  obtain ⟨i1, j1, l1, t1, k1, f1⟩ := joinTier_ok t.items [] E (Linked.nil _) hE hndE
  simp only [List.nil_append, List.head?_nil, List.getLast?_nil] at j1 k1 f1
  have hP1 : Linked i1 P := by
    apply hP.frame; intro q hq; apply f1
    intro hqE
    exact (List.nodup_append.1 ((List.nodup_append.1 hnd).1)).2.2 hqE hq
  have hS1 : Linked i1 S := by
    apply hS.frame; intro q hq; apply f1
    intro hqE
    exact (List.nodup_append.1 hnd).2.2 (by simp [hqE]) hq
  obtain ⟨i2, j2, l2, t2, k2, f2⟩ := joinTier_ok i1 E P k1 hP1 (List.nodup_append.1 hnd).1
  have hS2 : Linked i2 S := by
    apply hS1.frame; intro q hq; apply f2
    intro hqEP
    exact (List.nodup_append.1 hnd).2.2 hqEP hq
  obtain ⟨i3, j3, l3, t3, k3, f3⟩ := joinTier_ok i2 (E ++ P) S k2 hS2 hnd
  have ht3 : textsOf i3 = textsOf s.items := by rw [t3, t2, t1, htx]
  have hl3 : i3.length = s.items.length := by
    rw [l3, l2, l1, ← textsOf_length t.items, htx, textsOf_length]
  refine ⟨i3, k3, ht3, hl3, ?_⟩
  unfold match_
  rw [hloop]
  simp only [Res.bind]
  rw [e1, e2, j1]
  simp only []
  rw [p1, p2, j2]
  simp only []
  rw [s1, s2, j3]
  simp only []
  cases hm : E ++ P ++ S with
  | nil =>
    rw [calcoffsets_none _ _ (by simp)]
    cases hr : cfg.returnearly <;>
      simp [matchOutcome, matchPost, hr, scanNextL]
  | cons c suf =>
    rw [hm] at k3
    rw [calcoffsets_ok cfg _ (c :: suf) [] suf c k3 rfl (by simp)]
    cases hr : cfg.returnearly
    · simp [matchOutcome, matchPost, hr, scanPrevL, ht3]
    · obtain ⟨it, r1, r2, -, r4⟩ := Linked.rd k3 (show c :: suf = [] ++ c :: suf from rfl)
      simp only [matchOutcome, hr, if_true, List.head?_cons, r1, Res.bind, r4, handle_return, r2, ht3]
      cases suf with
      | nil => simp
      | cons d rest => simp [matchPost, scanPrevL, ht3]

/-! ## String comparison -/

theorem fstrncmp_eq (cfg : Config) (a b : List Nat) (n : Nat) :
    fstrncmp cfg a b n = strncmpWith (fold cfg) a b n := by
  unfold fstrncmp fold
  cases cfg.insensitive <;> simp

theorem strncmpWith_zero (f : Nat → Nat) :
    ∀ (n : Nat) (a b : List Nat),
      strncmpWith f a b n = 0 ↔ (a.map f).take n = (b.map f).take n := by
  intro n
  induction n with
  | zero => intro a b; simp [strncmpWith]
  | succ n ih =>
    intro a b
    cases a with
    | nil => cases b <;> simp [strncmpWith]
    | cons x a' =>
      cases b with
      | nil => simp [strncmpWith]
      | cons y b' =>
        simp only [strncmpWith, List.map_cons, List.take_succ_cons, List.cons.injEq]
        by_cases hxy : f x = f y
        · simp [hxy, ih]
        · simp only [hxy, if_false, false_and, iff_false]
          intro h
          apply hxy
          have : (f x : Int) = f y := by omega
          exact_mod_cast this

theorem exact_iff (cfg : Config) (q cand : List Nat) :
    fstrncmp cfg q cand (q.length + 1) = 0 ↔ cand.map (fold cfg) = q.map (fold cfg) := by
  rw [fstrncmp_eq, strncmpWith_zero]
  rw [List.take_of_length_le (by simp)]
  constructor
  · intro h
    have hl : (List.map (fold cfg) cand).length ≤ q.length := by
      have := congrArg List.length h
      simp [List.length_take] at this
      simp
      omega
    rw [List.take_of_length_le (by omega)] at h
    exact h.symm
  · intro h
    rw [h, List.take_of_length_le (by simp)]

theorem prefix_iff (cfg : Config) (q cand : List Nat) :
    fstrncmp cfg q cand q.length = 0 ↔ q.map (fold cfg) <+: cand.map (fold cfg) := by
  rw [fstrncmp_eq, strncmpWith_zero, List.prefix_iff_eq_take]
  rw [List.take_of_length_le (by simp)]
  simp

theorem prefix_iff' (cfg : Config) (sub s : List Nat) :
    fstrncmp cfg s sub sub.length = 0 ↔ sub.map (fold cfg) <+: s.map (fold cfg) := by
  rw [fstrncmp_eq, strncmpWith_zero, List.prefix_iff_eq_take]
  rw [List.take_of_length_le (l := List.map (fold cfg) sub) (by simp)]
  simp only [List.length_map]
  exact eq_comm

theorem fstrstr_iff (cfg : Config) (sub : List Nat) (hsub : sub ≠ []) :
    ∀ s : List Nat, (fstrstr cfg s sub).isSome = true ↔
      sub.map (fold cfg) <:+: s.map (fold cfg) := by
  intro s
  induction s with
  | nil =>
    simp [fstrstr, hsub]
  | cons c s ih =>
    unfold fstrstr
    rw [List.map_cons, List.infix_cons_iff, ← List.map_cons, ← prefix_iff']
    by_cases h : fstrncmp cfg (c :: s) sub sub.length = 0
    · simp [h]
    · simp only [h, if_false, false_or]
      exact ih

theorem tierOf_zero (cfg : Config) (q cand : List Nat) :
    tierOf cfg q cand = 0 ↔ cand.map (fold cfg) = q.map (fold cfg) := by
  rw [← exact_iff]
  unfold tierOf
  by_cases c0 : fstrncmp cfg q cand (q.length + 1) = 0
  · simp [c0]
  · simp only [c0, if_false, iff_false]
    split
    · decide
    · split <;> decide

theorem tierOf_one (cfg : Config) (q cand : List Nat) :
    tierOf cfg q cand = 1 ↔ (q.map (fold cfg) <+: cand.map (fold cfg) ∧
      ¬ cand.map (fold cfg) = q.map (fold cfg)) := by
  rw [← exact_iff, ← prefix_iff]
  unfold tierOf
  by_cases c0 : fstrncmp cfg q cand (q.length + 1) = 0
  · simp [c0]
  · by_cases c1 : fstrncmp cfg q cand q.length = 0
    · simp [c0, c1]
    · simp only [c0, c1, if_false, false_and, iff_false]
      split <;> decide

theorem tierOf_two (cfg : Config) (q cand : List Nat) :
    tierOf cfg q cand = 2 ↔ (q.map (fold cfg) <:+: cand.map (fold cfg) ∧
      ¬ q.map (fold cfg) <+: cand.map (fold cfg)) := by
  have hep : fstrncmp cfg q cand (q.length + 1) = 0 → fstrncmp cfg q cand q.length = 0 := by
    rw [exact_iff, prefix_iff]
    intro h; rw [h]
  by_cases hq : q = []
  · subst hq
    have c1 : fstrncmp cfg [] cand ([] : List Nat).length = 0 := by
      rw [prefix_iff]; simp
    unfold tierOf
    by_cases c0 : fstrncmp cfg [] cand (([] : List Nat).length + 1) = 0
    · rw [if_pos c0]; simp
    · rw [if_neg c0, if_pos c1]; simp
  · rw [← fstrstr_iff cfg q hq, ← prefix_iff]
    unfold tierOf
    by_cases c1 : fstrncmp cfg q cand q.length = 0
    · by_cases c0 : fstrncmp cfg q cand (q.length + 1) = 0
      · simp [c0, c1]
      · simp [c0, c1]
    · have c0 : ¬ fstrncmp cfg q cand (q.length + 1) = 0 := fun h => c1 (hep h)
      by_cases c2 : (fstrstr cfg cand q).isSome = true
      · simp [c0, c1, c2]
      · simp [c0, c1, c2]

theorem mvOf_eq_spec (cfg : Config) (q : List Nat) (texts : List (List Nat)) :
    mvOf cfg q texts = specExact cfg q texts ++ specPrefix cfg q texts ++ specSubstr cfg q texts := by
  unfold mvOf tierList specExact specPrefix specSubstr
  congr 1
  congr 1
  · apply List.filter_congr
    intro i _
    rw [Bool.eq_iff_iff]
    simp only [beq_iff_eq, decide_eq_true_eq]
    exact tierOf_zero cfg q _
  · apply List.filter_congr
    intro i _
    rw [Bool.eq_iff_iff]
    simp only [beq_iff_eq, decide_eq_true_eq]
    exact tierOf_one cfg q _
  · apply List.filter_congr
    intro i _
    rw [Bool.eq_iff_iff]
    simp only [beq_iff_eq, decide_eq_true_eq]
    exact tierOf_two cfg q _

theorem viewFrom_ok (items : List Item) (mv : List Nat) (h : Linked items mv) :
    ∀ (suf pre : List Nat) (fuel : Nat), mv = pre ++ suf → suf.length ≤ fuel →
      viewFrom items fuel suf.head? = suf := by
  intro suf
  induction suf with
  | nil => intro pre fuel _ _; cases fuel <;> rfl
  | cons p rest ih =>
    intro pre fuel e hf
    cases fuel with
    | zero => simp at hf
    | succ f =>
      have hr := (h.2 pre p rest e).2
      simp only [fright] at hr
      have : (items[p]?).bind Item.right = rest.head? := by
        cases hi : items[p]? with
        | none => rw [hi] at hr; simp at hr
        | some it => rw [hi] at hr; simpa using hr
      simp only [List.head?_cons, viewFrom, this]
      rw [ih (pre ++ [p]) f (by rw [e]; simp) (by simpa using hf)]

theorem viewFrom_linked (items : List Item) (mv : List Nat) (h : Linked items mv) :
    viewFrom items items.length mv.head? = mv :=
  viewFrom_ok items mv h mv [] items.length rfl h.length_le

theorem mvOf_nodup (cfg : Config) (q : List Nat) (texts : List (List Nat)) :
    (mvOf cfg q texts).Nodup := by
  obtain ⟨items', hl, -, -, -⟩ := match_spec cfg
    ⟨texts.map (fun t => ⟨t, none, none⟩), q, 0, none, none, none, none, none⟩
  have : textsOf (texts.map (fun t => (⟨t, none, none⟩ : Item))) = texts := by
    simp [textsOf, Function.comp_def]
  simp only [this] at hl
  exact hl.1

theorem mem_mvOf (cfg : Config) (q : List Nat) (texts : List (List Nat)) (i : Nat) :
    i ∈ mvOf cfg q texts ↔
      i < texts.length ∧ q.map (fold cfg) <:+: (texts.getD i []).map (fold cfg) := by
  rw [mvOf_eq_spec]
  simp only [specExact, specPrefix, specSubstr, List.mem_append, List.mem_filter, List.mem_range,
    decide_eq_true_eq]
  constructor
  · rintro ((⟨h1, h2⟩ | ⟨h1, h2, -⟩) | ⟨h1, h2, -⟩)
    · exact ⟨h1, by rw [h2]⟩
    · exact ⟨h1, h2.isInfix⟩
    · exact ⟨h1, h2⟩
  · rintro ⟨h1, h2⟩
    by_cases c0 : (texts.getD i []).map (fold cfg) = q.map (fold cfg)
    · exact Or.inl (Or.inl ⟨h1, c0⟩)
    · by_cases c1 : q.map (fold cfg) <+: (texts.getD i []).map (fold cfg)
      · exact Or.inl (Or.inr ⟨h1, c1, c0⟩)
      · exact Or.inr ⟨h1, h2, c1⟩

/-! ## Claims -/

/-- C1: for every master list, query and comparison mode, `match` builds the
match list `E ++ P ++ S` (exact, then proper prefix, then substring-only
candidates, each in master-list order) before it returns or accepts early;
the list has no repetition and holds exactly the candidates that contain the
query.  It then behaves as `matchOutcome` says: it returns the session `s1`
unless return-early is set and the list is shorter than two items. -/
theorem C1_match_tiers (cfg : Config) (s : State) :
    ∃ s1 : State,
      match_ cfg s = matchOutcome cfg (textsOf s.items) (matchView s1) s1 ∧
      textsOf s1.items = textsOf s.items ∧
      matchView s1 = specExact cfg s.text (textsOf s.items)
        ++ specPrefix cfg s.text (textsOf s.items) ++ specSubstr cfg s.text (textsOf s.items) ∧
      (matchView s1).Nodup ∧
      ∀ i, i ∈ matchView s1 ↔ (i < s.items.length ∧
        s.text.map (fold cfg) <:+: ((textsOf s.items).getD i []).map (fold cfg)) := by
  obtain ⟨items', hl, ht, hlen, hm⟩ := match_spec cfg s
  have hv : matchView (matchPost cfg s items' (mvOf cfg s.text (textsOf s.items)))
      = mvOf cfg s.text (textsOf s.items) := by
    simp only [matchView, matchPost]
    exact viewFrom_linked items' _ hl
  refine ⟨matchPost cfg s items' (mvOf cfg s.text (textsOf s.items)), ?_, ht, ?_, ?_, ?_⟩
  · rw [hv]; exact hm
  · rw [hv]; exact mvOf_eq_spec cfg s.text _
  · rw [hv]; exact hl.1
  · intro i
    rw [hv, mem_mvOf, textsOf_length]

/-- The worked example of C1: candidates "apple", "app", "application",
"banana" and the query "app" give "app", "apple", "application". -/
theorem C1_example :
    ∃ s1, match_ exampleCfg (freshState
        [[97, 112, 112, 108, 101], [97, 112, 112],
         [97, 112, 112, 108, 105, 99, 97, 116, 105, 111, 110], [98, 97, 110, 97, 110, 97]]
        [97, 112, 112]) = .ok s1 ∧
      (matchView s1).map (fun i => (textsOf s1.items).getD i []) =
        [[97, 112, 112], [97, 112, 112, 108, 101],
         [97, 112, 112, 108, 105, 99, 97, 116, 105, 111, 110]] := by
  refine ⟨_, rfl, ?_⟩
  decide

theorem window_matchPost (cfg : Config) (s : State) (items' : List Item) (mv : List Nat)
    (h : Linked items' mv) :
    window (matchPost cfg s items' mv)
      = (mv, mv.head?, scanNextL cfg (textsOf s.items) 0 mv, mv.head?) := by
  simp only [window, matchView, matchPost]
  rw [viewFrom_linked items' mv h]

theorem map_matchOutcome {β : Type} (cfg : Config) (texts : List (List Nat)) (mv : List Nat)
    (s1 : State) (f : State → β) :
    (matchOutcome cfg texts mv s1).map f =
      if cfg.returnearly then
        match mv with
        | [] => .fault
        | [p] => .exited true (texts.getD p [])
        | _ :: _ :: _ => .ok (f s1)
      else .ok (f s1) := by
  unfold matchOutcome
  cases cfg.returnearly
  · rfl
  · rcases mv with _ | ⟨a, _ | ⟨b, l⟩⟩ <;> rfl

/-- C2: the observed result of a re-filter (match list, window first/last and
selection, or the early acceptance) depends only on the candidate texts, the
query and the configuration: two sessions that agree on these, whatever their
previous links, window, selection and cursor, get the same result. -/
theorem C2_match_deterministic (cfg : Config) (s1 s2 : State)
    (hitems : textsOf s1.items = textsOf s2.items) (htext : s1.text = s2.text) :
    (match_ cfg s1).map window = (match_ cfg s2).map window := by
  obtain ⟨i1, l1, -, -, m1⟩ := match_spec cfg s1
  obtain ⟨i2, l2, -, -, m2⟩ := match_spec cfg s2
  rw [m1, m2, map_matchOutcome, map_matchOutcome, window_matchPost _ _ _ _ l1,
    window_matchPost _ _ _ _ l2, hitems, htext]

/-- Witness of C2 (stability under backspace): the session left by filtering
"ban", once its text is "ba", is re-filtered to the same result as a fresh
session with the query "ba". -/
theorem C2_witness :
    (textsOf staleState.items
        = textsOf (freshState [[98, 97, 110, 97, 110, 97], [98, 97, 114], [99, 97, 98]]
            [98, 97]).items ∧
      staleState.text
        = (freshState [[98, 97, 110, 97, 110, 97], [98, 97, 114], [99, 97, 98]] [98, 97]).text) ∧
    (match_ exampleCfg staleState).map window
      = (match_ exampleCfg
          (freshState [[98, 97, 110, 97, 110, 97], [98, 97, 114], [99, 97, 98]]
            [98, 97])).map window :=
  ⟨⟨by decide, by decide⟩, C2_match_deterministic exampleCfg staleState _ (by decide) (by decide)⟩

/-- The scenario of C2 run through `keypress`: typing "b", "a", "n" and then
BackSpace leaves the same observed result as typing "b", "a". -/
theorem C2_backspace_example :
    (pressAll exampleCfg
        (setup exampleCfg [[98, 97, 110, 97, 110, 97], [98, 97, 114], [99, 97, 98]])
        [typeKey 98, typeKey 97, typeKey 110, plainKey XK_BackSpace]).map window
      = (pressAll exampleCfg
        (setup exampleCfg [[98, 97, 110, 97, 110, 97], [98, 97, 114], [99, 97, 98]])
        [typeKey 98, typeKey 97]).map window := by
  decide

theorem match_outcome_spec (cfg : Config) (s : State) :
    ∃ s1, match_ cfg s = matchOutcome cfg (textsOf s.items)
      (specView cfg s.text (textsOf s.items)) s1 := by
  obtain ⟨items', -, -, -, hm⟩ := match_spec cfg s
  rw [mvOf_eq_spec] at hm
  exact ⟨_, hm⟩

/-- C3: a re-filter ends the session itself, as accepted with the text of the
single match as payload, exactly when return-early is set and the new match
list has exactly one item; it never ends it any other way, and without
return-early, or with two or more matches, it returns a session and no
outcome. -/
theorem C3_return_early (cfg : Config) (s : State) :
    (∀ (b : Bool) (payload : List Nat), match_ cfg s = .exited b payload ↔
      (b = true ∧ cfg.returnearly = true ∧
        ∃ p, specView cfg s.text (textsOf s.items) = [p] ∧
          payload = (textsOf s.items).getD p [])) ∧
    ((cfg.returnearly = false ∨ 2 ≤ (specView cfg s.text (textsOf s.items)).length) →
      ∃ s', match_ cfg s = .ok s') := by
  obtain ⟨s1, hm⟩ := match_outcome_spec cfg s
  rw [hm]
  generalize specView cfg s.text (textsOf s.items) = mv
  unfold matchOutcome
  constructor
  · intro b payload
    cases hr : cfg.returnearly
    · simp
    · rcases mv with _ | ⟨a, _ | ⟨c, l⟩⟩
      · simp
      · simp only [if_true, Res.exited.injEq, List.cons.injEq, and_true, true_and]
        constructor
        · rintro ⟨rfl, rfl⟩; exact ⟨rfl, a, rfl, rfl⟩
        · rintro ⟨rfl, p, rfl, rfl⟩; exact ⟨rfl, rfl⟩
      · simp
  · rintro (hr | hl)
    · simp [hr]
    · rcases mv with _ | ⟨a, _ | ⟨c, l⟩⟩
      · simp at hl
      · simp at hl
      · cases cfg.returnearly <;> simp

/-- Witness of C3: with return-early set and the single candidate "only", the
re-filter for the query "o" accepts with payload "only". -/
theorem C3_witness :
    match_ earlyCfg (freshState [[111, 110, 108, 121]] [111])
      = .exited true [111, 110, 108, 121] :=
  ((C3_return_early earlyCfg (freshState [[111, 110, 108, 121]] [111])).1 true
    [111, 110, 108, 121]).2 ⟨rfl, rfl, 0, by decide, by decide⟩

/-- The scenario of C3 run through `keypress`: in a session over the single
candidate "only" with return-early set, the key "o" ends the session as
accepted with payload "only", no Return key pressed; `setup` itself already
accepts "only" for the empty query, before any key. -/
theorem C3_keypress_example :
    keypress earlyCfg (freshState [[111, 110, 108, 121]] []) (typeKey 111)
      = .exited true [111, 110, 108, 121] ∧
    setup earlyCfg [[111, 110, 108, 121]] = .exited true [111, 110, 108, 121] := by
  constructor <;> decide

theorem keypress_submit (cfg : Config) (s : State) (ev : XKeyEvent) (h : isSubmit ev) :
    keypress cfg s ev = keyReturn s ev.shift := by
  rcases h with ⟨hc, hk | hk⟩ | ⟨hc, hk⟩
  · simp [keypress, hc, dispatch, hk, XK_Return, XK_Delete, XK_BackSpace, XK_End, XK_Escape,
      XK_Home, XK_Left, XK_Up, XK_Next, XK_Prior]
  · simp [keypress, hc, dispatch, hk, XK_Return, XK_Delete, XK_BackSpace, XK_End, XK_Escape,
      XK_Home, XK_Left, XK_Up, XK_Next, XK_Prior, XK_KP_Enter]
  · simp [keypress, hc, dispatch, hk, XK_Return, XK_Delete, XK_BackSpace, XK_End, XK_Escape,
      XK_Home, XK_Left, XK_Up, XK_Next, XK_Prior, XK_a, XK_b, XK_c, XK_d, XK_e, XK_f, XK_h,
      XK_i, XK_j]

/-- C4: in every session whose selection, if any, is an item of the master
list, Submit ends the session as accepted; the payload is the text of the
selected candidate when there is one and Shift is not held, and the raw buffer
text when nothing is selected or Shift is held. -/
theorem C4_submit (cfg : Config) (s : State) (ev : XKeyEvent) (hev : isSubmit ev)
    (hsel : ∀ p, s.sel = some p → p < s.items.length) :
    (∀ p, s.sel = some p → ev.shift = false →
      keypress cfg s ev = .exited true ((textsOf s.items).getD p [])) ∧
    ((s.sel = none ∨ ev.shift = true) → keypress cfg s ev = .exited true s.text) := by
  rw [keypress_submit cfg s ev hev]
  constructor
  · intro p hp hs
    obtain ⟨it, h1, h2, -, -⟩ := rd_ok s.items p (hsel p hp)
    simp [keyReturn, hp, hs, h1, Res.bind, handle_return, h2]
  · rintro (hn | hs)
    · simp [keyReturn, hn, handle_return]
    · cases hp : s.sel <;> simp [keyReturn, hs, handle_return, hp]

/-- Witness of C4: with the second candidate selected, Return without Shift
accepts its text "bar", and Return with Shift accepts the buffer text "ba". -/
theorem C4_witness :
    keypress exampleCfg { staleState with sel := some 1 } (plainKey XK_Return)
      = .exited true [98, 97, 114] ∧
    keypress exampleCfg { staleState with sel := some 1 } ⟨XK_Return, false, true, []⟩
      = .exited true [98, 97] :=
  ⟨(C4_submit exampleCfg { staleState with sel := some 1 } (plainKey XK_Return)
      (by decide) (by decide)).1 1 rfl rfl,
   (C4_submit exampleCfg { staleState with sel := some 1 } ⟨XK_Return, false, true, []⟩
      (by decide) (by decide)).2 (Or.inr rfl)⟩

/-! ## The window -/

theorem linkedAt_ok (items : List Item) :
    ∀ (suf pre0 : List Nat), linkedAt items pre0.getLast? suf = true →
      ∀ pre p t, suf = pre ++ p :: t →
        fleft items p = some (pre0 ++ pre).getLast? ∧ fright items p = some t.head? := by
  intro suf
  induction suf with
  | nil => intro pre0 _ pre p t e; simp at e
  | cons a rest ih =>
    intro pre0 hc pre p t e
    simp only [linkedAt, Bool.and_eq_true, beq_iff_eq] at hc
    cases pre with
    | nil =>
      simp only [List.nil_append, List.cons.injEq] at e
      obtain ⟨rfl, rfl⟩ := e
      simp only [List.append_nil]
      exact ⟨hc.1.1, hc.1.2⟩
    | cons b pre' =>
      simp only [List.cons_append, List.cons.injEq] at e
      obtain ⟨rfl, e'⟩ := e
      have h2 : linkedAt items (pre0 ++ [a]).getLast? rest = true := by
        rw [List.getLast?_concat]; exact hc.2
      have := ih (pre0 ++ [a]) h2 pre' p t e'
      simpa using this

theorem linked_of_check (items : List Item) (mv : List Nat) (h : linkedCheck items mv = true) :
    Linked items mv := by
  simp only [linkedCheck, Bool.and_eq_true, decide_eq_true_eq] at h
  refine ⟨h.1, ?_⟩
  intro pre p suf e
  have := linkedAt_ok items mv [] (by simpa using h.2) pre p suf e
  simpa using this

theorem visibleFrom_ok (items : List Item) (mv : List Nat) (h : Linked items mv) :
    ∀ (vis pre rest : List Nat) (fuel : Nat), mv = pre ++ vis ++ rest → vis.length ≤ fuel →
      visibleFrom items rest.head? fuel (vis ++ rest).head? = vis := by
  intro vis
  induction vis with
  | nil =>
    intro pre rest fuel _ _
    cases fuel with
    | zero => rfl
    | succ f => simp [visibleFrom]
  | cons v vs ih =>
    intro pre rest fuel e hf
    cases fuel with
    | zero => simp at hf
    | succ f =>
      have hnv : some v ≠ rest.head? := by
        intro hh
        have hv : v ∈ rest := List.mem_of_mem_head? hh.symm
        have hnd := h.1
        rw [e] at hnd
        have := (List.nodup_append.1 hnd).2.2 (show v ∈ pre ++ v :: vs by simp) hv
        exact this
      have e' : mv = pre ++ v :: (vs ++ rest) := by rw [e]; simp
      have hr := (h.2 pre v (vs ++ rest) e').2
      simp only [fright] at hr
      have hb : (items[v]?).bind Item.right = (vs ++ rest).head? := by
        cases hi : items[v]? with
        | none => rw [hi] at hr; simp at hr
        | some it => rw [hi] at hr; simpa using hr
      simp only [List.cons_append, List.head?_cons, visibleFrom, hnv, if_false, hb]
      rw [ih (pre ++ [v]) rest f (by rw [e]; simp) (by simpa using hf)]

theorem row_scanNextL (cfg : Config) (texts : List (List Nat)) (hL : 0 < cfg.lines)
    (hbh : 0 < cfg.bh) (hov : (cfg.lines + 1) * cfg.bh < 2 ^ 32) :
    ∀ (l : List Nat) (k : Nat), k ≤ cfg.lines →
      scanNextL cfg texts (k * cfg.bh) l = l[cfg.lines - k]? := by
  have hb : budget cfg = cfg.lines * cfg.bh := by
    unfold budget
    rw [if_pos hL]
    apply Nat.mod_eq_of_lt
    nlinarith
  have hc : ∀ t, cost cfg t = cfg.bh := by
    intro t; unfold cost; rw [if_pos hL]
  intro l
  induction l with
  | nil => intro k _; rfl
  | cons p rest ih =>
    intro k hk
    have hlt : k * cfg.bh + cfg.bh < 2 ^ 32 := by
      have : k * cfg.bh + cfg.bh = (k + 1) * cfg.bh := by ring
      rw [this]
      calc (k + 1) * cfg.bh ≤ (cfg.lines + 1) * cfg.bh :=
            Nat.mul_le_mul_right _ (by omega)
        _ < 2 ^ 32 := hov
    simp only [scanNextL, hc, hb, Nat.mod_eq_of_lt hlt]
    by_cases hkL : k = cfg.lines
    · subst hkL
      have : cfg.lines * cfg.bh + cfg.bh > cfg.lines * cfg.bh := by omega
      simp [this]
    · have hk' : k + 1 ≤ cfg.lines := by omega
      have hle : ¬ k * cfg.bh + cfg.bh > cfg.lines * cfg.bh := by
        have : k * cfg.bh + cfg.bh = (k + 1) * cfg.bh := by ring
        rw [this]
        have := Nat.mul_le_mul_right cfg.bh hk'
        omega
      rw [if_neg hle]
      have e1 : k * cfg.bh + cfg.bh = (k + 1) * cfg.bh := by ring
      rw [e1, ih (k + 1) hk']
      have e2 : cfg.lines - k = (cfg.lines - (k + 1)) + 1 := by omega
      rw [e2, List.getElem?_cons_succ]

/-- C6 holds where `(L + 1) * bh` is within `unsigned int`: there, in row
mode with `L > 0` rows of positive height, for every match list and every
pivot in it,
`calcoffsets` returns, leaves the pivot as `curr`, sets `next` to the item `L`
places after the pivot (none when fewer than `L` items follow it), and the
visible items are the first `min L r` items from the pivot on. -/
theorem C6_row_window (cfg : Config) (s : State) (mv pre suf : List Nat) (c : Nat)
    (hl : Linked s.items mv) (e : mv = pre ++ c :: suf) (hc : s.curr = some c)
    (hL : 0 < cfg.lines) (hbh : 0 < cfg.bh) (hov : (cfg.lines + 1) * cfg.bh < 2 ^ 32) :
    ∃ s', calcoffsets cfg s = .ok s' ∧ s'.curr = some c ∧ s'.items = s.items ∧
      s'.next = (c :: suf)[cfg.lines]? ∧
      visible s' = (c :: suf).take cfg.lines ∧
      (visible s').length = min cfg.lines (c :: suf).length := by
  have hn := row_scanNextL cfg (textsOf s.items) hL hbh hov (c :: suf) 0 (Nat.zero_le _)
  simp only [Nat.zero_mul, Nat.sub_zero] at hn
  have hv : visible { s with
      next := scanNextL cfg (textsOf s.items) 0 (c :: suf)
      prev := some (scanPrevL cfg (textsOf s.items) 0 c pre.reverse) } = (c :: suf).take cfg.lines := by
    have e3 : mv = pre ++ (c :: suf).take cfg.lines ++ (c :: suf).drop cfg.lines := by
      rw [e, List.append_assoc, List.take_append_drop]
    have hlen := hl.length_le
    have := visibleFrom_ok s.items mv hl ((c :: suf).take cfg.lines) pre
      ((c :: suf).drop cfg.lines) s.items.length e3
      (by
        rw [e] at hlen
        simp only [List.length_append, List.length_cons] at hlen
        rw [List.length_take, List.length_cons]
        omega)
    rw [List.take_append_drop] at this
    simp only [visible, hn, hc]
    rw [List.head?_drop] at this
    simpa using this
  refine ⟨_, calcoffsets_ok cfg s mv pre suf c hl e hc, hc, rfl, hn, ?_, ?_⟩
  · exact hv
  · rw [hv, List.length_take]

/-- Witness of C6: three rows over five matches, pivot at the first: the
first three items are visible and `next` is the fourth. -/
theorem C6_witness :
    ∃ s', calcoffsets rowCfg fiveState = .ok s' ∧ s'.curr = some 0 ∧
      s'.items = fiveState.items ∧ s'.next = [0, 1, 2, 3, 4][rowCfg.lines]? ∧
      visible s' = [0, 1, 2, 3, 4].take rowCfg.lines ∧
      (visible s').length = min rowCfg.lines [0, 1, 2, 3, 4].length :=
  C6_row_window rowCfg fiveState [0, 1, 2, 3, 4] [] [1, 2, 3, 4] 0
    (linked_of_check _ _ (by decide)) rfl rfl (by decide) (by decide) (by decide)

theorem budget_lt (cfg : Config) : budget cfg < 2 ^ 32 := by
  unfold budget
  split
  · exact Nat.mod_lt _ (by norm_num)
  · have h := Int.emod_lt_of_pos ((cfg.mw : Int)
      - ((cfg.promptw : Int) + cfg.inputw + cfg.textw [60] + cfg.textw [62]))
      (show (0 : Int) < 2 ^ 32 by norm_num)
    have h0 := Int.emod_nonneg ((cfg.mw : Int)
      - ((cfg.promptw : Int) + cfg.inputw + cfg.textw [60] + cfg.textw [62]))
      (show (2 ^ 32 : Int) ≠ 0 by norm_num)
    omega

theorem sumCost_cons (cfg : Config) (texts : List (List Nat)) (p : Nat) (l : List Nat) :
    sumCost cfg texts (p :: l) = cost cfg (texts.getD p []) + sumCost cfg texts l := by
  simp [sumCost]

theorem sumCost_append (cfg : Config) (texts : List (List Nat)) (a b : List Nat) :
    sumCost cfg texts (a ++ b) = sumCost cfg texts a + sumCost cfg texts b := by
  simp [sumCost]

theorem scanNextL_split (cfg : Config) (texts : List (List Nat)) (hn : budget cfg < 2 ^ 31)
    (hcost : ∀ t, cost cfg t ≤ budget cfg) :
    ∀ (l : List Nat) (i : Nat), i ≤ budget cfg →
      ∃ vis rest, l = vis ++ rest ∧ scanNextL cfg texts i l = rest.head? ∧
        i + sumCost cfg texts vis ≤ budget cfg ∧
        (∀ q, rest.head? = some q →
          budget cfg < i + sumCost cfg texts vis + cost cfg (texts.getD q [])) := by
  intro l
  induction l with
  | nil =>
    intro i hi
    exact ⟨[], [], rfl, rfl, by simpa [sumCost] using hi, by simp⟩
  | cons p l' ih =>
    intro i hi
    have hc := hcost (texts.getD p [])
    have hlt : i + cost cfg (texts.getD p []) < 2 ^ 32 := by omega
    by_cases hgt : i + cost cfg (texts.getD p []) > budget cfg
    · refine ⟨[], p :: l', rfl, ?_, by simpa [sumCost] using hi, ?_⟩
      · simp only [scanNextL, Nat.mod_eq_of_lt hlt, hgt, if_true, List.head?_cons]
      · intro q hq
        simp only [List.head?_cons, Option.some.injEq] at hq
        subst hq
        simpa [sumCost] using hgt
    · obtain ⟨vis, rest, e, hs, hsum, hmax⟩ := ih (i + cost cfg (texts.getD p [])) (by omega)
      refine ⟨p :: vis, rest, by rw [e]; rfl, ?_, ?_, ?_⟩
      · simp only [scanNextL, Nat.mod_eq_of_lt hlt, hgt, if_false]
        exact hs
      · rw [sumCost_cons]; omega
      · intro q hq
        have := hmax q hq
        rw [sumCost_cons]; omega

theorem scanNextL_append (cfg : Config) (texts : List (List Nat)) (b : List Nat) :
    ∀ (a : List Nat) (i : Nat), i + sumCost cfg texts a ≤ budget cfg →
      scanNextL cfg texts i (a ++ b) = scanNextL cfg texts (i + sumCost cfg texts a) b := by
  intro a
  induction a with
  | nil => intro i _; simp [sumCost]
  | cons p a' ih =>
    intro i hi
    rw [sumCost_cons] at hi
    have hb := budget_lt cfg
    have hlt : i + cost cfg (texts.getD p []) < 2 ^ 32 := by omega
    have hgt : ¬ i + cost cfg (texts.getD p []) > budget cfg := by omega
    simp only [List.cons_append, scanNextL, Nat.mod_eq_of_lt hlt, hgt, if_false]
    have := ih (i + cost cfg (texts.getD p [])) (by omega)
    rw [sumCost_cons, ← Nat.add_assoc]
    exact this

theorem scanPrevL_split (cfg : Config) (texts : List (List Nat)) (hn : budget cfg < 2 ^ 31)
    (hcost : ∀ t, cost cfg t ≤ budget cfg) :
    ∀ (rpre : List Nat) (p i : Nat), i ≤ budget cfg →
      ∃ taken rest, rpre = taken ++ rest ∧
        scanPrevL cfg texts i p rpre = taken.getLast?.getD p ∧
        i + sumCost cfg texts taken ≤ budget cfg ∧
        (∀ q, rest.head? = some q →
          budget cfg < i + sumCost cfg texts taken + cost cfg (texts.getD q [])) := by
  intro rpre
  induction rpre with
  | nil =>
    intro p i hi
    exact ⟨[], [], rfl, rfl, by simpa [sumCost] using hi, by simp⟩
  | cons q r ih =>
    intro p i hi
    have hc := hcost (texts.getD q [])
    have hlt : i + cost cfg (texts.getD q []) < 2 ^ 32 := by omega
    by_cases hgt : i + cost cfg (texts.getD q []) > budget cfg
    · refine ⟨[], q :: r, rfl, ?_, by simpa [sumCost] using hi, ?_⟩
      · simp only [scanPrevL, Nat.mod_eq_of_lt hlt, hgt, if_true, List.getLast?_nil,
          Option.getD_none]
      · intro q' hq
        simp only [List.head?_cons, Option.some.injEq] at hq
        subst hq
        simpa [sumCost] using hgt
    · obtain ⟨taken, rest, e, hs, hsum, hmax⟩ :=
        ih q (i + cost cfg (texts.getD q [])) (by omega)
      refine ⟨q :: taken, rest, by rw [e]; rfl, ?_, ?_, ?_⟩
      · simp only [scanPrevL, Nat.mod_eq_of_lt hlt, hgt, if_false]
        rw [hs, List.getLast?_cons]
        simp
      · rw [sumCost_cons]; omega
      · intro q' hq
        have := hmax q' hq
        rw [sumCost_cons]; omega

theorem calcoffsets_window (cfg : Config) (s : State) (mv pre suf : List Nat) (c : Nat)
    (hl : Linked s.items mv) (e : mv = pre ++ c :: suf) (hc : s.curr = some c)
    (hn : budget cfg < 2 ^ 31) (hcost : ∀ t, cost cfg t ≤ budget cfg) :
    ∃ vis rest, suf = vis ++ rest ∧
      calcoffsets cfg s = .ok { s with
        next := rest.head?
        prev := some (scanPrevL cfg (textsOf s.items) 0 c pre.reverse) } ∧
      visible { s with
        next := rest.head?
        prev := some (scanPrevL cfg (textsOf s.items) 0 c pre.reverse) } = c :: vis ∧
      sumCost cfg (textsOf s.items) (c :: vis) ≤ budget cfg ∧
      (∀ q, rest.head? = some q →
        budget cfg < sumCost cfg (textsOf s.items) (c :: vis)
          + cost cfg ((textsOf s.items).getD q [])) := by
  obtain ⟨vis0, rest, e0, hs, hsum, hmax⟩ :=
    scanNextL_split cfg (textsOf s.items) hn hcost (c :: suf) 0 (Nat.zero_le _)
  cases vis0 with
  | nil =>
    exfalso
    simp only [List.nil_append] at e0
    have := hmax c (by rw [← e0]; rfl)
    have := hcost ((textsOf s.items).getD c [])
    simp [sumCost] at *
    omega
  | cons c' vis =>
    simp only [List.cons_append, List.cons.injEq] at e0
    obtain ⟨hcc, rfl⟩ := e0
    subst hcc
    have hcalc := calcoffsets_ok cfg s mv pre (vis ++ rest) c hl e hc
    have hs' : scanNextL cfg (textsOf s.items) 0 (c :: (vis ++ rest)) = rest.head? := hs
    rw [hs'] at hcalc
    refine ⟨vis, rest, rfl, hcalc, ?_, by simpa using hsum, by simpa using hmax⟩
    have hlen := hl.length_le
    have e3 : mv = pre ++ (c :: vis) ++ rest := by rw [e]; simp
    have := visibleFrom_ok s.items mv hl (c :: vis) pre rest s.items.length e3
      (by
        rw [e3] at hlen
        simp only [List.length_append, List.length_cons] at hlen ⊢
        omega)
    simp only [visible, hc]
    simpa using this

theorem sumCost_width (cfg : Config) (texts : List (List Nat)) (l : List Nat)
    (hW : cfg.lines = 0) : sumCost cfg texts l = sumClamped cfg texts l := by
  unfold sumCost sumClamped cost
  simp [hW]

/-- C7, as stated, fails: with a budget of 20 pixels and a single match 30
pixels wide, `calcoffsets` shows the match, so the measured widths of the
visible items add up to more than the budget. -/
theorem C7_counterexample :
    ∃ s', calcoffsets narrowCfg wideState = .ok s' ∧ narrowCfg.lines = 0 ∧
      visible s' = [0] ∧
      budget narrowCfg < sumWidth narrowCfg (textsOf s'.items) (visible s') := by
  refine ⟨_, rfl, rfl, ?_, ?_⟩ <;> decide

theorem sumClamped_le_sumWidth (cfg : Config) (texts : List (List Nat)) (l : List Nat) :
    sumClamped cfg texts l ≤ sumWidth cfg texts l := by
  induction l with
  | nil => simp [sumClamped, sumWidth]
  | cons a l ih =>
    simp only [sumClamped, sumWidth, List.map_cons, List.sum_cons] at ih ⊢
    have := Nat.min_le_left (cfg.textw (texts.getD a [])) (budget cfg)
    omega

/-- C7, amended: in width mode with a budget `n` below `2 ^ 31`, for every
match list and pivot, `calcoffsets` returns and leaves the pivot as `curr`;
the widths of the visible items, each clamped to `n`, add up to at most `n`,
and if `next` is not none, adding the width of `next` to the sum exceeds `n`,
for the clamped widths and so also for the measured ones. -/
theorem C7_width_window (cfg : Config) (s : State) (mv pre suf : List Nat) (c : Nat)
    (hl : Linked s.items mv) (e : mv = pre ++ c :: suf) (hc : s.curr = some c)
    (hW : cfg.lines = 0) (hn : budget cfg < 2 ^ 31) :
    ∃ s', calcoffsets cfg s = .ok s' ∧ s'.curr = some c ∧
      sumClamped cfg (textsOf s.items) (visible s') ≤ budget cfg ∧
      ∀ q, s'.next = some q →
        (budget cfg < sumClamped cfg (textsOf s.items) (visible s')
          + min (cfg.textw ((textsOf s.items).getD q [])) (budget cfg) ∧
         budget cfg < sumWidth cfg (textsOf s.items) (visible s')
          + cfg.textw ((textsOf s.items).getD q [])) := by
  have hcost : ∀ t, cost cfg t ≤ budget cfg := by
    intro t; unfold cost; simp [hW]
  obtain ⟨vis, rest, -, hcalc, hvis, hsum, hmax⟩ :=
    calcoffsets_window cfg s mv pre suf c hl e hc hn hcost
  refine ⟨_, hcalc, hc, ?_, ?_⟩
  · rw [hvis, ← sumCost_width cfg _ _ hW]; exact hsum
  · intro q hq
    have h1 : budget cfg < sumClamped cfg (textsOf s.items) (c :: vis)
        + min (cfg.textw ((textsOf s.items).getD q [])) (budget cfg) := by
      rw [← sumCost_width cfg _ _ hW]
      have := hmax q hq
      unfold cost at this
      simpa [hW] using this
    rw [hvis]
    refine ⟨h1, ?_⟩
    have h2 := sumClamped_le_sumWidth cfg (textsOf s.items) (c :: vis)
    have h3 := Nat.min_le_left (cfg.textw ((textsOf s.items).getD q [])) (budget cfg)
    omega

/-- Witness of C7: a budget of 160 pixels over four matches of 50 pixels, of
which three fit. -/
theorem C7_witness :
    ∃ s', calcoffsets exampleCfg fourState = .ok s' ∧ s'.curr = some 0 ∧
      sumClamped exampleCfg (textsOf fourState.items) (visible s') ≤ budget exampleCfg ∧
      ∀ q, s'.next = some q →
        (budget exampleCfg < sumClamped exampleCfg (textsOf fourState.items) (visible s')
          + min (exampleCfg.textw ((textsOf fourState.items).getD q [])) (budget exampleCfg) ∧
         budget exampleCfg < sumWidth exampleCfg (textsOf fourState.items) (visible s')
          + exampleCfg.textw ((textsOf fourState.items).getD q [])) :=
  C7_width_window exampleCfg fourState [0, 1, 2, 3] [] [1, 2, 3] 0
    (linked_of_check _ _ (by decide)) rfl rfl rfl (by decide)

/-- C8, as stated, fails: with three rows and five matches, moving the
selection to the fifth item (by End, or by four presses of Down) leaves
`next` none but `curr` at the fourth item, not the third; the third item is
not visible. -/
theorem C8_counterexample :
    (∃ s', pressAll rowCfg (setup rowCfg fiveTexts) [plainKey XK_End] = .ok s' ∧
      matchView s' = [0, 1, 2, 3, 4] ∧ s'.sel = some 4 ∧ s'.next = none ∧
      s'.curr ≠ some 2 ∧ visible s' ≠ [2, 3, 4]) ∧
    (∃ s', pressAll rowCfg (setup rowCfg fiveTexts)
        [plainKey XK_Down, plainKey XK_Down, plainKey XK_Down, plainKey XK_Down] = .ok s' ∧
      matchView s' = [0, 1, 2, 3, 4] ∧ s'.sel = some 4 ∧ s'.next = none ∧
      s'.curr ≠ some 2 ∧ visible s' ≠ [2, 3, 4]) := by
  constructor
  · refine ⟨_, rfl, ?_, ?_, ?_, ?_, ?_⟩ <;> decide
  · refine ⟨_, rfl, ?_, ?_, ?_, ?_, ?_⟩ <;> decide

/-- C8, amended: with three rows and five matches, moving the selection to
the fifth item (by End, or by four presses of Down) leaves `next` none and
`curr` at the fourth item: the window pages forward to the items 4..5. -/
theorem C8_window_pages :
    (∃ s', pressAll rowCfg (setup rowCfg fiveTexts) [plainKey XK_End] = .ok s' ∧
      matchView s' = [0, 1, 2, 3, 4] ∧ s'.sel = some 4 ∧ s'.next = none ∧
      s'.curr = some 3 ∧ visible s' = [3, 4]) ∧
    (∃ s', pressAll rowCfg (setup rowCfg fiveTexts)
        [plainKey XK_Down, plainKey XK_Down, plainKey XK_Down, plainKey XK_Down] = .ok s' ∧
      matchView s' = [0, 1, 2, 3, 4] ∧ s'.sel = some 4 ∧ s'.next = none ∧
      s'.curr = some 3 ∧ visible s' = [3, 4]) := by
  constructor
  · refine ⟨_, rfl, ?_, ?_, ?_, ?_, ?_⟩ <;> decide
  · refine ⟨_, rfl, ?_, ?_, ?_, ?_, ?_⟩ <;> decide

theorem keypress_selectNext (cfg : Config) (s : State) (ev : XKeyEvent) (h : isSelectNext ev) :
    keypress cfg s ev = keyDown cfg s := by
  rcases h with ⟨hc, hk⟩ | ⟨hc, hk⟩
  · simp [keypress, hc, dispatch, hk, XK_Return, XK_Delete, XK_BackSpace, XK_End, XK_Escape,
      XK_Home, XK_Left, XK_Up, XK_Next, XK_Prior, XK_KP_Enter, XK_Right, XK_Down]
  · simp [keypress, hc, dispatch, hk, XK_Return, XK_Delete, XK_BackSpace, XK_End, XK_Escape,
      XK_Home, XK_Left, XK_Up, XK_Next, XK_Prior, XK_KP_Enter, XK_Right, XK_Down,
      XK_a, XK_b, XK_c, XK_d, XK_e, XK_f, XK_h, XK_i, XK_j, XK_k, XK_n]

/-- C10: in every session whose match list is `mv` and whose selection is the
last item of `mv` (none when `mv` is empty), SelectNext returns the session
unchanged and produces no outcome. -/
theorem C10_select_next_noop (cfg : Config) (s : State) (mv : List Nat) (ev : XKeyEvent)
    (hl : Linked s.items mv) (hsel : s.sel = mv.getLast?) (hev : isSelectNext ev) :
    keypress cfg s ev = .ok s := by
  rw [keypress_selectNext cfg s ev hev]
  rcases eq_nil_or_snoc mv with hm | ⟨l, p, hm⟩
  · subst hm
    simp only [List.getLast?_nil] at hsel
    simp [keyDown, hsel]
  · subst hm
    rw [List.getLast?_concat] at hsel
    obtain ⟨it, h1, -, -, h4⟩ := Linked.rd hl (show l ++ [p] = l ++ p :: [] from rfl)
    simp only [List.head?_nil] at h4
    simp [keyDown, hsel, h1, Res.bind, h4]

/-- Witness of C10: five matches, the fifth selected, Down pressed. -/
theorem C10_witness :
    keypress rowCfg { fiveState with sel := some 4, curr := some 3, prev := some 0 }
        (plainKey XK_Down)
      = .ok { fiveState with sel := some 4, curr := some 3, prev := some 0 } :=
  C10_select_next_noop rowCfg _ [0, 1, 2, 3, 4] (plainKey XK_Down)
    (linked_of_check _ _ (by decide)) (by decide) (by decide)

/-! ## Rune boundaries -/

set_option maxRecDepth 100000 in
theorem lead_not_cont : ∀ b, b < 248 → (b < 128 ∨ 192 ≤ b) → isCont b = false := by
  decide

theorem utf8_first (text : List Nat) (h : utf8Valid text = true) (hne : 0 < text.length) :
    isCont (text.getD 0 0) = false := by
  cases text with
  | nil => simp at hne
  | cons b rest =>
    simp only [utf8Valid, utf8Go] at h
    simp only [List.getD_cons_zero]
    by_cases h1 : b < 0x80
    · exact lead_not_cont b (by omega) (Or.inl h1)
    · rw [if_neg h1] at h
      by_cases h2 : 0xc0 ≤ b ∧ b < 0xe0
      · exact lead_not_cont b (by omega) (Or.inr h2.1)
      · rw [if_neg h2] at h
        by_cases h3 : 0xe0 ≤ b ∧ b < 0xf0
        · exact lead_not_cont b (by omega) (Or.inr (by omega))
        · rw [if_neg h3] at h
          by_cases h4 : 0xf0 ≤ b ∧ b < 0xf8
          · exact lead_not_cont b (by omega) (Or.inr (by omega))
          · rw [if_neg h4] at h
            simp at h

theorem toSize_pred (n : Nat) (hn : n + 1 < 2 ^ 64) : toSize (((n + 1 : Nat) : Int) + (-1)) = n := by
  unfold toSize
  have : ((n + 1 : Nat) : Int) + (-1) = (n : Int) := by push_cast; ring
  rw [this, Int.emod_eq_of_lt (by omega) (by omega)]
  simp

theorem toSize_succ (n : Nat) (hn : n + 1 < 2 ^ 64) : toSize ((n : Int) + 1) = n + 1 := by
  unfold toSize
  rw [Int.emod_eq_of_lt (by omega) (by omega)]
  have : (n : Int) + 1 = ((n + 1 : Nat) : Int) := by push_cast; ring
  rw [this]
  simp

theorem nextruneLoop_back (text : List Nat) (h0 : isCont (text.getD 0 0) = false)
    (hlen : text.length < 2 ^ 64) :
    ∀ (n fuel : Nat), n < text.length → n < fuel →
      ∃ r, nextruneLoop text (-1) fuel n = .ok r ∧ r ≤ n ∧ isCont (text.getD r 0) = false ∧
        ∀ j, r < j → j ≤ n → isCont (text.getD j 0) = true := by
  intro n
  induction n with
  | zero =>
    intro fuel _ hf
    cases fuel with
    | zero => omega
    | succ f =>
      refine ⟨0, ?_, le_refl _, h0, by intro j h1 h2; omega⟩
      have hcond : ¬ (0 < text.length ∧ isCont (text.getD 0 0) = true) := by
        rw [h0]; simp
      simp only [nextruneLoop, hcond, if_false]
  | succ n ih =>
    intro fuel hn hf
    cases fuel with
    | zero => omega
    | succ f =>
      by_cases hc : isCont (text.getD (n + 1) 0) = true
      · obtain ⟨r, hr, hle, hnc, hall⟩ := ih f (by omega) (by omega)
        refine ⟨r, ?_, by omega, hnc, ?_⟩
        · simp only [nextruneLoop, hn, hc, and_self, if_true]
          rw [toSize_pred n (by omega)]
          exact hr
        · intro j h1 h2
          by_cases hj : j = n + 1
          · subst hj; exact hc
          · exact hall j h1 (by omega)
      · refine ⟨n + 1, ?_, le_refl _, by simpa using hc, by intro j h1 h2; omega⟩
        have hcond : ¬ (n + 1 < text.length ∧ isCont (text.getD (n + 1) 0) = true) :=
          fun h => hc h.2
        simp only [nextruneLoop, hcond, if_false]

theorem nextruneLoop_fwd (text : List Nat) (hlen : text.length < 2 ^ 64) :
    ∀ (d n fuel : Nat), n + d = text.length → d < fuel →
      ∃ r, nextruneLoop text 1 fuel n = .ok r ∧ n ≤ r ∧ r ≤ text.length ∧
        (r = text.length ∨ isCont (text.getD r 0) = false) ∧
        ∀ j, n ≤ j → j < r → isCont (text.getD j 0) = true := by
  intro d
  induction d with
  | zero =>
    intro n fuel hn hf
    cases fuel with
    | zero => omega
    | succ f =>
      refine ⟨n, ?_, le_refl _, by omega, Or.inl (by omega), by intro j h1 h2; omega⟩
      have hcond : ¬ (n < text.length ∧ isCont (text.getD n 0) = true) :=
        fun h => by omega
      simp only [nextruneLoop, hcond, if_false]
  | succ d ih =>
    intro n fuel hn hf
    cases fuel with
    | zero => omega
    | succ f =>
      have hnl : n < text.length := by omega
      by_cases hc : isCont (text.getD n 0) = true
      · obtain ⟨r, hr, hle, hle2, hb, hall⟩ := ih (n + 1) f (by omega) (by omega)
        refine ⟨r, ?_, by omega, hle2, hb, ?_⟩
        · simp only [nextruneLoop, hnl, hc, and_self, if_true]
          rw [toSize_succ n (by omega)]
          exact hr
        · intro j h1 h2
          by_cases hj : j = n
          · subst hj; exact hc
          · exact hall j (by omega) h2
      · refine ⟨n, ?_, le_refl _, by omega, Or.inr (by simpa using hc),
          by intro j h1 h2; omega⟩
        have hcond : ¬ (n < text.length ∧ isCont (text.getD n 0) = true) :=
          fun h => hc h.2
        simp only [nextruneLoop, hcond, if_false]

/-- C9: in a buffer that is well-formed UTF-8 (shorter than `2 ^ 64` bytes),
with the cursor on a rune boundary: `nextrune(-1)` from a cursor above zero
returns the greatest position below the cursor whose byte is not a
continuation byte, `nextrune(+1)` from a cursor below the length returns the
least position above the cursor that is the length or holds a byte that is
not a continuation byte; both results are rune boundaries within the text. -/
theorem C9_rune_safe (s : State) (hv : utf8Valid s.text = true)
    (hb : runeBoundary s.text s.cursor) (hlen : s.text.length < 2 ^ 64) :
    (0 < s.cursor → ∃ r, nextrune s (-1) = .ok r ∧ r < s.cursor ∧
      isCont (s.text.getD r 0) = false ∧
      (∀ j, r < j → j < s.cursor → isCont (s.text.getD j 0) = true) ∧
      runeBoundary s.text r) ∧
    (s.cursor < s.text.length → ∃ r, nextrune s 1 = .ok r ∧ s.cursor < r ∧
      (r = s.text.length ∨ isCont (s.text.getD r 0) = false) ∧
      (∀ j, s.cursor < j → j < r → isCont (s.text.getD j 0) = true) ∧
      runeBoundary s.text r) := by
  obtain ⟨hcl, -⟩ := hb
  constructor
  · intro hpos
    obtain ⟨n, hn⟩ : ∃ n, s.cursor = n + 1 := ⟨s.cursor - 1, by omega⟩
    have h0 := utf8_first s.text hv (by omega)
    obtain ⟨r, hr, hle, hnc, hall⟩ :=
      nextruneLoop_back s.text h0 hlen n (s.text.length + 1) (by omega) (by omega)
    refine ⟨r, ?_, by omega, hnc, ?_, ⟨by omega, Or.inr hnc⟩⟩
    · unfold nextrune
      rw [hn, toSize_pred n (by omega)]
      exact hr
    · intro j h1 h2
      exact hall j h1 (by omega)
  · intro hlt
    obtain ⟨r, hr, hle, hle2, hbd, hall⟩ :=
      nextruneLoop_fwd s.text hlen (s.text.length - (s.cursor + 1)) (s.cursor + 1)
        (s.text.length + 1) (by omega) (by omega)
    refine ⟨r, ?_, by omega, hbd, ?_, ⟨hle2, hbd⟩⟩
    · unfold nextrune
      rw [toSize_succ s.cursor (by omega)]
      exact hr
    · intro j h1 h2
      exact hall j (by omega) h2

/-- Witness of C9: in the buffer "béc" (bytes 0x62, 0xc3, 0xa9, 0x63) with the
cursor just after "é", at position 3. -/
theorem C9_witness :
    (0 < accentState.cursor → ∃ r, nextrune accentState (-1) = .ok r ∧ r < accentState.cursor ∧
      isCont (accentState.text.getD r 0) = false ∧
      (∀ j, r < j → j < accentState.cursor → isCont (accentState.text.getD j 0) = true) ∧
      runeBoundary accentState.text r) ∧
    (accentState.cursor < accentState.text.length → ∃ r, nextrune accentState 1 = .ok r ∧
      accentState.cursor < r ∧
      (r = accentState.text.length ∨ isCont (accentState.text.getD r 0) = false) ∧
      (∀ j, accentState.cursor < j → j < r → isCont (accentState.text.getD j 0) = true) ∧
      runeBoundary accentState.text r) :=
  C9_rune_safe accentState (by decide) (by decide) (by decide)

/-- The example of C9 evaluated: from just after "é" one rune to the left is
position 1, before the whole encoding, and one rune to the right is the end. -/
theorem C9_example :
    nextrune accentState (-1) = .ok 1 ∧ nextrune accentState 1 = .ok 4 := by
  constructor <;> decide

/-! ## The window invariant -/

theorem cost_le_budget (cfg : Config) (h : NoOverflow cfg) (t : List Nat) :
    cost cfg t ≤ budget cfg := by
  unfold NoOverflow at h
  unfold cost budget
  by_cases hL : 0 < cfg.lines
  · rw [if_pos hL] at h
    have hL' : cfg.lines > 0 := hL
    rw [if_pos hL', if_pos hL', Nat.mod_eq_of_lt (by omega)]
    exact Nat.le_mul_of_pos_left _ hL
  · have hL' : ¬ cfg.lines > 0 := hL
    rw [if_neg hL']
    exact Nat.min_le_right _ _

theorem budget_small (cfg : Config) (h : NoOverflow cfg) : budget cfg < 2 ^ 31 := by
  unfold NoOverflow at h
  by_cases hL : 0 < cfg.lines
  · rw [if_pos hL] at h
    unfold budget
    have hL' : cfg.lines > 0 := hL
    rw [if_pos hL', Nat.mod_eq_of_lt (by omega)]
    exact h
  · rw [if_neg hL] at h
    exact h

theorem window_split (cfg : Config) (texts : List (List Nat)) (h : NoOverflow cfg)
    (l m suf2 : List Nat) (e : l = m ++ suf2) (hm : sumCost cfg texts m ≤ budget cfg) :
    ∃ vis2 rest, suf2 = vis2 ++ rest ∧ scanNextL cfg texts 0 l = rest.head? := by
  obtain ⟨vis2, rest, e2, hs, -, -⟩ := scanNextL_split cfg texts (budget_small cfg h)
    (cost_le_budget cfg h) suf2 (sumCost cfg texts m) hm
  refine ⟨vis2, rest, e2, ?_⟩
  rw [e, scanNextL_append cfg texts suf2 m 0 (by omega), Nat.zero_add]
  exact hs

theorem calc_inv (cfg : Config) (h : NoOverflow cfg) (s : State) (mv pre suf m suf2 : List Nat)
    (c x : Nat) (hl : Linked s.items mv) (hm0 : s.matches_ = mv.head?)
    (e : mv = pre ++ c :: suf) (hc : s.curr = some c) (hx : s.sel = some x)
    (em : c :: suf = m ++ suf2) (hxm : x ∈ m)
    (hm : sumCost cfg (textsOf s.items) m ≤ budget cfg) :
    ∃ s', calcoffsets cfg s = .ok s' ∧ WinInv cfg s' := by
  obtain ⟨vis2, rest, e2, hs⟩ := window_split cfg (textsOf s.items) h (c :: suf) m suf2 em hm
  refine ⟨_, calcoffsets_ok cfg s mv pre suf c hl e hc, mv, hl, hm0, Or.inr ?_⟩
  cases m with
  | nil => simp at hxm
  | cons c' m' =>
    simp only [List.cons_append, List.cons.injEq] at em
    obtain ⟨rfl, em'⟩ := em
    refine ⟨pre, c, m' ++ vis2, rest, x, ?_, hc, hs, rfl, hx, ?_⟩
    · rw [e, em', e2]; simp
    · simp only [List.mem_cons, List.mem_append] at hxm ⊢
      rcases hxm with h1 | h1
      · exact Or.inl h1
      · exact Or.inr (Or.inl h1)

theorem calc_inv_pivot (cfg : Config) (h : NoOverflow cfg) (s : State) (mv pre suf : List Nat)
    (c : Nat) (hl : Linked s.items mv) (hm0 : s.matches_ = mv.head?)
    (e : mv = pre ++ c :: suf) (hc : s.curr = some c) (hx : s.sel = some c) :
    ∃ s', calcoffsets cfg s = .ok s' ∧ WinInv cfg s' :=
  calc_inv cfg h s mv pre suf [c] suf c c hl hm0 e hc hx rfl (by simp)
    (by simpa [sumCost] using cost_le_budget cfg h _)

theorem match_inv (cfg : Config) (h : NoOverflow cfg) (s s' : State)
    (hm : match_ cfg s = .ok s') : WinInv cfg s' := by
  obtain ⟨items', hl, ht, -, hspec⟩ := match_spec cfg s
  rw [hspec] at hm
  have hs' : s' = matchPost cfg s items' (mvOf cfg s.text (textsOf s.items)) := by
    unfold matchOutcome at hm
    split at hm
    · split at hm
      · cases hm
      · cases hm
      · exact (Res.ok.inj hm).symm
    · exact (Res.ok.inj hm).symm
  subst hs'
  refine ⟨_, hl, rfl, ?_⟩
  cases hmv : mvOf cfg s.text (textsOf s.items) with
  | nil => exact Or.inl ⟨rfl, rfl, rfl, rfl, rfl⟩
  | cons c suf =>
    obtain ⟨vis2, rest, e2, hs⟩ := window_split cfg (textsOf s.items) h (c :: suf) [c] suf rfl
      (by simpa [sumCost] using cost_le_budget cfg h _)
    refine Or.inr ⟨[], c, vis2, rest, c, by rw [e2]; rfl, rfl, ?_, ?_, rfl, by simp⟩
    · simp only [matchPost]; exact hs
    · simp only [matchPost, List.head?_cons, List.reverse_nil, scanPrevL]

theorem keyDown_inv (cfg : Config) (h : NoOverflow cfg) (s s' : State) (hinv : WinInv cfg s)
    (hk : keyDown cfg s = .ok s') : WinInv cfg s' := by
  obtain ⟨mv, hl, hm0, hwin⟩ := hinv
  rcases hwin with ⟨w1, w2, w3, hsel, w5⟩ | ⟨pre, c, vis, rest, x, e, hc, hnx, hpv, hsel, hx⟩
  · simp only [keyDown, hsel] at hk
    cases hk
    exact ⟨mv, hl, hm0, Or.inl ⟨w1, w2, w3, hsel, w5⟩⟩
  · obtain ⟨a, b, eab⟩ := List.append_of_mem hx
    have e' : mv = (pre ++ a) ++ x :: (b ++ rest) := by
      rw [e, ← List.cons_append, eab]; simp
    obtain ⟨it, h1, -, -, h4⟩ := Linked.rd hl e'
    simp only [keyDown, hsel, h1, Res.bind] at hk
    cases b with
    | nil =>
      cases rest with
      | nil =>
        simp only [List.append_nil, List.head?_nil] at h4
        simp only [h4] at hk
        cases hk
        exact ⟨mv, hl, hm0, Or.inr ⟨pre, c, vis, [], x, e, hc, hnx, hpv, hsel, hx⟩⟩
      | cons r rest' =>
        simp only [List.nil_append, List.head?_cons] at h4 hnx
        rw [h4] at hk
        simp only [] at hk
        rw [if_pos hnx.symm] at hk
        have e'' : mv = (pre ++ a ++ [x]) ++ r :: rest' := by rw [e']; simp
        obtain ⟨s'', hcalc, hinv''⟩ := calc_inv_pivot cfg h
          { s with sel := some r, curr := s.next } mv (pre ++ a ++ [x]) rest' r hl hm0 e'' hnx rfl
        rw [hcalc] at hk
        cases hk
        exact hinv''
    | cons y b' =>
      simp only [List.cons_append, List.head?_cons] at h4
      have hne : some y ≠ s.next := by
        rw [hnx]
        intro hh
        have hyr : y ∈ rest := List.mem_of_mem_head? hh.symm
        have hnd := hl.1
        rw [e'] at hnd
        have h2 := (List.nodup_append.1 (List.nodup_cons.1 (List.nodup_append.1 hnd).2.1).2).2.2
        exact h2 (show y ∈ y :: b' by simp) hyr
      simp only [h4, hne, if_false] at hk
      cases hk
      refine ⟨mv, hl, hm0, Or.inr ⟨pre, c, vis, rest, y, e, hc, hnx, hpv, rfl, ?_⟩⟩
      rw [eab]; simp

theorem sumCost_reverse (cfg : Config) (texts : List (List Nat)) (l : List Nat) :
    sumCost cfg texts l.reverse = sumCost cfg texts l := by
  induction l with
  | nil => rfl
  | cons a l ih =>
    rw [List.reverse_cons, sumCost_append, ih, sumCost_cons]
    simp [sumCost]
    omega

/-- The page before the window: the backward scan from `c` over `pre` takes
a run `m` of items ending just before `c` whose total cost fits the budget,
and `prev` is the first item of the run (`c` itself when `pre` is empty). -/
theorem prev_page (cfg : Config) (texts : List (List Nat)) (h : NoOverflow cfg)
    (pre : List Nat) (c : Nat) :
    ∃ pre0 m, pre = pre0 ++ m ∧
      some (scanPrevL cfg texts 0 c pre.reverse) = (m ++ [c]).head? ∧
      sumCost cfg texts m ≤ budget cfg ∧ (pre ≠ [] → m ≠ []) := by
  obtain ⟨taken, restp, e, hs, hsum, hmax⟩ := scanPrevL_split cfg texts (budget_small cfg h)
    (cost_le_budget cfg h) pre.reverse c 0 (Nat.zero_le _)
  have epre : pre = restp.reverse ++ taken.reverse := by
    have := congrArg List.reverse e
    simpa using this
  refine ⟨restp.reverse, taken.reverse, epre, ?_, ?_, ?_⟩
  · rw [hs]
    cases ht : taken.reverse with
    | nil =>
      have : taken = [] := by simpa using ht
      subst this
      rfl
    | cons p m' =>
      have h1 : taken.getLast? = some p := by
        rw [← List.head?_reverse, ht]; rfl
      rw [h1]; rfl
  · rw [sumCost_reverse]; omega
  · intro hne htk
    have htk' : taken = [] := by simpa using htk
    subst htk'
    simp only [List.nil_append] at e
    cases hr : restp with
    | nil =>
      rw [hr] at e
      apply hne
      simpa using e
    | cons q r =>
      have := hmax q (by rw [hr]; rfl)
      have := cost_le_budget cfg h (texts.getD q [])
      simp [sumCost] at *
      omega

theorem keyUp_inv (cfg : Config) (h : NoOverflow cfg) (s s' : State) (hinv : WinInv cfg s)
    (hk : keyUp cfg s = .ok s') : WinInv cfg s' := by
  obtain ⟨mv, hl, hm0, hwin⟩ := hinv
  rcases hwin with ⟨w1, w2, w3, hsel, w5⟩ | ⟨pre, c, vis, rest, x, e, hc, hnx, hpv, hsel, hx⟩
  · simp only [keyUp, hsel] at hk
    cases hk
    exact ⟨mv, hl, hm0, Or.inl ⟨w1, w2, w3, hsel, w5⟩⟩
  · obtain ⟨a, b, eab⟩ := List.append_of_mem hx
    have e' : mv = (pre ++ a) ++ x :: (b ++ rest) := by
      rw [e, ← List.cons_append, eab]; simp
    obtain ⟨it, h1, -, h3, -⟩ := Linked.rd hl e'
    simp only [keyUp, hsel, h1, Res.bind] at hk
    have hnd := hl.1
    rcases eq_nil_or_snoc a with ha | ⟨a', l, ha⟩
    · subst ha
      simp only [List.nil_append, List.cons.injEq] at eab
      obtain ⟨rfl, rfl⟩ := eab
      simp only [List.append_nil] at h3 e'
      rcases eq_nil_or_snoc pre with hp | ⟨pre', l, hp⟩
      · subst hp
        simp only [List.getLast?_nil] at h3
        simp only [h3] at hk
        cases hk
        exact ⟨mv, hl, hm0, Or.inr ⟨[], c, vis, rest, c, e, hc, hnx, hpv, hsel, hx⟩⟩
      · subst hp
        rw [List.getLast?_concat] at h3
        have el : mv = pre' ++ l :: (c :: (vis ++ rest)) := by rw [e]; simp
        obtain ⟨itl, hl1, -, -, hl4⟩ := Linked.rd hl el
        simp only [List.head?_cons] at hl4
        rw [h3] at hk
        simp only [hl1, Res.bind] at hk
        rw [if_pos (by rw [hl4, hc])] at hk
        obtain ⟨pre0, m, epm, hpm, hsum, hne⟩ :=
          prev_page cfg (textsOf s.items) h (pre' ++ [l]) c
        have hmne : m ≠ [] := hne (by simp)
        obtain ⟨pv, m', em⟩ : ∃ pv m', m = pv :: m' := by
          cases m with
          | nil => exact absurd rfl hmne
          | cons pv m' => exact ⟨pv, m', rfl⟩
        subst em
        simp only [List.cons_append, List.head?_cons, Option.some.injEq] at hpm
        have hlm : l ∈ pv :: m' := by
          have hh : (pre' ++ [l]).getLast? = (pre0 ++ pv :: m').getLast? := by rw [epm]
          rw [List.getLast?_concat, List.getLast?_append] at hh
          have : (pv :: m').getLast? = some l := by
            cases hg : (pv :: m').getLast? with
            | none => simp at hg
            | some z => rw [hg] at hh; simpa using hh.symm
          exact List.mem_of_mem_getLast? this
        have e2 : mv = pre0 ++ pv :: (m' ++ c :: (vis ++ rest)) := by
          rw [e, epm]; simp
        obtain ⟨s'', hcalc, hinv''⟩ := calc_inv cfg h
          { s with sel := some l, curr := s.prev } mv pre0 (m' ++ c :: (vis ++ rest))
          (pv :: m') (c :: (vis ++ rest)) pv l hl hm0 e2 (by rw [hpv, hpm]) rfl
          (by simp) hlm hsum
        rw [hcalc] at hk
        cases hk
        exact hinv''
    · subst ha
      have h3' : it.left = some l := by
        rw [h3, ← List.append_assoc, List.getLast?_concat]
      have el : mv = (pre ++ a') ++ l :: (x :: (b ++ rest)) := by rw [e']; simp
      obtain ⟨itl, hl1, -, -, hl4⟩ := Linked.rd hl el
      simp only [List.head?_cons] at hl4
      rw [h3'] at hk
      simp only [hl1, Res.bind] at hk
      have hxc : ¬ itl.right = s.curr := by
        rw [hl4, hc]
        intro hh
        have hxc : x = c := Option.some.inj hh
        subst hxc
        have hnd2 : (x :: vis).Nodup := by
          rw [e] at hnd
          have := (List.nodup_append.1 hnd).2.1
          rw [← List.cons_append] at this
          exact (List.nodup_append.1 this).1
        have := first_unique hnd2 eab rfl
        simp at this
      rw [if_neg hxc] at hk
      cases hk
      refine ⟨mv, hl, hm0, Or.inr ⟨pre, c, vis, rest, l, e, hc, hnx, hpv, rfl, ?_⟩⟩
      rw [eab]; simp

theorem winInv_same_pointers (cfg : Config) (s t : State) (hinv : WinInv cfg s)
    (h1 : t.items = s.items) (h2 : t.matches_ = s.matches_) (h3 : t.sel = s.sel)
    (h4 : t.prev = s.prev) (h5 : t.curr = s.curr) (h6 : t.next = s.next) : WinInv cfg t := by
  obtain ⟨mv, hl, hm0, hwin⟩ := hinv
  refine ⟨mv, by rw [h1]; exact hl, by rw [h2]; exact hm0, ?_⟩
  unfold Win at hwin ⊢
  rw [h1, h3, h4, h5, h6]
  exact hwin

theorem keyNext_inv (cfg : Config) (h : NoOverflow cfg) (s s' : State) (hinv : WinInv cfg s)
    (hk : keyNext cfg s = .ok s') : WinInv cfg s' := by
  unfold keyNext at hk
  by_cases hn : s.next = none
  · rw [if_pos hn] at hk
    cases hk
    exact hinv
  · rw [if_neg hn] at hk
    obtain ⟨mv, hl, hm0, hwin⟩ := hinv
    rcases hwin with ⟨w1, w2, w3, hsel, w5⟩ | ⟨pre, c, vis, rest, x, e, hc, hnx, hpv, hsel, hx⟩
    · exact absurd w3 hn
    · cases rest with
      | nil => exact absurd hnx hn
      | cons r rest' =>
        simp only [List.head?_cons] at hnx
        have e'' : mv = (pre ++ c :: vis) ++ r :: rest' := by rw [e]; simp
        obtain ⟨s'', hcalc, hinv''⟩ := calc_inv_pivot cfg h
          { s with sel := s.next, curr := s.next } mv (pre ++ c :: vis) rest' r hl hm0 e'' hnx hnx
        rw [hcalc] at hk
        cases hk
        exact hinv''

theorem keyPrior_inv (cfg : Config) (h : NoOverflow cfg) (s s' : State) (hinv : WinInv cfg s)
    (hk : keyPrior cfg s = .ok s') : WinInv cfg s' := by
  unfold keyPrior at hk
  by_cases hn : s.prev = none
  · rw [if_pos hn] at hk
    cases hk
    exact hinv
  · rw [if_neg hn] at hk
    obtain ⟨mv, hl, hm0, hwin⟩ := hinv
    rcases hwin with ⟨w1, w2, w3, hsel, w5⟩ | ⟨pre, c, vis, rest, x, e, hc, hnx, hpv, hsel, hx⟩
    · exact absurd w5 hn
    · obtain ⟨pre0, m, epm, hpm, -, -⟩ := prev_page cfg (textsOf s.items) h pre c
      obtain ⟨pv, t, et⟩ : ∃ pv t, m ++ [c] = pv :: t := by
        cases m with
        | nil => exact ⟨c, [], rfl⟩
        | cons pv m' => exact ⟨pv, m' ++ [c], rfl⟩
      rw [et] at hpm
      simp only [List.head?_cons] at hpm
      have e2 : mv = pre0 ++ pv :: (t ++ (vis ++ rest)) := by
        have : pre0 ++ pv :: (t ++ (vis ++ rest)) = pre0 ++ (pv :: t) ++ (vis ++ rest) := by simp
        rw [this, ← et, e, epm]; simp
      obtain ⟨s'', hcalc, hinv''⟩ := calc_inv_pivot cfg h
        { s with sel := s.prev, curr := s.prev } mv pre0 (t ++ (vis ++ rest)) pv hl hm0 e2
        (by rw [hpv, hpm]) (by rw [hpv, hpm])
      rw [hcalc] at hk
      cases hk
      exact hinv''

theorem keyHome_inv (cfg : Config) (h : NoOverflow cfg) (s s' : State) (hinv : WinInv cfg s)
    (hk : keyHome cfg s = .ok s') : WinInv cfg s' := by
  unfold keyHome at hk
  by_cases hn : s.sel = s.matches_
  · rw [if_pos hn] at hk
    cases hk
    exact winInv_same_pointers cfg s _ hinv rfl rfl rfl rfl rfl rfl
  · rw [if_neg hn] at hk
    obtain ⟨mv, hl, hm0, hwin⟩ := hinv
    cases hmv : mv with
    | nil =>
      exfalso
      apply hn
      rcases hwin with ⟨w1, w2, w3, hsel, w5⟩ | ⟨pre, c, vis, rest, x, e, hc, hnx, hpv, hsel, hx⟩
      · rw [hsel, hm0, hmv]; rfl
      · rw [hmv] at e; simp at e
    | cons c0 t =>
      have hm0' : s.matches_ = some c0 := by rw [hm0, hmv]; rfl
      obtain ⟨s'', hcalc, hinv''⟩ := calc_inv_pivot cfg h
        { s with sel := s.matches_, curr := s.matches_ } mv [] t c0 hl hm0
        (by rw [hmv]; rfl) hm0' hm0'
      rw [hcalc] at hk
      cases hk
      exact hinv''

theorem endPages_inv (cfg : Config) (h : NoOverflow cfg) :
    ∀ (fuel : Nat) (s s' : State), WinInv cfg s → endPages cfg fuel s = .ok s' →
      WinInv cfg s' ∧ s'.next = none := by
  intro fuel
  induction fuel with
  | zero =>
    intro s s' hinv hk
    unfold endPages at hk
    split at hk
    · cases hk; exact ⟨hinv, by assumption⟩
    · cases hk
  | succ f ih =>
    intro s s' hinv hk
    unfold endPages at hk
    by_cases hn : s.next = none
    · rw [if_pos hn] at hk
      cases hk; exact ⟨hinv, hn⟩
    · rw [if_neg hn] at hk
      cases hc : calcoffsets cfg { s with sel := s.next, curr := s.next } with
      | ok s1 =>
        rw [hc] at hk
        have hnext : keyNext cfg s = .ok s1 := by
          unfold keyNext; rw [if_neg hn]; exact hc
        exact ih s1 s' (keyNext_inv cfg h s s1 hinv hnext) hk
      | exited b o => rw [hc] at hk; cases hk
      | fault => rw [hc] at hk; cases hk
      | nofuel => rw [hc] at hk; cases hk

theorem selLast_ok (items : List Item) (mv : List Nat) (hl : Linked items mv) :
    ∀ (suf pre : List Nat) (x fuel : Nat) (r : Option Nat), mv = pre ++ x :: suf →
      selLast items fuel (some x) = .ok r → r = (x :: suf).getLast? := by
  intro suf
  induction suf with
  | nil =>
    intro pre x fuel r e hk
    obtain ⟨it, h1, -, -, h4⟩ := Linked.rd hl e
    simp only [List.head?_nil] at h4
    cases fuel <;> simp only [selLast, h1, Res.bind, h4] at hk <;> cases hk <;> rfl
  | cons y suf' ih =>
    intro pre x fuel r e hk
    obtain ⟨it, h1, -, -, h4⟩ := Linked.rd hl e
    simp only [List.head?_cons] at h4
    cases fuel with
    | zero => simp only [selLast, h1, Res.bind, h4] at hk; cases hk
    | succ f =>
      simp only [selLast, h1, Res.bind, h4] at hk
      rw [ih (pre ++ [x]) y f r (by rw [e]; simp) hk]
      simp

theorem keyEnd_inv (cfg : Config) (h : NoOverflow cfg) (len : Nat) (s s' : State)
    (hinv : WinInv cfg s) (hk : keyEnd cfg len s = .ok s') : WinInv cfg s' := by
  unfold keyEnd at hk
  by_cases hcur : s.cursor < len
  · rw [if_pos hcur] at hk
    cases hk
    exact winInv_same_pointers cfg s _ hinv rfl rfl rfl rfl rfl rfl
  · rw [if_neg hcur] at hk
    cases he : endPages cfg s.items.length s with
    | ok s1 =>
      rw [he] at hk
      simp only [Res.bind] at hk
      obtain ⟨hinv1, hnone⟩ := endPages_inv cfg h _ s s1 hinv he
      cases hs : selLast s1.items s1.items.length s1.sel with
      | ok p =>
        rw [hs] at hk
        simp only [] at hk
        cases hk
        obtain ⟨mv, hl, hm0, hwin⟩ := hinv1
        refine ⟨mv, hl, hm0, ?_⟩
        rcases hwin with ⟨w1, w2, w3, hsel, w5⟩ | ⟨pre, c, vis, rest, x, e, hc, hnx, hpv, hsel, hx⟩
        · rw [hsel] at hs
          have : p = none := by
            cases hlen : s1.items.length <;> rw [hlen] at hs <;>
              simp only [selLast] at hs <;> cases hs <;> rfl
          subst this
          exact Or.inl ⟨w1, w2, w3, rfl, w5⟩
        · have hrest : rest = [] := by
            rw [hnone] at hnx
            cases rest with
            | nil => rfl
            | cons r t => simp at hnx
          subst hrest
          obtain ⟨a, b, eab⟩ := List.append_of_mem hx
          have e' : mv = (pre ++ a) ++ x :: b := by
            rw [e, List.append_nil, eab]; simp
          rw [hsel] at hs
          have hp := selLast_ok s1.items mv hl b (pre ++ a) x _ p e' hs
          have hmem : ∃ z, p = some z ∧ z ∈ c :: vis := by
            cases hg : (x :: b).getLast? with
            | none => simp at hg
            | some z =>
              refine ⟨z, by rw [hp, hg], ?_⟩
              rw [eab]
              have := List.mem_of_mem_getLast? hg
              exact List.mem_append_right _ this
          obtain ⟨z, hz1, hz2⟩ := hmem
          exact Or.inr ⟨pre, c, vis, [], z, e, hc, hnx, hpv, hz1, hz2⟩
      | exited b o => rw [hs] at hk; cases hk
      | fault => rw [hs] at hk; cases hk
      | nofuel => rw [hs] at hk; cases hk
    | exited b o => rw [he] at hk; cases hk
    | fault => rw [he] at hk; cases hk
    | nofuel => rw [he] at hk; cases hk

theorem bind_ok {α β : Type} (r : Res α) (f : α → Res β) (b : β) (h : r.bind f = .ok b) :
    ∃ a, r = .ok a ∧ f a = .ok b := by
  cases r with
  | ok a => exact ⟨a, rfl, h⟩
  | exited x o => cases h
  | fault => cases h
  | nofuel => cases h

theorem insert_inv (cfg : Config) (h : NoOverflow cfg) (s s' : State) (str : List Nat) (n : Int)
    (hinv : WinInv cfg s) (hk : insert cfg s str n = .ok s') : WinInv cfg s' := by
  unfold insert at hk
  split at hk
  · cases hk; exact hinv
  · split at hk
    · cases hk
    · split at hk
      · cases hk
      · split at hk
        · cases hk
        · exact match_inv cfg h _ s' hk

theorem keyTab_inv (cfg : Config) (h : NoOverflow cfg) (s s' : State) (hinv : WinInv cfg s)
    (hk : keyTab cfg s = .ok s') : WinInv cfg s' := by
  unfold keyTab at hk
  split at hk
  · cases hk; exact hinv
  · obtain ⟨it, -, hk⟩ := bind_ok _ _ _ hk
    split at hk
    · exact match_inv cfg h _ s' hk
    · cases hk

theorem keyRight_inv (cfg : Config) (h : NoOverflow cfg) (len : Nat) (s s' : State)
    (hinv : WinInv cfg s) (hk : keyRight cfg len s = .ok s') : WinInv cfg s' := by
  unfold keyRight at hk
  split at hk
  · obtain ⟨r, -, hk⟩ := bind_ok _ _ _ hk
    cases hk
    exact winInv_same_pointers cfg s _ hinv rfl rfl rfl rfl rfl rfl
  · split at hk
    · cases hk; exact hinv
    · exact keyDown_inv cfg h s s' hinv hk

theorem keyLeft_inv (cfg : Config) (h : NoOverflow cfg) (s s' : State)
    (hinv : WinInv cfg s) (hk : keyLeft cfg s = .ok s') : WinInv cfg s' := by
  unfold keyLeft at hk
  obtain ⟨b, -, hk⟩ := bind_ok _ _ _ hk
  split at hk
  · obtain ⟨r, -, hk⟩ := bind_ok _ _ _ hk
    cases hk
    exact winInv_same_pointers cfg s _ hinv rfl rfl rfl rfl rfl rfl
  · split at hk
    · cases hk; exact hinv
    · exact keyUp_inv cfg h s s' hinv hk

theorem keyBackSpace_inv (cfg : Config) (h : NoOverflow cfg) (s s' : State)
    (hinv : WinInv cfg s) (hk : keyBackSpace cfg s = .ok s') : WinInv cfg s' := by
  unfold keyBackSpace at hk
  split at hk
  · obtain ⟨r, -, hk⟩ := bind_ok _ _ _ hk
    exact insert_inv cfg h s s' _ _ hinv hk
  · cases hk; exact hinv

theorem keyDelete_inv (cfg : Config) (h : NoOverflow cfg) (len : Nat) (s s' : State)
    (hinv : WinInv cfg s) (hk : keyDelete cfg len s = .ok s') : WinInv cfg s' := by
  unfold keyDelete at hk
  split at hk
  · cases hk; exact hinv
  · obtain ⟨r, -, hk⟩ := bind_ok _ _ _ hk
    exact keyBackSpace_inv cfg h { s with cursor := r } s'
      (winInv_same_pointers cfg s _ hinv rfl rfl rfl rfl rfl rfl) hk

theorem keyDefault_inv (cfg : Config) (h : NoOverflow cfg) (s s' : State) (buf : List Nat)
    (hinv : WinInv cfg s) (hk : keyDefault cfg s buf = .ok s') : WinInv cfg s' := by
  unfold keyDefault at hk
  split at hk
  · cases hk; exact hinv
  · exact insert_inv cfg h s s' _ _ hinv hk

theorem dispatch_inv (cfg : Config) (h : NoOverflow cfg) (len : Nat) (s s' : State) (ksym : Nat)
    (ev : XKeyEvent) (hinv : WinInv cfg s) (hk : dispatch cfg len s ksym ev = .ok s') :
    WinInv cfg s' := by
  rw [dispatch] at hk
  by_cases c0 : ksym = XK_Delete
  · rw [if_pos c0] at hk
    exact keyDelete_inv cfg h len s s' hinv hk
  rw [if_neg c0] at hk
  by_cases c1 : ksym = XK_BackSpace
  · rw [if_pos c1] at hk
    exact keyBackSpace_inv cfg h s s' hinv hk
  rw [if_neg c1] at hk
  by_cases c2 : ksym = XK_End
  · rw [if_pos c2] at hk
    exact keyEnd_inv cfg h len s s' hinv hk
  rw [if_neg c2] at hk
  by_cases c3 : ksym = XK_Escape
  · rw [if_pos c3] at hk
    cases hk
  rw [if_neg c3] at hk
  by_cases c4 : ksym = XK_Home
  · rw [if_pos c4] at hk
    exact keyHome_inv cfg h s s' hinv hk
  rw [if_neg c4] at hk
  by_cases c5 : ksym = XK_Left
  · rw [if_pos c5] at hk
    exact keyLeft_inv cfg h s s' hinv hk
  rw [if_neg c5] at hk
  by_cases c6 : ksym = XK_Up
  · rw [if_pos c6] at hk
    exact keyUp_inv cfg h s s' hinv hk
  rw [if_neg c6] at hk
  by_cases c7 : ksym = XK_Next
  · rw [if_pos c7] at hk
    exact keyNext_inv cfg h s s' hinv hk
  rw [if_neg c7] at hk
  by_cases c8 : ksym = XK_Prior
  · rw [if_pos c8] at hk
    exact keyPrior_inv cfg h s s' hinv hk
  rw [if_neg c8] at hk
  by_cases c9 : ksym = XK_Return ∨ ksym = XK_KP_Enter
  · rw [if_pos c9] at hk
    unfold keyReturn handle_return at hk
    split at hk
    · cases hk
    · split at hk
      · cases hk
      · obtain ⟨it, -, hk⟩ := bind_ok _ _ _ hk
        cases hk
  rw [if_neg c9] at hk
  by_cases c10 : ksym = XK_Right
  · rw [if_pos c10] at hk
    exact keyRight_inv cfg h len s s' hinv hk
  rw [if_neg c10] at hk
  by_cases c11 : ksym = XK_Down
  · rw [if_pos c11] at hk
    exact keyDown_inv cfg h s s' hinv hk
  rw [if_neg c11] at hk
  by_cases c12 : ksym = XK_Tab
  · rw [if_pos c12] at hk
    exact keyTab_inv cfg h s s' hinv hk
  rw [if_neg c12] at hk
  exact keyDefault_inv cfg h s s' _ hinv hk

theorem wordLoop_inv (cfg : Config) (h : NoOverflow cfg) (space : Bool) :
    ∀ (fuel : Nat) (s s' : State), WinInv cfg s → wordLoop cfg space fuel s = .ok s' →
      WinInv cfg s' := by
  intro fuel
  induction fuel with
  | zero => intro s s' _ hk; cases hk
  | succ f ih =>
    intro s s' hinv hk
    unfold wordLoop at hk
    split at hk
    · obtain ⟨r, -, hk⟩ := bind_ok _ _ _ hk
      obtain ⟨c, -, hk⟩ := bind_ok _ _ _ hk
      split at hk
      · obtain ⟨s1, h1, hk⟩ := bind_ok _ _ _ hk
        exact ih s1 s' (insert_inv cfg h s s1 _ _ hinv h1) hk
      · cases hk; exact hinv
    · cases hk; exact hinv

theorem keypress_inv (cfg : Config) (h : NoOverflow cfg) (s s' : State) (ev : XKeyEvent)
    (hinv : WinInv cfg s) (hk : keypress cfg s ev = .ok s') : WinInv cfg s' := by
  rw [keypress] at hk
  by_cases hctl : ev.control = true
  swap
  · rw [if_neg hctl] at hk
    exact dispatch_inv cfg h _ s s' _ ev hinv hk
  rw [if_pos hctl] at hk
  by_cases ka : tolower ev.ksym = XK_a
  · rw [if_pos ka] at hk
    exact dispatch_inv cfg h _ s s' _ ev hinv hk
  rw [if_neg ka] at hk
  by_cases kb : tolower ev.ksym = XK_b
  · rw [if_pos kb] at hk
    exact dispatch_inv cfg h _ s s' _ ev hinv hk
  rw [if_neg kb] at hk
  by_cases kc : tolower ev.ksym = XK_c
  · rw [if_pos kc] at hk
    exact dispatch_inv cfg h _ s s' _ ev hinv hk
  rw [if_neg kc] at hk
  by_cases kd : tolower ev.ksym = XK_d
  · rw [if_pos kd] at hk
    exact dispatch_inv cfg h _ s s' _ ev hinv hk
  rw [if_neg kd] at hk
  by_cases ke : tolower ev.ksym = XK_e
  · rw [if_pos ke] at hk
    exact dispatch_inv cfg h _ s s' _ ev hinv hk
  rw [if_neg ke] at hk
  by_cases kf : tolower ev.ksym = XK_f
  · rw [if_pos kf] at hk
    exact dispatch_inv cfg h _ s s' _ ev hinv hk
  rw [if_neg kf] at hk
  by_cases kh : tolower ev.ksym = XK_h
  · rw [if_pos kh] at hk
    exact dispatch_inv cfg h _ s s' _ ev hinv hk
  rw [if_neg kh] at hk
  by_cases ki : tolower ev.ksym = XK_i
  · rw [if_pos ki] at hk
    exact dispatch_inv cfg h _ s s' _ ev hinv hk
  rw [if_neg ki] at hk
  by_cases kj : tolower ev.ksym = XK_j
  · rw [if_pos kj] at hk
    exact dispatch_inv cfg h _ s s' _ ev hinv hk
  rw [if_neg kj] at hk
  by_cases kk : tolower ev.ksym = XK_k
  · rw [if_pos kk] at hk
    obtain ⟨s1, h1, hk⟩ := bind_ok _ _ _ hk
    refine dispatch_inv cfg h _ s1 s' _ ev ?_ hk
    unfold ctrlK at h1
    split at h1
    · exact match_inv cfg h _ s1 h1
    · cases h1
  rw [if_neg kk] at hk
  by_cases kn : tolower ev.ksym = XK_n
  · rw [if_pos kn] at hk
    exact dispatch_inv cfg h _ s s' _ ev hinv hk
  rw [if_neg kn] at hk
  by_cases kp : tolower ev.ksym = XK_p
  · rw [if_pos kp] at hk
    exact dispatch_inv cfg h _ s s' _ ev hinv hk
  rw [if_neg kp] at hk
  by_cases ku : tolower ev.ksym = XK_u
  · rw [if_pos ku] at hk
    obtain ⟨s1, h1, hk⟩ := bind_ok _ _ _ hk
    exact dispatch_inv cfg h _ s1 s' _ ev (insert_inv cfg h s s1 _ _ hinv h1) hk
  rw [if_neg ku] at hk
  by_cases kw : tolower ev.ksym = XK_w
  · rw [if_pos kw] at hk
    obtain ⟨s1, h1, hk⟩ := bind_ok _ _ _ hk
    refine dispatch_inv cfg h _ s1 s' _ ev ?_ hk
    unfold ctrlW at h1
    obtain ⟨s0, h0, h1⟩ := bind_ok _ _ _ h1
    exact wordLoop_inv cfg h false _ s0 s1 (wordLoop_inv cfg h true _ s s0 hinv h0) h1
  rw [if_neg kw] at hk
  cases hk
  exact hinv

theorem step_inv (cfg : Config) (h : NoOverflow cfg) (s s' : State) (a : Action)
    (hinv : WinInv cfg s) (hk : step cfg s a = .ok s') : WinInv cfg s' := by
  cases a with
  | key ev => exact keypress_inv cfg h s s' ev hinv hk
  | pasted p => exact insert_inv cfg h s s' _ _ hinv hk

theorem reachable_inv (cfg : Config) (h : NoOverflow cfg) (input : List (List Nat)) (s : State)
    (hr : Reachable cfg input s) : WinInv cfg s := by
  induction hr with
  | init s hs => exact match_inv cfg h _ s hs
  | next s s' a _ hstep ih => exact step_inv cfg h s s' a ih hstep

/-- C5 holds where the arithmetic of `calcoffsets` is in range: there, in
every session reachable from the first `match` by key presses and pastes, in
row mode and in width mode: if the match list is empty then `curr`, `next` and `sel` are
all none; otherwise the match list splits as `pre ++ vis ++ rest` where `vis`
is the run of visible items starting at `curr`, `rest` starts at `next` (and
is empty when `next` is none), and `sel` is an item of `vis`. -/
theorem C5_selection_in_window (cfg : Config) (input : List (List Nat)) (s : State)
    (hno : NoOverflow cfg) (hr : Reachable cfg input s) :
    (matchView s = [] → s.curr = none ∧ s.next = none ∧ s.sel = none) ∧
    (matchView s ≠ [] → ∃ pre vis rest x, matchView s = pre ++ vis ++ rest ∧
      (matchView s).Nodup ∧ s.curr = vis.head? ∧ s.next = rest.head? ∧ visible s = vis ∧
      s.sel = some x ∧ x ∈ vis) := by
  obtain ⟨mv, hl, hm0, hwin⟩ := reachable_inv cfg hno input s hr
  have hv : matchView s = mv := by
    unfold matchView
    rw [hm0]
    exact viewFrom_linked s.items mv hl
  rw [hv]
  rcases hwin with ⟨w1, w2, w3, hsel, -⟩ | ⟨pre, c, vis, rest, x, e, hc, hnx, -, hsel, hx⟩
  · exact ⟨fun _ => ⟨w2, w3, hsel⟩, fun hne => absurd w1 hne⟩
  · constructor
    · intro hnil
      rw [hnil] at e
      simp at e
    · intro _
      have e3 : mv = pre ++ (c :: vis) ++ rest := by rw [e]; simp
      refine ⟨pre, c :: vis, rest, x, e3, hl.1, hc, hnx, ?_, hsel, hx⟩
      have hlen := hl.length_le
      have := visibleFrom_ok s.items mv hl (c :: vis) pre rest s.items.length e3
        (by
          rw [e3] at hlen
          simp only [List.length_append, List.length_cons] at hlen ⊢
          omega)
      simp only [visible, hc, hnx]
      simpa using this

/-- Witness of C5: the session reached in row mode over five candidates by
pressing End. -/
theorem C5_witness :
    (matchView fiveAtEnd = [] →
      fiveAtEnd.curr = none ∧ fiveAtEnd.next = none ∧ fiveAtEnd.sel = none) ∧
    (matchView fiveAtEnd ≠ [] → ∃ pre vis rest x, matchView fiveAtEnd = pre ++ vis ++ rest ∧
      (matchView fiveAtEnd).Nodup ∧ fiveAtEnd.curr = vis.head? ∧ fiveAtEnd.next = rest.head? ∧
      visible fiveAtEnd = vis ∧ fiveAtEnd.sel = some x ∧ x ∈ vis) :=
  C5_selection_in_window rowCfg fiveTexts fiveAtEnd (by decide)
    (Reachable.next fiveStart fiveAtEnd (.key (plainKey XK_End))
      (Reachable.init fiveStart (by decide)) (by decide))

/-! ## Totality, narrowing and the pivot of a re-filter -/

theorem match_total (cfg : Config) (s : State) (h : cfg.returnearly = false) :
    ∃ s', match_ cfg s = .ok s' ∧ s'.text = s.text ∧ s'.cursor = s.cursor ∧
      textsOf s'.items = textsOf s.items ∧
      matchView s' = mvOf cfg s.text (textsOf s.items) := by
  obtain ⟨items', hl, ht, -, hm⟩ := match_spec cfg s
  refine ⟨matchPost cfg s items' (mvOf cfg s.text (textsOf s.items)), ?_, rfl, rfl, ht, ?_⟩
  · rw [hm]; simp [matchOutcome, h]
  · simp only [matchView, matchPost]
    exact viewFrom_linked items' _ hl

theorem match_ok_shape (cfg : Config) (s s' : State) (h : match_ cfg s = .ok s') :
    s'.text = s.text ∧ s'.cursor = s.cursor ∧ textsOf s'.items = textsOf s.items ∧
      matchView s' = mvOf cfg s.text (textsOf s.items) ∧
      s'.sel = (matchView s').head? ∧ s'.curr = (matchView s').head? ∧
      s'.matches_ = (matchView s').head? := by
  obtain ⟨items', hl, ht, -, hm⟩ := match_spec cfg s
  rw [hm] at h
  have hs' : s' = matchPost cfg s items' (mvOf cfg s.text (textsOf s.items)) := by
    unfold matchOutcome at h
    split at h
    · split at h
      · cases h
      · cases h
      · exact (Res.ok.inj h).symm
    · exact (Res.ok.inj h).symm
  subst hs'
  have hv : matchView (matchPost cfg s items' (mvOf cfg s.text (textsOf s.items)))
      = mvOf cfg s.text (textsOf s.items) := by
    simp only [matchView, matchPost]
    exact viewFrom_linked items' _ hl
  rw [hv]
  exact ⟨rfl, rfl, ht, rfl, rfl, rfl, rfl⟩

/-- C18, the failing input evaluated: with return-early set, a query that
matches no candidate, and likewise an empty master list at startup, make
`match` dereference the `NULL` pointer `curr`. -/
theorem C18_null_deref :
    match_ earlyCfg (freshState [[97, 112, 112, 108, 101]] [122]) = .fault ∧
    setup earlyCfg [] = .fault ∧
    keypress earlyCfg
        { freshState [[97, 112, 112, 108, 101], [97, 112, 112]] [] with
          items := [⟨[97, 112, 112, 108, 101], none, some 1⟩, ⟨[97, 112, 112], some 0, none⟩],
          matches_ := some 0, sel := some 0, prev := some 0, curr := some 0 }
        (typeKey 122) = .fault := by
  refine ⟨?_, ?_, ?_⟩ <;> decide

/-- The part of C18 that holds: without return-early `match` returns for every
master list and query, and when nothing matches it leaves an empty match list
with `curr`, `next` and `sel` all none. -/
theorem match_no_match (cfg : Config) (s : State) (h : cfg.returnearly = false)
    (hnone : specView cfg s.text (textsOf s.items) = []) :
    ∃ s', match_ cfg s = .ok s' ∧ matchView s' = [] ∧ s'.curr = none ∧ s'.next = none ∧
      s'.sel = none := by
  obtain ⟨items', hl, ht, -, hm⟩ := match_spec cfg s
  have hmv : mvOf cfg s.text (textsOf s.items) = [] := by
    rw [mvOf_eq_spec]; exact hnone
  rw [hmv] at hm hl
  refine ⟨matchPost cfg s items' [], by rw [hm]; simp [matchOutcome, h], ?_, rfl, rfl, rfl⟩
  simp only [matchView, matchPost]
  exact viewFrom_linked items' _ hl

/-- C19: when the query `q` occurs as a contiguous substring of the query
`q'` under the comparison rule, every candidate of the match list that `match`
builds for `q'` is in the match list it builds for `q`, over the same
candidate texts. -/
theorem C19_narrowing (cfg : Config) (s s' : State)
    (hitems : textsOf s.items = textsOf s'.items)
    (hq : s.text.map (fold cfg) <:+: s'.text.map (fold cfg)) :
    ∃ s1 s1', match_ cfg s = matchOutcome cfg (textsOf s.items) (matchView s1) s1 ∧
      match_ cfg s' = matchOutcome cfg (textsOf s'.items) (matchView s1') s1' ∧
      ∀ i, i ∈ matchView s1' → i ∈ matchView s1 := by
  obtain ⟨i1, l1, -, -, m1⟩ := match_spec cfg s
  obtain ⟨i2, l2, -, -, m2⟩ := match_spec cfg s'
  have hv : ∀ (t : State) (it : List Item) (mv : List Nat), Linked it mv →
      matchView (matchPost cfg t it mv) = mv := by
    intro t it mv hl
    simp only [matchView, matchPost]
    exact viewFrom_linked it mv hl
  refine ⟨matchPost cfg s i1 (mvOf cfg s.text (textsOf s.items)),
    matchPost cfg s' i2 (mvOf cfg s'.text (textsOf s'.items)), ?_, ?_, ?_⟩
  · rw [hv s i1 _ l1]; exact m1
  · rw [hv s' i2 _ l2]; exact m2
  · intro i hi
    rw [hv s' i2 _ l2, mem_mvOf] at hi
    rw [hv s i1 _ l1, mem_mvOf, hitems]
    exact ⟨hi.1, hq.trans hi.2⟩

/-- Witness of C19: the query "ap" occurs in the query "app" over the
candidates "apple", "app", "banana". -/
theorem C19_witness :
    ∃ s1 s1', match_ exampleCfg
          (freshState [[97, 112, 112, 108, 101], [97, 112, 112], [98, 97, 110, 97, 110, 97]]
            [97, 112])
        = matchOutcome exampleCfg (textsOf (freshState
            [[97, 112, 112, 108, 101], [97, 112, 112], [98, 97, 110, 97, 110, 97]]
            [97, 112]).items) (matchView s1) s1 ∧
      match_ exampleCfg
          (freshState [[97, 112, 112, 108, 101], [97, 112, 112], [98, 97, 110, 97, 110, 97]]
            [97, 112, 112])
        = matchOutcome exampleCfg (textsOf (freshState
            [[97, 112, 112, 108, 101], [97, 112, 112], [98, 97, 110, 97, 110, 97]]
            [97, 112, 112]).items) (matchView s1') s1' ∧
      ∀ i, i ∈ matchView s1' → i ∈ matchView s1 :=
  C19_narrowing exampleCfg _ _ rfl (by decide)

/-- C13, as stated, fails: over the candidates "ab" and "ac", with "ac"
selected, typing "a" keeps "ac" in the match list but moves the selection to
the first item "ab". -/
theorem C13_counterexample :
    ∃ s1 s2, pressAll exampleCfg (setup exampleCfg pairTexts) [plainKey XK_Down] = .ok s1 ∧
      s1.sel = some 1 ∧ keypress exampleCfg s1 (typeKey 97) = .ok s2 ∧
      1 ∈ matchView s2 ∧ s2.sel ≠ some 1 ∧ s2.sel = some 0 ∧ s2.curr = some 0 := by
  refine ⟨_, _, rfl, ?_, rfl, ?_, ?_, ?_, ?_⟩ <;> decide

/-- C13, amended: whenever a re-filter returns a session, the selection and
the pivot `curr` are the first item of the new match list (none when it is
empty), whatever was selected before; a text edit either leaves the session
as it is (the capacity guard) or ends in such a re-filter. -/
theorem C13_pivot_resets (cfg : Config) (s : State) :
    (∀ s', match_ cfg s = .ok s' →
      s'.sel = (matchView s').head? ∧ s'.curr = (matchView s').head?) ∧
    (∀ (str : List Nat) (n : Int) (s' : State), insert cfg s str n = .ok s' →
      s' = s ∨ (s'.sel = (matchView s').head? ∧ s'.curr = (matchView s').head?)) := by
  constructor
  · intro s' h
    have := match_ok_shape cfg s s' h
    exact ⟨this.2.2.2.2.1, this.2.2.2.2.2.1⟩
  · intro str n s' h
    unfold insert at h
    split at h
    · cases h; exact Or.inl rfl
    · split at h
      · cases h
      · split at h
        · cases h
        · split at h
          · cases h
          · have := match_ok_shape cfg _ s' h
            exact Or.inr ⟨this.2.2.2.2.1, this.2.2.2.2.2.1⟩


/-- Witness of C13: the re-filter of "ab", "ac" for the query "a". -/
theorem C13_witness :
    pairState.sel = (matchView pairState).head? ∧
      pairState.curr = (matchView pairState).head? :=
  (C13_pivot_resets exampleCfg (freshState pairTexts [97])).1 pairState (by decide)

/-! ## The text buffer -/

theorem toSize_nat (n : Nat) (h : n < 2 ^ 64) : toSize (n : Int) = n := by
  unfold toSize
  rw [Int.emod_eq_of_lt (by omega) (by omega)]
  simp

/-- C12: for a buffer of length `L` at most `MAX = bufsiz - 1`, a cursor
`c ≤ L` and a text `str` of `n` bytes: if `L + n > MAX` then `insert` returns
the session unchanged, without a re-filter; otherwise `insert` is the
re-filter of the session whose buffer is `t[0..c) ++ str ++ t[c..L)` and whose
cursor is `c + n`, the new length `L + n` is at most `MAX`, and a session the
re-filter returns has that buffer and cursor. -/
theorem C12_insert_guard (cfg : Config) (st : State) (str : List Nat)
    (hL : st.text.length < cfg.bufsiz) (hc : st.cursor ≤ st.text.length)
    (hn : str.length < 2 ^ 63) (hb : cfg.bufsiz ≤ 2 ^ 63) :
    (st.text.length + str.length > cfg.bufsiz - 1 →
      insert cfg st str str.length = .ok st) ∧
    (st.text.length + str.length ≤ cfg.bufsiz - 1 →
      insert cfg st str str.length
        = match_ cfg { st with
            text := st.text.take st.cursor ++ str ++ st.text.drop st.cursor
            cursor := st.cursor + str.length } ∧
      (st.text.take st.cursor ++ str ++ st.text.drop st.cursor).length
        = st.text.length + str.length ∧
      (∀ s', insert cfg st str str.length = .ok s' →
        s'.text = st.text.take st.cursor ++ str ++ st.text.drop st.cursor ∧
        s'.cursor = st.cursor + str.length ∧ s'.text.length ≤ cfg.bufsiz - 1) ∧
      (cfg.returnearly = false → ∃ s', insert cfg st str str.length = .ok s')) := by
  have hsz : toSize ((st.text.length : Int) + (str.length : Int))
      = st.text.length + str.length := by
    have := toSize_nat (st.text.length + str.length) (by omega)
    rw [← this]; push_cast; rfl
  have hlen : (st.text.take st.cursor ++ str ++ st.text.drop st.cursor).length
      = st.text.length + str.length := by
    simp only [List.length_append, List.length_take, List.length_drop]
    omega
  constructor
  · intro hgt
    unfold insert
    rw [hsz, if_pos hgt]
  · intro hle
    have heq : insert cfg st str str.length
        = match_ cfg { st with
            text := st.text.take st.cursor ++ str ++ st.text.drop st.cursor
            cursor := st.cursor + str.length } := by
      unfold insert
      rw [hsz, if_neg (by omega), if_neg (by omega), if_neg (by omega), if_neg (by omega)]
      have hcur : toSize ((st.cursor : Int) + (str.length : Int)) = st.cursor + str.length := by
        have := toSize_nat (st.cursor + str.length) (by omega)
        rw [← this]; push_cast; rfl
      rw [hcur]
      by_cases hpos : (str.length : Int) > 0
      · rw [if_pos hpos]
        simp
      · rw [if_neg hpos]
        have h0 : str = [] := by
          cases str with
          | nil => rfl
          | cons a l => simp at hpos
        subst h0
        simp
    refine ⟨heq, hlen, ?_, ?_⟩
    · intro s' hs'
      rw [heq] at hs'
      have := match_ok_shape cfg _ s' hs'
      refine ⟨this.1, this.2.1, ?_⟩
      rw [this.1, hlen]; exact hle
    · intro hr
      rw [heq]
      obtain ⟨s', h1, -⟩ := match_total cfg { st with
            text := st.text.take st.cursor ++ str ++ st.text.drop st.cursor
            cursor := st.cursor + str.length } hr
      exact ⟨s', h1⟩

/-- Witness of C12: in a buffer of capacity four holding "a", with the cursor
at its end, a text of two bytes is inserted. -/
theorem C12_witness :
    (pairState.text.length + [98, 99].length > tinyCfg.bufsiz - 1 →
      insert tinyCfg pairState [98, 99] [98, 99].length = .ok pairState) ∧
    (pairState.text.length + [98, 99].length ≤ tinyCfg.bufsiz - 1 →
      insert tinyCfg pairState [98, 99] [98, 99].length
        = match_ tinyCfg { pairState with
            text := pairState.text.take pairState.cursor ++ [98, 99]
              ++ pairState.text.drop pairState.cursor
            cursor := pairState.cursor + [98, 99].length } ∧
      (pairState.text.take pairState.cursor ++ [98, 99]
          ++ pairState.text.drop pairState.cursor).length
        = pairState.text.length + [98, 99].length ∧
      (∀ s', insert tinyCfg pairState [98, 99] [98, 99].length = .ok s' →
        s'.text = pairState.text.take pairState.cursor ++ [98, 99]
          ++ pairState.text.drop pairState.cursor ∧
        s'.cursor = pairState.cursor + [98, 99].length ∧
        s'.text.length ≤ tinyCfg.bufsiz - 1) ∧
      (tinyCfg.returnearly = false →
        ∃ s', insert tinyCfg pairState [98, 99] [98, 99].length = .ok s')) :=
  C12_insert_guard tinyCfg pairState [98, 99] (by decide) (by decide) (by decide) (by decide)

/-- The guard of C12 evaluated: four bytes do not fit next to "a" in a buffer
of capacity four and leave the session as it is; two bytes are inserted. -/
theorem C12_example :
    insert tinyCfg pairState [98, 99, 100, 101] 4 = .ok pairState ∧
    (insert tinyCfg pairState [98, 99] 2).map (fun s => (s.text, s.cursor))
      = .ok ([97, 98, 99], 3) := by
  constructor <;> decide


/-! ## Completion -/

theorem keypress_tab (cfg : Config) (s : State) (ev : XKeyEvent) (h : isAcceptCompletion ev) :
    keypress cfg s ev = keyTab cfg s := by
  rcases h with ⟨hc, hk⟩ | ⟨hc, hk⟩
  · simp [keypress, hc, dispatch, hk, XK_Return, XK_Delete, XK_BackSpace, XK_End, XK_Escape,
      XK_Home, XK_Left, XK_Up, XK_Next, XK_Prior, XK_KP_Enter, XK_Right, XK_Down, XK_Tab]
  · simp [keypress, hc, dispatch, hk, XK_Return, XK_Delete, XK_BackSpace, XK_End, XK_Escape,
      XK_Home, XK_Left, XK_Up, XK_Next, XK_Prior, XK_KP_Enter, XK_Right, XK_Down, XK_Tab,
      XK_a, XK_b, XK_c, XK_d, XK_e, XK_f, XK_h, XK_i]

theorem mvOf_head_exact (cfg : Config) (q : List Nat) (texts : List (List Nat)) (p : Nat)
    (hp : p < texts.length) (hq : (texts.getD p []).map (fold cfg) = q.map (fold cfg)) :
    ∃ f rest, mvOf cfg q texts = f :: rest ∧
      (texts.getD f []).map (fold cfg) = q.map (fold cfg) := by
  have hmem : p ∈ specExact cfg q texts := by
    unfold specExact
    rw [List.mem_filter]
    exact ⟨List.mem_range.2 hp, by simpa using hq⟩
  rw [mvOf_eq_spec]
  cases hE : specExact cfg q texts with
  | nil => rw [hE] at hmem; simp at hmem
  | cons f E' =>
    refine ⟨f, E' ++ specPrefix cfg q texts ++ specSubstr cfg q texts, by simp, ?_⟩
    have hf : f ∈ specExact cfg q texts := by rw [hE]; simp
    unfold specExact at hf
    rw [List.mem_filter] at hf
    simpa using hf.2

theorem match_view_spec (cfg : Config) (s : State) :
    ∃ s1, match_ cfg s = matchOutcome cfg (textsOf s.items) (matchView s1) s1 ∧
      matchView s1 = mvOf cfg s.text (textsOf s.items) ∧ s1.text = s.text ∧
      s1.cursor = s.cursor ∧ textsOf s1.items = textsOf s.items ∧
      s1.sel = (matchView s1).head? ∧ s1.curr = (matchView s1).head? ∧
      Linked s1.items (matchView s1) := by
  obtain ⟨items', hl, ht, -, hm⟩ := match_spec cfg s
  have hv : matchView (matchPost cfg s items' (mvOf cfg s.text (textsOf s.items)))
      = mvOf cfg s.text (textsOf s.items) := by
    simp only [matchView, matchPost]
    exact viewFrom_linked items' _ hl
  refine ⟨matchPost cfg s items' (mvOf cfg s.text (textsOf s.items)), ?_, hv, rfl, rfl, ht,
    ?_, ?_, ?_⟩
  · rw [hv]; exact hm
  · rw [hv]; rfl
  · rw [hv]; rfl
  · rw [hv]; exact hl

/-- C14: with no selection AcceptCompletion returns the session unchanged.
With a selected candidate whose text fits the buffer, it is the re-filter of
the session whose buffer is that text and whose cursor is the text's length:
the match list built is not empty, its first item is the new selection, and
the text of that item equals the buffer under the comparison rule; the
re-filter then returns that session `s1`, or accepts early as `matchOutcome`
says. -/
theorem C14_accept_completion (cfg : Config) (s : State) (ev : XKeyEvent)
    (hev : isAcceptCompletion ev) :
    (s.sel = none → keypress cfg s ev = .ok s) ∧
    (∀ p, s.sel = some p → p < s.items.length →
      ((textsOf s.items).getD p []).length < cfg.bufsiz →
      ∃ s1, keypress cfg s ev = matchOutcome cfg (textsOf s.items) (matchView s1) s1 ∧
        s1.text = (textsOf s.items).getD p [] ∧
        s1.cursor = ((textsOf s.items).getD p []).length ∧
        textsOf s1.items = textsOf s.items ∧
        ∃ f rest, matchView s1 = f :: rest ∧ s1.sel = some f ∧
          ((textsOf s.items).getD f []).map (fold cfg) = s1.text.map (fold cfg)) := by
  rw [keypress_tab cfg s ev hev]
  constructor
  · intro hn
    simp [keyTab, hn]
  · intro p hp hlt hfit
    obtain ⟨it, h1, h2, -, -⟩ := rd_ok s.items p hlt
    rw [← h2] at hfit ⊢
    obtain ⟨s1, hm, hv, htx, hcur, hts, hsel, -, -⟩ := match_view_spec cfg
      { s with text := it.text, cursor := it.text.length }
    have hm' : match_ cfg { s with text := it.text, cursor := it.text.length }
        = matchOutcome cfg (textsOf s.items) (matchView s1) s1 := hm
    have hv' : matchView s1 = mvOf cfg it.text (textsOf s.items) := hv
    obtain ⟨f, rest, hf1, hf2⟩ := mvOf_head_exact cfg it.text (textsOf s.items) p
      (by rw [textsOf_length]; exact hlt) (by rw [h2])
    refine ⟨s1, ?_, htx, hcur, hts, f, rest, ?_, ?_, ?_⟩
    · simp only [keyTab, hp, h1, Res.bind, hfit, if_true]
      exact hm'
    · rw [hv']; exact hf1
    · rw [hsel, hv', hf1]; rfl
    · rw [htx]; exact hf2

/-- Witness of C14: over "ab", "ac" filtered by "a", with "ac" selected, Tab
makes the buffer "ac" and re-filters. -/
theorem C14_witness :
    ∃ s1, keypress exampleCfg { pairState with sel := some 1 } (plainKey XK_Tab)
        = matchOutcome exampleCfg (textsOf pairState.items) (matchView s1) s1 ∧
      s1.text = (textsOf pairState.items).getD 1 [] ∧
      s1.cursor = ((textsOf pairState.items).getD 1 []).length ∧
      textsOf s1.items = textsOf pairState.items ∧
      ∃ f rest, matchView s1 = f :: rest ∧ s1.sel = some f ∧
        ((textsOf pairState.items).getD f []).map (fold exampleCfg)
          = s1.text.map (fold exampleCfg) :=
  (C14_accept_completion exampleCfg { pairState with sel := some 1 } (plainKey XK_Tab)
    (by decide)).2 1 rfl (by decide) (by decide)

/-- The scenario of C14 evaluated: Tab on the selected "ac" leaves the buffer
"ac", the cursor at 2, and the single match "ac" selected. -/
theorem C14_example :
    (keypress exampleCfg { pairState with sel := some 1 } (plainKey XK_Tab)).map
        (fun s => (s.text, s.cursor, matchView s, s.sel))
      = .ok ([97, 99], 2, [1], some 1) := by
  decide


/-! ## Cursor movement in row mode -/

theorem keypress_left (cfg : Config) (s : State) (ev : XKeyEvent) (h : isMoveLeft ev) :
    keypress cfg s ev = keyLeft cfg s := by
  rcases h with ⟨hc, hk⟩ | ⟨hc, hk⟩
  · simp [keypress, hc, dispatch, hk, XK_Return, XK_Delete, XK_BackSpace, XK_End, XK_Escape,
      XK_Home, XK_Left]
  · simp [keypress, hc, dispatch, hk, XK_Return, XK_Delete, XK_BackSpace, XK_End, XK_Escape,
      XK_Home, XK_Left, XK_a, XK_b]

theorem keypress_right (cfg : Config) (s : State) (ev : XKeyEvent) (h : isMoveRight ev) :
    keypress cfg s ev = keyRight cfg s.text.length s := by
  rcases h with ⟨hc, hk⟩ | ⟨hc, hk⟩
  · simp [keypress, hc, dispatch, hk, XK_Return, XK_Delete, XK_BackSpace, XK_End, XK_Escape,
      XK_Home, XK_Left, XK_Up, XK_Next, XK_Prior, XK_KP_Enter, XK_Right]
  · simp [keypress, hc, dispatch, hk, XK_Return, XK_Delete, XK_BackSpace, XK_End, XK_Escape,
      XK_Home, XK_Left, XK_Up, XK_Next, XK_Prior, XK_KP_Enter, XK_Right,
      XK_a, XK_b, XK_c, XK_d, XK_e, XK_f]

theorem nextrune_back (s : State) (hv : utf8Valid s.text = true)
    (hc : s.cursor ≤ s.text.length) (hlen : s.text.length < 2 ^ 64) (hpos : 0 < s.cursor) :
    ∃ r, nextrune s (-1) = .ok r ∧ r < s.cursor ∧ isCont (s.text.getD r 0) = false ∧
      ∀ j, r < j → j < s.cursor → isCont (s.text.getD j 0) = true := by
  obtain ⟨n, hn⟩ : ∃ n, s.cursor = n + 1 := ⟨s.cursor - 1, by omega⟩
  have h0 := utf8_first s.text hv (by omega)
  obtain ⟨r, hr, hle, hnc, hall⟩ :=
    nextruneLoop_back s.text h0 hlen n (s.text.length + 1) (by omega) (by omega)
  refine ⟨r, ?_, by omega, hnc, ?_⟩
  · unfold nextrune
    rw [hn, toSize_pred n (by omega)]
    exact hr
  · intro j h1 h2
    exact hall j h1 (by omega)

theorem nextrune_fwd (s : State) (hlen : s.text.length < 2 ^ 64)
    (hlt : s.cursor < s.text.length) :
    ∃ r, nextrune s 1 = .ok r ∧ s.cursor < r ∧ r ≤ s.text.length ∧
      (r = s.text.length ∨ isCont (s.text.getD r 0) = false) := by
  obtain ⟨r, hr, hle, hle2, hbd, -⟩ :=
    nextruneLoop_fwd s.text hlen (s.text.length - (s.cursor + 1)) (s.cursor + 1)
      (s.text.length + 1) (by omega) (by omega)
  refine ⟨r, ?_, by omega, hle2, hbd⟩
  unfold nextrune
  rw [toSize_succ s.cursor (by omega)]
  exact hr

/-- C17 holds on well-formed buffers: in row mode, in a session whose
selection (if any) is an item, whose buffer is well-formed UTF-8 and whose
cursor is within the buffer:
MoveCursor(-1) returns the session unchanged when the cursor is 0, and
otherwise the same session with only the cursor moved to the rune boundary
`nextrune(-1)`; MoveCursor(+1) returns the session unchanged when the cursor
is at the end, and otherwise the same session with only the cursor moved to
the rune boundary `nextrune(+1)`.  Selection, window, match list and buffer
are never changed. -/
theorem C17_row_cursor_only (cfg : Config) (s : State) (ev : XKeyEvent)
    (hrow : 0 < cfg.lines) (hsel : ∀ p, s.sel = some p → p < s.items.length)
    (hv : utf8Valid s.text = true) (hc : s.cursor ≤ s.text.length)
    (hlen : s.text.length < 2 ^ 64) :
    (isMoveLeft ev →
      (s.cursor = 0 → keypress cfg s ev = .ok s) ∧
      (0 < s.cursor → ∃ r, keypress cfg s ev = .ok { s with cursor := r } ∧
        nextrune s (-1) = .ok r ∧ r < s.cursor ∧ runeBoundary s.text r)) ∧
    (isMoveRight ev →
      (s.cursor = s.text.length → keypress cfg s ev = .ok s) ∧
      (s.cursor < s.text.length → ∃ r, keypress cfg s ev = .ok { s with cursor := r } ∧
        nextrune s 1 = .ok r ∧ s.cursor < r ∧ runeBoundary s.text r)) := by
  have hrow' : cfg.lines > 0 := hrow
  constructor
  · intro hev
    rw [keypress_left cfg s ev hev]
    constructor
    · intro h0
      simp [keyLeft, h0, Res.bind, hrow']
    · intro hpos
      obtain ⟨r, hr, hlt, hnc, -⟩ := nextrune_back s hv hc hlen hpos
      refine ⟨r, ?_, hr, hlt, ⟨by omega, Or.inr hnc⟩⟩
      have hb : leftMovesCursor cfg s = .ok true := by
        unfold leftMovesCursor
        cases hs : s.sel with
        | none => rfl
        | some p =>
          obtain ⟨it, h1, -⟩ := rd_ok s.items p (hsel p hs)
          simp [h1, Res.bind, hrow']
      have hpos' : s.cursor > 0 := hpos
      simp only [keyLeft, hpos', if_true, hb, Res.bind, hr]
  · intro hev
    rw [keypress_right cfg s ev hev]
    constructor
    · intro he
      have : ¬ s.cursor < s.text.length := by omega
      simp [keyRight, this, hrow']
    · intro hlt
      obtain ⟨r, hr, h1, h2, h3⟩ := nextrune_fwd s hlen hlt
      refine ⟨r, ?_, hr, h1, ⟨h2, h3⟩⟩
      simp only [keyRight, hlt, if_true, hr, Res.bind]

/-- Witness of C17: three rows, the buffer "béc", the cursor after "é". -/
theorem C17_witness :
    (isMoveLeft (plainKey XK_Left) →
      (accentRows.cursor = 0 → keypress rowCfg accentRows (plainKey XK_Left) = .ok accentRows) ∧
      (0 < accentRows.cursor → ∃ r,
        keypress rowCfg accentRows (plainKey XK_Left) = .ok { accentRows with cursor := r } ∧
        nextrune accentRows (-1) = .ok r ∧ r < accentRows.cursor ∧
        runeBoundary accentRows.text r)) ∧
    (isMoveRight (plainKey XK_Left) →
      (accentRows.cursor = accentRows.text.length →
        keypress rowCfg accentRows (plainKey XK_Left) = .ok accentRows) ∧
      (accentRows.cursor < accentRows.text.length → ∃ r,
        keypress rowCfg accentRows (plainKey XK_Left) = .ok { accentRows with cursor := r } ∧
        nextrune accentRows 1 = .ok r ∧ accentRows.cursor < r ∧
        runeBoundary accentRows.text r)) :=
  C17_row_cursor_only rowCfg accentRows (plainKey XK_Left) (by decide) (by decide) (by decide)
    (by decide) (by decide)

/-- The scenario of C17 evaluated: Left moves the cursor from 3 to 1 and Right
from 3 to 4, and nothing else changes; at the buffer edges both keys return
the session as it is, although in width mode Right at the end would move the
selection. -/
theorem C17_example :
    keypress rowCfg accentRows (plainKey XK_Left) = .ok { accentRows with cursor := 1 } ∧
    keypress rowCfg accentRows (plainKey XK_Right) = .ok { accentRows with cursor := 4 } ∧
    keypress rowCfg { accentRows with cursor := 0 } (plainKey XK_Left)
      = .ok { accentRows with cursor := 0 } ∧
    keypress rowCfg { accentRows with cursor := 4 } (plainKey XK_Right)
      = .ok { accentRows with cursor := 4 } ∧
    keypress exampleCfg { accentRows with cursor := 4 } (plainKey XK_Right)
      = .ok { accentRows with cursor := 4, sel := some 1 } := by
  refine ⟨?_, ?_, ?_, ?_, ?_⟩ <;> decide


/-! ## Paging to the end -/

theorem calc_full (cfg : Config) (h : NoOverflow cfg) (s : State) (mv pre suf m suf2 : List Nat)
    (c : Nat) (hl : Linked s.items mv) (e : mv = pre ++ c :: suf) (hc : s.curr = some c)
    (em : c :: suf = m ++ suf2)
    (hm : sumCost cfg (textsOf s.items) m ≤ budget cfg) :
    ∃ vis2 rest2, suf2 = vis2 ++ rest2 ∧
      calcoffsets cfg s = .ok { s with
        next := rest2.head?
        prev := some (scanPrevL cfg (textsOf s.items) 0 c pre.reverse) } ∧
      visible { s with
        next := rest2.head?
        prev := some (scanPrevL cfg (textsOf s.items) 0 c pre.reverse) } = m ++ vis2 := by
  obtain ⟨vis2, rest, e2, hs⟩ := window_split cfg (textsOf s.items) h (c :: suf) m suf2 em hm
  have hcalc := calcoffsets_ok cfg s mv pre suf c hl e hc
  rw [hs] at hcalc
  refine ⟨vis2, rest, e2, hcalc, ?_⟩
  have e3 : mv = pre ++ (m ++ vis2) ++ rest := by
    rw [e, em, e2]; simp
  have hlen := hl.length_le
  have := visibleFrom_ok s.items mv hl (m ++ vis2) pre rest s.items.length e3
    (by
      rw [e3] at hlen
      simp only [List.length_append] at hlen ⊢
      omega)
  have hhead : (m ++ vis2 ++ rest).head? = some c := by
    rw [List.append_assoc, ← e2, ← em]; rfl
  rw [hhead] at this
  simp only [visible, hc]
  exact this

theorem calc_step (cfg : Config) (h : NoOverflow cfg) (s : State) (mv pre suf m suf2 : List Nat)
    (c : Nat) (hl : Linked s.items mv) (e : mv = pre ++ c :: suf) (hc : s.curr = some c)
    (em : c :: suf = m ++ suf2)
    (hm : sumCost cfg (textsOf s.items) m ≤ budget cfg) :
    ∃ s' vis2 rest2, suf2 = vis2 ++ rest2 ∧ calcoffsets cfg s = .ok s' ∧
      s'.items = s.items ∧ s'.text = s.text ∧ s'.cursor = s.cursor ∧
      s'.matches_ = s.matches_ ∧ s'.sel = s.sel ∧ s'.curr = s.curr ∧
      s'.next = rest2.head? ∧
      s'.prev = some (scanPrevL cfg (textsOf s.items) 0 c pre.reverse) ∧
      visible s' = m ++ vis2 := by
  obtain ⟨vis2, rest2, e2, hcalc, hvis⟩ := calc_full cfg h s mv pre suf m suf2 c hl e hc em hm
  exact ⟨_, vis2, rest2, e2, hcalc, rfl, rfl, rfl, rfl, rfl, rfl, rfl, rfl, hvis⟩

theorem endPages_total (cfg : Config) (h : NoOverflow cfg) (mv : List Nat) :
    ∀ (fuel : Nat) (s : State) (pre vis rest : List Nat) (c x : Nat),
      Linked s.items mv → mv = pre ++ c :: (vis ++ rest) → s.curr = some c →
      s.next = rest.head? → s.sel = some x → x ∈ c :: vis → rest.length ≤ fuel →
      ∃ s' pre' c' vis' x', endPages cfg fuel s = .ok s' ∧ s'.items = s.items ∧
        s'.matches_ = s.matches_ ∧ s'.text = s.text ∧ s'.cursor = s.cursor ∧
        mv = pre' ++ c' :: vis' ∧ s'.curr = some c' ∧ s'.next = none ∧
        s'.sel = some x' ∧ x' ∈ c' :: vis' := by
  intro fuel
  induction fuel with
  | zero =>
    intro s pre vis rest c x hl e hc hnx hsel hx hf
    have hr : rest = [] := List.length_eq_zero.1 (by omega)
    subst hr
    have hnx' : s.next = none := hnx
    refine ⟨s, pre, c, vis, x, ?_, rfl, rfl, rfl, rfl, by simpa using e, hc, hnx, hsel, hx⟩
    unfold endPages
    rw [if_pos hnx']
  | succ f ih =>
    intro s pre vis rest c x hl e hc hnx hsel hx hf
    cases rest with
    | nil =>
      have hnx' : s.next = none := hnx
      refine ⟨s, pre, c, vis, x, ?_, rfl, rfl, rfl, rfl, by simpa using e, hc, hnx, hsel, hx⟩
      unfold endPages
      rw [if_pos hnx']
    | cons r rest' =>
      simp only [List.head?_cons] at hnx
      have e2 : mv = (pre ++ c :: vis) ++ r :: rest' := by rw [e]; simp
      obtain ⟨s1, vis2, rest2, er, hcalc, k1, k2, k3, k4, k5, k6, k7, -, -⟩ := calc_step cfg h
        { s with sel := s.next, curr := s.next } mv (pre ++ c :: vis) rest' [r] rest' r
        hl e2 hnx rfl (by simpa [sumCost] using cost_le_budget cfg h _)
      have e3 : mv = (pre ++ c :: vis) ++ r :: (vis2 ++ rest2) := by rw [e2, er]
      obtain ⟨s', pre', c', vis', x', h1, h2, h3, h4, h5, h6, h7, h8, h9, h10⟩ :=
        ih s1 (pre ++ c :: vis) vis2 rest2 r r (by rw [k1]; exact hl) e3
          (by rw [k6]; exact hnx) k7 (by rw [k5]; exact hnx) (by simp)
          (by
            have := congrArg List.length er
            simp only [List.length_append, List.length_cons] at this hf
            omega)
      refine ⟨s', pre', c', vis', x', ?_, by rw [h2, k1], by rw [h3, k4], by rw [h4, k2],
        by rw [h5, k3], h6, h7, h8, h9, h10⟩
      unfold endPages
      rw [if_neg (by rw [hnx]; simp), hcalc]
      exact h1

theorem selLast_total (items : List Item) (mv : List Nat) (hl : Linked items mv) :
    ∀ (suf pre : List Nat) (x fuel : Nat), mv = pre ++ x :: suf → suf.length ≤ fuel →
      selLast items fuel (some x) = .ok (x :: suf).getLast? := by
  intro suf
  induction suf with
  | nil =>
    intro pre x fuel e _
    obtain ⟨it, h1, -, -, h4⟩ := Linked.rd hl e
    simp only [List.head?_nil] at h4
    cases fuel <;> simp only [selLast, h1, Res.bind, h4] <;> rfl
  | cons y suf' ih =>
    intro pre x fuel e hf
    obtain ⟨it, h1, -, -, h4⟩ := Linked.rd hl e
    simp only [List.head?_cons] at h4
    cases fuel with
    | zero => simp at hf
    | succ f =>
      simp only [selLast, h1, Res.bind, h4]
      rw [ih (pre ++ [x]) y f (by rw [e]; simp) (by simpa using hf)]
      simp

theorem keypress_end (cfg : Config) (s : State) (ev : XKeyEvent) (h : isSelectLast ev) :
    keypress cfg s ev = keyEnd cfg s.text.length s := by
  rcases h with ⟨hc, hk⟩ | ⟨hc, hk⟩
  · simp [keypress, hc, dispatch, hk, XK_Delete, XK_BackSpace, XK_End]
  · simp [keypress, hc, dispatch, hk, XK_Delete, XK_BackSpace, XK_End,
      XK_a, XK_b, XK_c, XK_d, XK_e]

theorem matchView_of_inv (s : State) (mv : List Nat) (hl : Linked s.items mv)
    (hm0 : s.matches_ = mv.head?) : matchView s = mv := by
  unfold matchView
  rw [hm0]
  exact viewFrom_linked s.items mv hl

/-- C16 holds where the arithmetic of `calcoffsets` is in range: there, in
every reachable session with a non-empty match list and the cursor at the end
of the buffer,
in row mode and in width mode, SelectLast returns (its page-advance loop and
its walk to the last item finish within the bound of the model); afterwards
the match list, buffer and cursor are as before, the selection is the last
item of the match list, `next` is none, and the selection is visible. -/
theorem C16_select_last (cfg : Config) (input : List (List Nat)) (s : State) (ev : XKeyEvent)
    (hno : NoOverflow cfg) (hr : Reachable cfg input s) (hne : matchView s ≠ [])
    (hcur : s.cursor = s.text.length) (hev : isSelectLast ev) :
    ∃ s', keypress cfg s ev = .ok s' ∧ matchView s' = matchView s ∧ s'.text = s.text ∧
      s'.cursor = s.cursor ∧ s'.sel = (matchView s).getLast? ∧ s'.next = none ∧
      ∃ x, s'.sel = some x ∧ x ∈ visible s' := by
  obtain ⟨mv, hl, hm0, hwin⟩ := reachable_inv cfg hno input s hr
  have hv := matchView_of_inv s mv hl hm0
  rw [hv] at hne ⊢
  rcases hwin with ⟨w1, -⟩ | ⟨pre, c, vis, rest, x, e, hc, hnx, -, hsel, hx⟩
  · exact absurd w1 hne
  · obtain ⟨s1, pre', c', vis', x', h1, h2, h3, h4, h5, h6, h7, h8, h9, h10⟩ :=
      endPages_total cfg hno mv s.items.length s pre vis rest c x hl e hc hnx hsel hx
        (by
          have := hl.length_le
          rw [e] at this
          simp only [List.length_append, List.length_cons] at this
          omega)
    have hl1 : Linked s1.items mv := by rw [h2]; exact hl
    obtain ⟨a, b, eab⟩ := List.append_of_mem h10
    have e' : mv = (pre' ++ a) ++ x' :: b := by rw [h6, eab]; simp
    have hsl := selLast_total s1.items mv hl1 b (pre' ++ a) x' s1.items.length e'
      (by
        have := hl1.length_le
        rw [e'] at this
        simp only [List.length_append, List.length_cons] at this
        omega)
    have hlast : (x' :: b).getLast? = mv.getLast? := by
      rw [e', List.getLast?_append]
      cases hg : (x' :: b).getLast? with
      | none => simp at hg
      | some z => rfl
    obtain ⟨z, hz⟩ : ∃ z, (x' :: b).getLast? = some z := by
      cases hg : (x' :: b).getLast? with
      | none => simp at hg
      | some z => exact ⟨z, rfl⟩
    have hzmem : z ∈ c' :: vis' := by
      rw [eab]
      exact List.mem_append_right _ (List.mem_of_mem_getLast? hz)
    refine ⟨{ s1 with sel := (x' :: b).getLast? }, ?_, ?_, h4, h5, hlast, h8, z, hz, ?_⟩
    · rw [keypress_end cfg s ev hev]
      unfold keyEnd
      rw [if_neg (by omega), h1]
      simp only [Res.bind, h9, hsl]
    · exact matchView_of_inv _ mv hl1 (by rw [← hm0]; exact h3)
    · have hlen := hl1.length_le
      have e3 : mv = pre' ++ (c' :: vis') ++ [] := by rw [h6]; simp
      have := visibleFrom_ok s1.items mv hl1 (c' :: vis') pre' [] s1.items.length e3
        (by
          rw [e3] at hlen
          simp only [List.length_append, List.length_cons, List.length_nil] at hlen ⊢
          omega)
      simp only [visible, h7, h8]
      simp only [List.head?_nil, List.append_nil, List.head?_cons] at this
      rw [this]
      exact hzmem

/-- Witness of C16: three rows over five candidates, End pressed at startup. -/
theorem C16_witness :
    ∃ s', keypress rowCfg fiveStart (plainKey XK_End) = .ok s' ∧
      matchView s' = matchView fiveStart ∧ s'.text = fiveStart.text ∧
      s'.cursor = fiveStart.cursor ∧ s'.sel = (matchView fiveStart).getLast? ∧
      s'.next = none ∧ ∃ x, s'.sel = some x ∧ x ∈ visible s' :=
  C16_select_last rowCfg fiveTexts fiveStart (plainKey XK_End) (by decide)
    (Reachable.init fiveStart (by decide)) (by decide) (by decide) (by decide)


/-! ## Moving the selection by one item -/

theorem keypress_selectPrev (cfg : Config) (s : State) (ev : XKeyEvent) (h : isSelectPrev ev) :
    keypress cfg s ev = keyUp cfg s := by
  rcases h with ⟨hc, hk⟩ | ⟨hc, hk⟩
  · simp [keypress, hc, dispatch, hk, XK_Return, XK_Delete, XK_BackSpace, XK_End, XK_Escape,
      XK_Home, XK_Left, XK_Up]
  · simp [keypress, hc, dispatch, hk, XK_Return, XK_Delete, XK_BackSpace, XK_End, XK_Escape,
      XK_Home, XK_Left, XK_Up, XK_a, XK_b, XK_c, XK_d, XK_e, XK_f, XK_h, XK_i, XK_j, XK_k,
      XK_n, XK_p]

theorem visible_of_win (s : State) (mv pre vis rest : List Nat) (c : Nat)
    (hl : Linked s.items mv) (e : mv = pre ++ c :: (vis ++ rest)) (hc : s.curr = some c)
    (hnx : s.next = rest.head?) : visible s = c :: vis := by
  have hlen := hl.length_le
  have e3 : mv = pre ++ (c :: vis) ++ rest := by rw [e]; simp
  have := visibleFrom_ok s.items mv hl (c :: vis) pre rest s.items.length e3
    (by
      rw [e3] at hlen
      simp only [List.length_append, List.length_cons] at hlen ⊢
      omega)
  simp only [visible, hc, hnx]
  simpa using this

theorem visible_congr (s t : State) (h1 : t.items = s.items) (h2 : t.curr = s.curr)
    (h3 : t.next = s.next) : visible t = visible s := by
  unfold visible
  rw [h1, h2, h3]

theorem matchView_congr (s t : State) (h1 : t.items = s.items) (h2 : t.matches_ = s.matches_) :
    matchView t = matchView s := by
  unfold matchView
  rw [h1, h2]

theorem selectNext_step (cfg : Config) (hno : NoOverflow cfg) (s : State) (hinv : WinInv cfg s)
    (x y : Nat) (hsel : s.sel = some x) (hy : fright s.items x = some (some y)) :
    ∃ s', keyDown cfg s = .ok s' ∧ s'.sel = some y ∧ s'.text = s.text ∧
      s'.cursor = s.cursor ∧ matchView s' = matchView s ∧
      (y ∈ visible s → s'.curr = s.curr ∧ s'.next = s.next ∧ visible s' = visible s) ∧
      (y ∉ visible s → s'.curr = some y ∧ y ∈ visible s') := by
  obtain ⟨mv, hl, hm0, hwin⟩ := hinv
  rcases hwin with ⟨-, -, -, hs0, -⟩ | ⟨pre, c, vis, rest, x', e, hc, hnx, hpv, hsel', hx⟩
  · rw [hs0] at hsel; cases hsel
  · have hxx : x' = x := by rw [hsel] at hsel'; exact (Option.some.inj hsel').symm
    subst hxx
    have hvis := visible_of_win s mv pre vis rest c hl e hc hnx
    obtain ⟨a, b, eab⟩ := List.append_of_mem hx
    have e' : mv = (pre ++ a) ++ x' :: (b ++ rest) := by
      rw [e, ← List.cons_append, eab]; simp
    obtain ⟨it, h1, -, -, h4⟩ := Linked.rd hl e'
    have hfr := (hl.2 _ _ _ e').2
    rw [hy] at hfr
    have hyh : (b ++ rest).head? = some y := (Option.some.inj hfr).symm
    rw [hyh] at h4
    have hnd := hl.1
    cases b with
    | cons y' b' =>
      simp only [List.cons_append, List.head?_cons, Option.some.injEq] at hyh
      subst hyh
      have hyv : y' ∈ c :: vis := by rw [eab]; simp
      have hne : some y' ≠ s.next := by
        rw [hnx]
        intro hh
        have hyr : y' ∈ rest := List.mem_of_mem_head? hh.symm
        rw [e] at hnd
        have h2 := (List.nodup_append.1 hnd).2.1
        rw [← List.cons_append] at h2
        exact (List.nodup_append.1 h2).2.2 hyv hyr
      refine ⟨{ s with sel := some y' }, ?_, rfl, rfl, rfl, rfl,
        fun _ => ⟨rfl, rfl, rfl⟩, fun hn => absurd (by rw [hvis]; exact hyv) hn⟩
      simp only [keyDown, hsel, h1, Res.bind, h4]
      rw [if_neg hne]
    | nil =>
      simp only [List.nil_append] at hyh e'
      cases rest with
      | nil => simp at hyh
      | cons r rest' =>
        simp only [List.head?_cons, Option.some.injEq] at hyh
        subst hyh
        simp only [List.head?_cons] at hnx
        have hnv : r ∉ c :: vis := by
          intro hm
          rw [e] at hnd
          have h2 := (List.nodup_append.1 hnd).2.1
          rw [← List.cons_append] at h2
          exact (List.nodup_append.1 h2).2.2 hm (by simp)
        have e'' : mv = (pre ++ a ++ [x']) ++ r :: rest' := by rw [e']; simp
        obtain ⟨s', vis2, rest2, -, hcalc, k1, k2, k3, k4, k5, k6, -, -, kv⟩ := calc_step cfg hno
          { s with sel := some r, curr := s.next } mv (pre ++ a ++ [x']) rest' [r] rest' r
          hl e'' hnx rfl (by simpa [sumCost] using cost_le_budget cfg hno _)
        refine ⟨s', ?_, k5, k2, k3, matchView_congr s s' k1 k4,
          fun hin => absurd (by rw [← hvis]; exact hin) hnv,
          fun _ => ⟨by rw [k6]; exact hnx, by rw [kv]; simp⟩⟩
        simp only [keyDown, hsel, h1, Res.bind, h4]
        rw [if_pos hnx.symm]
        exact hcalc

theorem selectPrev_step (cfg : Config) (hno : NoOverflow cfg) (s : State) (hinv : WinInv cfg s)
    (x l : Nat) (hsel : s.sel = some x) (hy : fleft s.items x = some (some l)) :
    ∃ s', keyUp cfg s = .ok s' ∧ s'.sel = some l ∧ s'.text = s.text ∧
      s'.cursor = s.cursor ∧ matchView s' = matchView s ∧
      (l ∈ visible s → s'.curr = s.curr ∧ s'.next = s.next ∧ visible s' = visible s) ∧
      (l ∉ visible s → s'.curr = s.prev ∧ l ∈ visible s') := by
  obtain ⟨mv, hl, hm0, hwin⟩ := hinv
  rcases hwin with ⟨-, -, -, hs0, -⟩ | ⟨pre, c, vis, rest, x', e, hc, hnx, hpv, hsel', hx⟩
  · rw [hs0] at hsel; cases hsel
  · have hxx : x' = x := by rw [hsel] at hsel'; exact (Option.some.inj hsel').symm
    subst hxx
    have hvis := visible_of_win s mv pre vis rest c hl e hc hnx
    obtain ⟨a, b, eab⟩ := List.append_of_mem hx
    have e' : mv = (pre ++ a) ++ x' :: (b ++ rest) := by
      rw [e, ← List.cons_append, eab]; simp
    obtain ⟨it, h1, -, h3, -⟩ := Linked.rd hl e'
    have hfl := (hl.2 _ _ _ e').1
    rw [hy] at hfl
    have hlh : (pre ++ a).getLast? = some l := (Option.some.inj hfl).symm
    rw [hlh] at h3
    have hnd := hl.1
    have hndv : (c :: vis).Nodup := by
      rw [e] at hnd
      have := (List.nodup_append.1 hnd).2.1
      rw [← List.cons_append] at this
      exact (List.nodup_append.1 this).1
    rcases eq_nil_or_snoc a with ha | ⟨a', l', ha⟩
    · subst ha
      simp only [List.nil_append, List.cons.injEq] at eab
      obtain ⟨rfl, rfl⟩ := eab
      simp only [List.append_nil] at hlh e'
      have hlp : l ∈ pre := List.mem_of_mem_getLast? hlh
      have hnv : l ∉ c :: vis := by
        intro hm
        rw [e] at hnd
        have h2 := (List.nodup_append.1 hnd).2.2
        exact h2 hlp (by
          simp only [List.mem_cons, List.mem_append] at hm ⊢
          rcases hm with h | h
          · exact Or.inl h
          · exact Or.inr (Or.inl h))
      obtain ⟨pre', epre⟩ : ∃ pre', pre = pre' ++ [l] := by
        rcases eq_nil_or_snoc pre with hp | ⟨p0, l0, hp⟩
        · subst hp; simp at hlh
        · subst hp
          rw [List.getLast?_concat] at hlh
          exact ⟨p0, by rw [Option.some.inj hlh]⟩
      have el : mv = pre' ++ l :: (c :: (vis ++ rest)) := by rw [e, epre]; simp
      obtain ⟨itl, hl1, -, -, hl4⟩ := Linked.rd hl el
      simp only [List.head?_cons] at hl4
      obtain ⟨pre0, m, epm, hpm, hsum, hne⟩ := prev_page cfg (textsOf s.items) hno pre c
      have hmne : m ≠ [] := hne (by rw [epre]; simp)
      obtain ⟨pv, m', em⟩ : ∃ pv m', m = pv :: m' := by
        cases m with
        | nil => exact absurd rfl hmne
        | cons pv m' => exact ⟨pv, m', rfl⟩
      subst em
      simp only [List.cons_append, List.head?_cons] at hpm
      have hlm : l ∈ pv :: m' := by
        have hh : pre.getLast? = (pre0 ++ pv :: m').getLast? := by rw [← epm]
        rw [hlh, List.getLast?_append] at hh
        have : (pv :: m').getLast? = some l := by
          cases hg : (pv :: m').getLast? with
          | none => simp at hg
          | some z => rw [hg] at hh; simpa using hh.symm
        exact List.mem_of_mem_getLast? this
      have e2 : mv = pre0 ++ pv :: (m' ++ c :: (vis ++ rest)) := by
        rw [e, epm]; simp
      obtain ⟨s', vis2, rest2, -, hcalc, k1, k2, k3, k4, k5, k6, -, -, kv⟩ := calc_step cfg hno
        { s with sel := some l, curr := s.prev } mv pre0 (m' ++ c :: (vis ++ rest))
        (pv :: m') (c :: (vis ++ rest)) pv hl e2 (by rw [hpv, hpm]) (by simp) hsum
      refine ⟨s', ?_, k5, k2, k3, matchView_congr s s' k1 k4,
        fun hin => absurd (by rw [← hvis]; exact hin) hnv,
        fun _ => ⟨k6, by rw [kv]; exact List.mem_append_left _ hlm⟩⟩
      simp only [keyUp, hsel, h1, Res.bind, h3, hl1]
      rw [if_pos (by rw [hl4, hc])]
      exact hcalc
    · subst ha
      have hll : l' = l := by
        rw [← List.append_assoc, List.getLast?_concat] at hlh
        exact Option.some.inj hlh
      subst hll
      have hlv : l' ∈ c :: vis := by rw [eab]; simp
      have el : mv = (pre ++ a') ++ l' :: (x' :: (b ++ rest)) := by rw [e']; simp
      obtain ⟨itl, hl1, -, -, hl4⟩ := Linked.rd hl el
      simp only [List.head?_cons] at hl4
      have hxc : ¬ itl.right = s.curr := by
        rw [hl4, hc]
        intro hh
        have hxc : x' = c := Option.some.inj hh
        subst hxc
        have := first_unique hndv eab rfl
        simp at this
      refine ⟨{ s with sel := some l' }, ?_, rfl, rfl, rfl, rfl,
        fun _ => ⟨rfl, rfl, rfl⟩, fun hn => absurd (by rw [hvis]; exact hlv) hn⟩
      simp only [keyUp, hsel, h1, Res.bind, h3, hl1]
      rw [if_neg hxc]

/-- C15, as stated, fails for SelectPrev: with three rows over five matches
and the window on the items 4..5 with the fourth selected, SelectPrev selects
the third item, which is outside the window, and the window is recomputed
from the first item, not from the new selection. -/
theorem C15_counterexample :
    pressAll rowCfg (setup rowCfg fiveTexts) [plainKey XK_End, plainKey XK_Up] = .ok fivePaged ∧
    ∃ s', keypress rowCfg fivePaged (plainKey XK_Up) = .ok s' ∧ s'.sel = some 2 ∧
      2 ∉ visible fivePaged ∧ s'.curr = some 0 ∧ s'.curr ≠ s'.sel ∧ visible s' = [0, 1, 2] := by
  refine ⟨by decide, _, rfl, ?_, ?_, ?_, ?_, ?_⟩ <;> decide

/-- C15, amended: with the arithmetic of `calcoffsets` in range, in every
reachable session with a selection `x`: SelectNext with a successor `y` of
`x` selects `y`, SelectPrev with a predecessor `l` of `x` selects `l`, and
both leave buffer, cursor and match list unchanged.  If the new selection is
visible in the current window, the window is unchanged.  If it is not,
SelectNext recomputes the window from the new selection (the new `curr` is
`y`), and SelectPrev recomputes it from the old `prev`, the start of the
preceding page (the new `curr` is the old `prev`); in both cases the new
selection is visible in the new window. -/
theorem C15_reanchor (cfg : Config) (input : List (List Nat)) (s : State) (x : Nat)
    (hno : NoOverflow cfg) (hr : Reachable cfg input s) (hsel : s.sel = some x) :
    (∀ ev y, isSelectNext ev → fright s.items x = some (some y) →
      ∃ s', keypress cfg s ev = .ok s' ∧ s'.sel = some y ∧ s'.text = s.text ∧
        s'.cursor = s.cursor ∧ matchView s' = matchView s ∧
        (y ∈ visible s → s'.curr = s.curr ∧ s'.next = s.next ∧ visible s' = visible s) ∧
        (y ∉ visible s → s'.curr = some y ∧ y ∈ visible s')) ∧
    (∀ ev l, isSelectPrev ev → fleft s.items x = some (some l) →
      ∃ s', keypress cfg s ev = .ok s' ∧ s'.sel = some l ∧ s'.text = s.text ∧
        s'.cursor = s.cursor ∧ matchView s' = matchView s ∧
        (l ∈ visible s → s'.curr = s.curr ∧ s'.next = s.next ∧ visible s' = visible s) ∧
        (l ∉ visible s → s'.curr = s.prev ∧ l ∈ visible s')) := by
  have hinv := reachable_inv cfg hno input s hr
  constructor
  · intro ev y hev hy
    rw [keypress_selectNext cfg s ev hev]
    exact selectNext_step cfg hno s hinv x y hsel hy
  · intro ev l hev hl
    rw [keypress_selectPrev cfg s ev hev]
    exact selectPrev_step cfg hno s hinv x l hsel hl

/-- Witness of C15: the session reached by End and Up over five candidates in
three rows, its fourth item selected. -/
theorem C15_witness :
    (∀ ev y, isSelectNext ev → fright fivePaged.items 3 = some (some y) →
      ∃ s', keypress rowCfg fivePaged ev = .ok s' ∧ s'.sel = some y ∧
        s'.text = fivePaged.text ∧ s'.cursor = fivePaged.cursor ∧
        matchView s' = matchView fivePaged ∧
        (y ∈ visible fivePaged → s'.curr = fivePaged.curr ∧ s'.next = fivePaged.next ∧
          visible s' = visible fivePaged) ∧
        (y ∉ visible fivePaged → s'.curr = some y ∧ y ∈ visible s')) ∧
    (∀ ev l, isSelectPrev ev → fleft fivePaged.items 3 = some (some l) →
      ∃ s', keypress rowCfg fivePaged ev = .ok s' ∧ s'.sel = some l ∧
        s'.text = fivePaged.text ∧ s'.cursor = fivePaged.cursor ∧
        matchView s' = matchView fivePaged ∧
        (l ∈ visible fivePaged → s'.curr = fivePaged.curr ∧ s'.next = fivePaged.next ∧
          visible s' = visible fivePaged) ∧
        (l ∉ visible fivePaged → s'.curr = fivePaged.prev ∧ l ∈ visible s')) :=
  C15_reanchor rowCfg fiveTexts fivePaged 3 (by decide)
    (Reachable.next fiveAtEnd fivePaged (.key (plainKey XK_Up))
      (Reachable.next fiveStart fiveAtEnd (.key (plainKey XK_End))
        (Reachable.init fiveStart (by decide)) (by decide)) (by decide))
    rfl


/-! ## The window is always up to date -/

theorem calc_parts (cfg : Config) (s s' : State) (h : calcoffsets cfg s = .ok s') :
    ∃ nx pv, scanNext cfg s.items s.items.length 0 s.curr = .ok nx ∧
      scanPrev cfg s.items s.items.length 0 s.curr = .ok pv ∧
      s' = { s with next := nx, prev := pv } := by
  unfold calcoffsets at h
  obtain ⟨nx, h1, h⟩ := bind_ok _ _ _ h
  obtain ⟨pv, h2, h⟩ := bind_ok _ _ _ h
  exact ⟨nx, pv, h1, h2, (Res.ok.inj h).symm⟩

theorem calc_fresh (cfg : Config) (s s' : State) (h : calcoffsets cfg s = .ok s') :
    Fresh cfg s' := by
  obtain ⟨nx, pv, h1, h2, rfl⟩ := calc_parts cfg s s' h
  unfold Fresh calcoffsets
  simp only [h1, h2, Res.bind]

theorem fresh_congr (cfg : Config) (s t : State) (h : Fresh cfg s) (h1 : t.items = s.items)
    (h2 : t.curr = s.curr) (h3 : t.next = s.next) (h4 : t.prev = s.prev) : Fresh cfg t := by
  obtain ⟨nx, pv, k1, k2, k3⟩ := calc_parts cfg s s h
  have hnx : nx = s.next := by
    have := congrArg State.next k3
    exact this.symm
  have hpv : pv = s.prev := by
    have := congrArg State.prev k3
    exact this.symm
  unfold Fresh calcoffsets
  rw [h1, h2, k1, k2]
  simp only [Res.bind, hnx, hpv, ← h1, ← h2, ← h3, ← h4]

theorem match_fresh (cfg : Config) (s s' : State) (h : match_ cfg s = .ok s') :
    Fresh cfg s' := by
  unfold match_ at h
  obtain ⟨t, -, h⟩ := bind_ok _ _ _ h
  obtain ⟨r1, -, h⟩ := bind_ok _ _ _ h
  obtain ⟨r2, -, h⟩ := bind_ok _ _ _ h
  obtain ⟨r3, -, h⟩ := bind_ok _ _ _ h
  obtain ⟨s1, hc, h⟩ := bind_ok _ _ _ h
  have hf := calc_fresh cfg _ s1 hc
  split at h
  · split at h
    · cases h
    · obtain ⟨it, -, h⟩ := bind_ok _ _ _ h
      split at h
      · cases h
      · cases h; exact hf
  · cases h; exact hf

theorem keyDown_fresh (cfg : Config) (s s' : State) (hf : Fresh cfg s)
    (hk : keyDown cfg s = .ok s') : Fresh cfg s' := by
  unfold keyDown at hk
  split at hk
  · cases hk; exact hf
  · obtain ⟨it, -, hk⟩ := bind_ok _ _ _ hk
    split at hk
    · cases hk; exact hf
    · split at hk
      · exact calc_fresh cfg _ s' hk
      · cases hk; exact fresh_congr cfg s _ hf rfl rfl rfl rfl

theorem keyUp_fresh (cfg : Config) (s s' : State) (hf : Fresh cfg s)
    (hk : keyUp cfg s = .ok s') : Fresh cfg s' := by
  unfold keyUp at hk
  split at hk
  · cases hk; exact hf
  · obtain ⟨it, -, hk⟩ := bind_ok _ _ _ hk
    split at hk
    · cases hk; exact hf
    · obtain ⟨itl, -, hk⟩ := bind_ok _ _ _ hk
      split at hk
      · exact calc_fresh cfg _ s' hk
      · cases hk; exact fresh_congr cfg s _ hf rfl rfl rfl rfl

theorem insert_fresh (cfg : Config) (s s' : State) (str : List Nat) (n : Int)
    (hf : Fresh cfg s) (hk : insert cfg s str n = .ok s') : Fresh cfg s' := by
  unfold insert at hk
  split at hk
  · cases hk; exact hf
  · split at hk
    · cases hk
    · split at hk
      · cases hk
      · split at hk
        · cases hk
        · exact match_fresh cfg _ s' hk

theorem endPages_fresh (cfg : Config) :
    ∀ (fuel : Nat) (s s' : State), Fresh cfg s → endPages cfg fuel s = .ok s' →
      Fresh cfg s' := by
  intro fuel
  induction fuel with
  | zero =>
    intro s s' hf hk
    unfold endPages at hk
    split at hk
    · cases hk; exact hf
    · cases hk
  | succ f ih =>
    intro s s' hf hk
    unfold endPages at hk
    split at hk
    · cases hk; exact hf
    · obtain ⟨s1, h1, hk⟩ := bind_ok _ _ _ hk
      exact ih s1 s' (calc_fresh cfg _ s1 h1) hk

theorem wordLoop_fresh (cfg : Config) (space : Bool) :
    ∀ (fuel : Nat) (s s' : State), Fresh cfg s → wordLoop cfg space fuel s = .ok s' →
      Fresh cfg s' := by
  intro fuel
  induction fuel with
  | zero => intro s s' _ hk; cases hk
  | succ f ih =>
    intro s s' hf hk
    unfold wordLoop at hk
    split at hk
    · obtain ⟨r, -, hk⟩ := bind_ok _ _ _ hk
      obtain ⟨c, -, hk⟩ := bind_ok _ _ _ hk
      split at hk
      · obtain ⟨s1, h1, hk⟩ := bind_ok _ _ _ hk
        exact ih s1 s' (insert_fresh cfg s s1 _ _ hf h1) hk
      · cases hk; exact hf
    · cases hk; exact hf

theorem dispatch_fresh (cfg : Config) (len : Nat) (s s' : State) (ksym : Nat)
    (ev : XKeyEvent) (hf : Fresh cfg s) (hk : dispatch cfg len s ksym ev = .ok s') :
    Fresh cfg s' := by
  rw [dispatch] at hk
  by_cases c0 : ksym = XK_Delete
  · rw [if_pos c0] at hk
    unfold keyDelete at hk
    split at hk
    · cases hk; exact hf
    · obtain ⟨r, -, hk⟩ := bind_ok _ _ _ hk
      unfold keyBackSpace at hk
      split at hk
      · obtain ⟨r2, -, hk⟩ := bind_ok _ _ _ hk
        exact insert_fresh cfg { s with cursor := r } s' _ _
          (fresh_congr cfg s _ hf rfl rfl rfl rfl) hk
      · cases hk; exact fresh_congr cfg s _ hf rfl rfl rfl rfl
  rw [if_neg c0] at hk
  by_cases c1 : ksym = XK_BackSpace
  · rw [if_pos c1] at hk
    unfold keyBackSpace at hk
    split at hk
    · obtain ⟨r2, -, hk⟩ := bind_ok _ _ _ hk
      exact insert_fresh cfg _ s' _ _ hf hk
    · cases hk; exact hf
  rw [if_neg c1] at hk
  by_cases c2 : ksym = XK_End
  · rw [if_pos c2] at hk
    unfold keyEnd at hk
    split at hk
    · cases hk; exact fresh_congr cfg s _ hf rfl rfl rfl rfl
    · obtain ⟨s1, h1, hk⟩ := bind_ok _ _ _ hk
      obtain ⟨p, -, hk⟩ := bind_ok _ _ _ hk
      cases hk
      exact fresh_congr cfg s1 _ (endPages_fresh cfg _ s s1 hf h1) rfl rfl rfl rfl
  rw [if_neg c2] at hk
  by_cases c3 : ksym = XK_Escape
  · rw [if_pos c3] at hk
    cases hk
  rw [if_neg c3] at hk
  by_cases c4 : ksym = XK_Home
  · rw [if_pos c4] at hk
    unfold keyHome at hk
    split at hk
    · cases hk; exact fresh_congr cfg s _ hf rfl rfl rfl rfl
    · exact calc_fresh cfg _ s' hk
  rw [if_neg c4] at hk
  by_cases c5 : ksym = XK_Left
  · rw [if_pos c5] at hk
    unfold keyLeft at hk
    obtain ⟨b, -, hk⟩ := bind_ok _ _ _ hk
    split at hk
    · obtain ⟨r, -, hk⟩ := bind_ok _ _ _ hk
      cases hk
      exact fresh_congr cfg s _ hf rfl rfl rfl rfl
    · split at hk
      · cases hk; exact hf
      · exact keyUp_fresh cfg s s' hf hk
  rw [if_neg c5] at hk
  by_cases c6 : ksym = XK_Up
  · rw [if_pos c6] at hk
    exact keyUp_fresh cfg s s' hf hk
  rw [if_neg c6] at hk
  by_cases c7 : ksym = XK_Next
  · rw [if_pos c7] at hk
    unfold keyNext at hk
    split at hk
    · cases hk; exact hf
    · exact calc_fresh cfg _ s' hk
  rw [if_neg c7] at hk
  by_cases c8 : ksym = XK_Prior
  · rw [if_pos c8] at hk
    unfold keyPrior at hk
    split at hk
    · cases hk; exact hf
    · exact calc_fresh cfg _ s' hk
  rw [if_neg c8] at hk
  by_cases c9 : ksym = XK_Return ∨ ksym = XK_KP_Enter
  · rw [if_pos c9] at hk
    unfold keyReturn handle_return at hk
    split at hk
    · cases hk
    · split at hk
      · cases hk
      · obtain ⟨it, -, hk⟩ := bind_ok _ _ _ hk
        cases hk
  rw [if_neg c9] at hk
  by_cases c10 : ksym = XK_Right
  · rw [if_pos c10] at hk
    unfold keyRight at hk
    split at hk
    · obtain ⟨r, -, hk⟩ := bind_ok _ _ _ hk
      cases hk
      exact fresh_congr cfg s _ hf rfl rfl rfl rfl
    · split at hk
      · cases hk; exact hf
      · exact keyDown_fresh cfg s s' hf hk
  rw [if_neg c10] at hk
  by_cases c11 : ksym = XK_Down
  · rw [if_pos c11] at hk
    exact keyDown_fresh cfg s s' hf hk
  rw [if_neg c11] at hk
  by_cases c12 : ksym = XK_Tab
  · rw [if_pos c12] at hk
    unfold keyTab at hk
    split at hk
    · cases hk; exact hf
    · obtain ⟨it, -, hk⟩ := bind_ok _ _ _ hk
      split at hk
      · exact match_fresh cfg _ s' hk
      · cases hk
  rw [if_neg c12] at hk
  unfold keyDefault at hk
  split at hk
  · cases hk; exact hf
  · exact insert_fresh cfg s s' _ _ hf hk


theorem keypress_fresh (cfg : Config) (s s' : State) (ev : XKeyEvent) (hf : Fresh cfg s)
    (hk : keypress cfg s ev = .ok s') : Fresh cfg s' := by
  rw [keypress] at hk
  by_cases hctl : ev.control = true
  swap
  · rw [if_neg hctl] at hk
    exact dispatch_fresh cfg _ s s' _ ev hf hk
  rw [if_pos hctl] at hk
  by_cases ka : tolower ev.ksym = XK_a
  · rw [if_pos ka] at hk
    exact dispatch_fresh cfg _ s s' _ ev hf hk
  rw [if_neg ka] at hk
  by_cases kb : tolower ev.ksym = XK_b
  · rw [if_pos kb] at hk
    exact dispatch_fresh cfg _ s s' _ ev hf hk
  rw [if_neg kb] at hk
  by_cases kc : tolower ev.ksym = XK_c
  · rw [if_pos kc] at hk
    exact dispatch_fresh cfg _ s s' _ ev hf hk
  rw [if_neg kc] at hk
  by_cases kd : tolower ev.ksym = XK_d
  · rw [if_pos kd] at hk
    exact dispatch_fresh cfg _ s s' _ ev hf hk
  rw [if_neg kd] at hk
  by_cases ke : tolower ev.ksym = XK_e
  · rw [if_pos ke] at hk
    exact dispatch_fresh cfg _ s s' _ ev hf hk
  rw [if_neg ke] at hk
  by_cases kf : tolower ev.ksym = XK_f
  · rw [if_pos kf] at hk
    exact dispatch_fresh cfg _ s s' _ ev hf hk
  rw [if_neg kf] at hk
  by_cases kh : tolower ev.ksym = XK_h
  · rw [if_pos kh] at hk
    exact dispatch_fresh cfg _ s s' _ ev hf hk
  rw [if_neg kh] at hk
  by_cases ki : tolower ev.ksym = XK_i
  · rw [if_pos ki] at hk
    exact dispatch_fresh cfg _ s s' _ ev hf hk
  rw [if_neg ki] at hk
  by_cases kj : tolower ev.ksym = XK_j
  · rw [if_pos kj] at hk
    exact dispatch_fresh cfg _ s s' _ ev hf hk
  rw [if_neg kj] at hk
  by_cases kk : tolower ev.ksym = XK_k
  · rw [if_pos kk] at hk
    obtain ⟨s1, h1, hk⟩ := bind_ok _ _ _ hk
    refine dispatch_fresh cfg _ s1 s' _ ev ?_ hk
    unfold ctrlK at h1
    split at h1
    · exact match_fresh cfg _ s1 h1
    · cases h1
  rw [if_neg kk] at hk
  by_cases kn : tolower ev.ksym = XK_n
  · rw [if_pos kn] at hk
    exact dispatch_fresh cfg _ s s' _ ev hf hk
  rw [if_neg kn] at hk
  by_cases kp : tolower ev.ksym = XK_p
  · rw [if_pos kp] at hk
    exact dispatch_fresh cfg _ s s' _ ev hf hk
  rw [if_neg kp] at hk
  by_cases ku : tolower ev.ksym = XK_u
  · rw [if_pos ku] at hk
    obtain ⟨s1, h1, hk⟩ := bind_ok _ _ _ hk
    exact dispatch_fresh cfg _ s1 s' _ ev (insert_fresh cfg s s1 _ _ hf h1) hk
  rw [if_neg ku] at hk
  by_cases kw : tolower ev.ksym = XK_w
  · rw [if_pos kw] at hk
    obtain ⟨s1, h1, hk⟩ := bind_ok _ _ _ hk
    refine dispatch_fresh cfg _ s1 s' _ ev ?_ hk
    unfold ctrlW at h1
    obtain ⟨s0, h0, h1⟩ := bind_ok _ _ _ h1
    exact wordLoop_fresh cfg false _ s0 s1 (wordLoop_fresh cfg true _ s s0 hf h0) h1
  rw [if_neg kw] at hk
  cases hk
  exact hf

theorem reachable_fresh (cfg : Config) (input : List (List Nat)) (s : State)
    (hr : Reachable cfg input s) : Fresh cfg s := by
  induction hr with
  | init s hs => exact match_fresh cfg _ s hs
  | next s s' a _ hstep ih =>
    cases a with
    | key ev => exact keypress_fresh cfg s s' ev ih hstep
    | pasted p => exact insert_fresh cfg s s' _ _ ih hstep

theorem row_scanPrevL (cfg : Config) (texts : List (List Nat)) (hL : 0 < cfg.lines)
    (hbh : 0 < cfg.bh) (hov : (cfg.lines + 1) * cfg.bh < 2 ^ 32) :
    ∀ (rpre : List Nat) (p k : Nat), k ≤ cfg.lines →
      scanPrevL cfg texts (k * cfg.bh) p rpre = ((rpre.take (cfg.lines - k)).getLast?).getD p := by
  have hb : budget cfg = cfg.lines * cfg.bh := by
    unfold budget
    rw [if_pos hL]
    apply Nat.mod_eq_of_lt
    nlinarith
  have hc : ∀ t, cost cfg t = cfg.bh := by
    intro t; unfold cost; rw [if_pos hL]
  intro rpre
  induction rpre with
  | nil => intro p k _; simp [scanPrevL]
  | cons q rest ih =>
    intro p k hk
    have hlt : k * cfg.bh + cfg.bh < 2 ^ 32 := by
      have : k * cfg.bh + cfg.bh = (k + 1) * cfg.bh := by ring
      rw [this]
      calc (k + 1) * cfg.bh ≤ (cfg.lines + 1) * cfg.bh :=
            Nat.mul_le_mul_right _ (by omega)
        _ < 2 ^ 32 := hov
    simp only [scanPrevL, hc, hb, Nat.mod_eq_of_lt hlt]
    by_cases hkL : k = cfg.lines
    · subst hkL
      have : cfg.lines * cfg.bh + cfg.bh > cfg.lines * cfg.bh := by omega
      simp [this]
    · have hk' : k + 1 ≤ cfg.lines := by omega
      have hle : ¬ k * cfg.bh + cfg.bh > cfg.lines * cfg.bh := by
        have : k * cfg.bh + cfg.bh = (k + 1) * cfg.bh := by ring
        rw [this]
        have := Nat.mul_le_mul_right cfg.bh hk'
        omega
      rw [if_neg hle]
      have e1 : k * cfg.bh + cfg.bh = (k + 1) * cfg.bh := by ring
      rw [e1, ih q (k + 1) hk']
      have e2 : cfg.lines - k = (cfg.lines - (k + 1)) + 1 := by omega
      rw [e2, List.take_succ_cons, List.getLast?_cons]
      simp


/-! ## Page down and back up in row mode -/

theorem keypress_nextPage (cfg : Config) (s : State) (ev : XKeyEvent)
    (h : isSelectNextPage ev) : keypress cfg s ev = keyNext cfg s := by
  obtain ⟨hc, hk⟩ := h
  simp [keypress, hc, dispatch, hk, XK_Return, XK_Delete, XK_BackSpace, XK_End, XK_Escape,
    XK_Home, XK_Left, XK_Up, XK_Next]

theorem keypress_prevPage (cfg : Config) (s : State) (ev : XKeyEvent)
    (h : isSelectPrevPage ev) : keypress cfg s ev = keyPrior cfg s := by
  obtain ⟨hc, hk⟩ := h
  simp [keypress, hc, dispatch, hk, XK_Return, XK_Delete, XK_BackSpace, XK_End, XK_Escape,
    XK_Home, XK_Left, XK_Up, XK_Next, XK_Prior]

theorem fresh_next (cfg : Config) (s : State) (mv pre suf : List Nat) (c : Nat)
    (hf : Fresh cfg s) (hl : Linked s.items mv) (e : mv = pre ++ c :: suf)
    (hc : s.curr = some c) :
    s.next = scanNextL cfg (textsOf s.items) 0 (c :: suf) := by
  have h1 := calcoffsets_ok cfg s mv pre suf c hl e hc
  unfold Fresh at hf
  rw [hf] at h1
  have := congrArg State.next (Res.ok.inj h1)
  exact this

theorem row_scanNextL_flat (cfg : Config) (texts : List (List Nat)) (hL : 0 < cfg.lines)
    (hbh : cfg.bh = 0) : ∀ l : List Nat, scanNextL cfg texts 0 l = none := by
  have hb : budget cfg = 0 := by
    unfold budget
    rw [if_pos hL, hbh]
    rfl
  have hc : ∀ t, cost cfg t = 0 := by
    intro t; unfold cost; rw [if_pos hL, hbh]
  intro l
  induction l with
  | nil => rfl
  | cons p rest ih =>
    simp only [scanNextL, hc, hb]
    rw [if_neg (by decide)]
    exact ih

/-- C20: in row mode with `L > 0` rows and `lines * bh` within `int`, in
every reachable session whose `next` is not none:
SelectNextPage returns a session whose `curr` and selection are the old
`next` and whose `prev`, found by the backward scan, is exactly the old
`curr`; SelectPrevPage then returns the original session with the selection
on its `curr`: the same `curr`, `next` and `prev`, match list, buffer and
cursor. -/
theorem C20_page_round_trip (cfg : Config) (input : List (List Nat)) (s : State)
    (evN evP : XKeyEvent) (hno : NoOverflow cfg) (hr : Reachable cfg input s)
    (hrow : 0 < cfg.lines) (hnext : s.next ≠ none)
    (hN : isSelectNextPage evN) (hP : isSelectPrevPage evP) :
    ∃ s1, keypress cfg s evN = .ok s1 ∧ s1.curr = s.next ∧ s1.sel = s.next ∧
      s1.prev = s.curr ∧ keypress cfg s1 evP = .ok { s with sel := s.curr } := by
  have hov : (cfg.lines + 1) * cfg.bh < 2 ^ 32 := by
    have h1 : cfg.lines * cfg.bh < 2 ^ 31 := by
      unfold NoOverflow at hno
      rw [if_pos hrow] at hno
      exact hno
    have h2 : cfg.bh ≤ cfg.lines * cfg.bh := Nat.le_mul_of_pos_left _ hrow
    have h3 : (cfg.lines + 1) * cfg.bh = cfg.lines * cfg.bh + cfg.bh := by ring
    omega
  obtain ⟨mv, hl, hm0, hwin⟩ := reachable_inv cfg hno input s hr
  have hf := reachable_fresh cfg input s hr
  rcases hwin with ⟨-, -, w3, -, -⟩ | ⟨pre, c, vis, rest, x, e, hc, hnx, hpv, hsel, hx⟩
  · exact absurd w3 hnext
  · cases rest with
    | nil => exact absurd hnx hnext
    | cons r rest' =>
      simp only [List.head?_cons] at hnx
      have hfn := fresh_next cfg s mv pre (vis ++ r :: rest') c hf hl e hc
      have hbh : 0 < cfg.bh := by
        rcases Nat.eq_zero_or_pos cfg.bh with h0 | h0
        · rw [row_scanNextL_flat cfg (textsOf s.items) hrow h0] at hfn
          exact absurd hfn hnext
        · exact h0
      have hrowN := row_scanNextL cfg (textsOf s.items) hrow hbh hov
        (c :: (vis ++ r :: rest')) 0 (Nat.zero_le _)
      simp only [Nat.zero_mul, Nat.sub_zero] at hrowN
      have hidx : (c :: (vis ++ r :: rest'))[cfg.lines]? = some r := by
        rw [← hrowN, ← hfn, hnx]
      have hndv : (c :: (vis ++ r :: rest')).Nodup := by
        have := hl.1
        rw [e] at this
        exact (List.nodup_append.1 this).2.1
      have hpos : (c :: (vis ++ r :: rest'))[vis.length + 1]? = some r := by
        rw [List.getElem?_cons_succ, List.getElem?_append_right (Nat.le_refl _)]
        simp
      have hLv : vis.length + 1 = cfg.lines :=
        List.getElem?_inj (by simp) hndv (by rw [hpos, hidx])
      have e1 : mv = (pre ++ c :: vis) ++ r :: rest' := by rw [e]; simp
      have hcalc1 := calcoffsets_ok cfg { s with sel := s.next, curr := s.next } mv
        (pre ++ c :: vis) rest' r hl e1 hnx
      have hprev1 : scanPrevL cfg (textsOf s.items) 0 r (pre ++ c :: vis).reverse = c := by
        have := row_scanPrevL cfg (textsOf s.items) hrow hbh hov (pre ++ c :: vis).reverse r 0
          (Nat.zero_le _)
        simp only [Nat.zero_mul, Nat.sub_zero] at this
        rw [this]
        have hrev : (pre ++ c :: vis).reverse = (vis.reverse ++ [c]) ++ pre.reverse := by simp
        rw [hrev, List.take_left' (by simp [hLv]), List.getLast?_concat]
        rfl
      refine ⟨{ s with
          sel := s.next, curr := s.next
          next := scanNextL cfg (textsOf s.items) 0 (r :: rest')
          prev := some c }, ?_, ?_, ?_, ?_, ?_⟩
      · rw [keypress_nextPage cfg s evN hN]
        unfold keyNext
        rw [if_neg hnext, hcalc1]
        simp only [hprev1]
      · rfl
      · rfl
      · exact hc.symm
      · rw [keypress_prevPage cfg _ evP hP]
        unfold keyPrior
        rw [if_neg (by simp)]
        have hcalc2 := calcoffsets_ok cfg
          { s with sel := some c, curr := some c,
                   next := scanNextL cfg (textsOf s.items) 0 (r :: rest'), prev := some c }
          mv pre (vis ++ r :: rest') c hl e rfl
        simp only [] at hcalc2 ⊢
        rw [hcalc2]
        simp only [← hfn, ← hpv, ← hc]

/-- Witness of C20: three rows over five candidates, at startup. -/
theorem C20_witness :
    ∃ s1, keypress rowCfg fiveStart (plainKey XK_Next) = .ok s1 ∧ s1.curr = fiveStart.next ∧
      s1.sel = fiveStart.next ∧ s1.prev = fiveStart.curr ∧
      keypress rowCfg s1 (plainKey XK_Prior) = .ok { fiveStart with sel := fiveStart.curr } :=
  C20_page_round_trip rowCfg fiveTexts fiveStart (plainKey XK_Next) (plainKey XK_Prior)
    (by decide) (Reachable.init fiveStart (by decide)) (by decide) (by decide) (by decide)
    (by decide)


/-! ## Deleting the word before the cursor -/

theorem cont_ne_space (b : Nat) (h : isCont b = true) : b ≠ 32 := by
  intro e
  subst e
  revert h
  decide

theorem utf8Go_tail (p b : Nat) (rest : List Nat) (h : utf8Go p (b :: rest) = true) :
    ∃ q, utf8Go q rest = true := by
  cases p with
  | zero =>
    simp only [utf8Go] at h
    by_cases h1 : b < 0x80
    · rw [if_pos h1] at h; exact ⟨_, h⟩
    · rw [if_neg h1] at h
      by_cases h2 : 0xc0 ≤ b ∧ b < 0xe0
      · rw [if_pos h2] at h; exact ⟨_, h⟩
      · rw [if_neg h2] at h
        by_cases h3 : 0xe0 ≤ b ∧ b < 0xf0
        · rw [if_pos h3] at h; exact ⟨_, h⟩
        · rw [if_neg h3] at h
          by_cases h4 : 0xf0 ≤ b ∧ b < 0xf8
          · rw [if_pos h4] at h; exact ⟨_, h⟩
          · rw [if_neg h4] at h; cases h
  | succ k =>
    simp only [utf8Go, Bool.and_eq_true] at h
    exact ⟨_, h.2⟩

theorem utf8Go_space_next : ∀ (t : List Nat) (p : Nat), utf8Go p t = true →
    ∀ i, t.getD i 0 = 32 → isCont (t.getD (i + 1) 0) = false := by
  intro t
  induction t with
  | nil =>
    intro p _ i hi
    simp at hi
  | cons b rest ih =>
    intro p h i hi
    cases i with
    | zero =>
      rw [List.getD_cons_zero] at hi
      rw [List.getD_cons_succ]
      subst hi
      cases p with
      | zero =>
        simp only [utf8Go] at h
        rw [if_pos (by decide)] at h
        cases rest with
        | nil => rfl
        | cons c rest2 => exact utf8_first (c :: rest2) h (by simp)
      | succ k =>
        simp only [utf8Go, Bool.and_eq_true] at h
        exact absurd rfl (cont_ne_space 32 h.1)
    | succ j =>
      rw [List.getD_cons_succ] at hi ⊢
      obtain ⟨q, hq⟩ := utf8Go_tail p b rest h
      exact ih q hq j hi

theorem utf8_head (t : List Nat) (h : utf8Valid t = true) : isCont (t.getD 0 0) = false := by
  cases t with
  | nil => rfl
  | cons b rest => exact utf8_first (b :: rest) h (by simp)

theorem getD_take_append (t tail : List Nat) (k i : Nat) (hi : i < k) (hk : k ≤ t.length) :
    (t.take k ++ tail).getD i 0 = t.getD i 0 := by
  rw [List.getD_eq_getElem?_getD, List.getD_eq_getElem?_getD,
    List.getElem?_append_left (by rw [List.length_take]; omega), List.getElem?_take_of_lt hi]

theorem skipLeft_le (p : Nat → Bool) (t : List Nat) : ∀ k, skipLeft p t k ≤ k := by
  intro k
  induction k with
  | zero => exact Nat.le_refl _
  | succ k ih =>
    simp only [skipLeft]
    split
    · omega
    · exact Nat.le_refl _

theorem skipLeft_run (p : Nat → Bool) (t : List Nat) (r : Nat) :
    ∀ k, r ≤ k → (∀ i, r ≤ i → i < k → p (t.getD i 0) = true) →
      skipLeft p t k = skipLeft p t r := by
  intro k
  induction k with
  | zero =>
    intro hr _
    have : r = 0 := by omega
    rw [this]
  | succ k ih =>
    intro hr hall
    rcases Nat.eq_or_lt_of_le hr with e | hlt
    · rw [e]
    · simp only [skipLeft]
      rw [if_pos (hall k (by omega) (by omega))]
      exact ih (by omega) (fun i h1 h2 => hall i h1 (by omega))

theorem skipLeft_stop (p : Nat → Bool) (t : List Nat) (k : Nat)
    (h : p (t.getD k 0) = false) : skipLeft p t (k + 1) = k + 1 := by
  simp only [skipLeft]
  rw [if_neg (by rw [h]; exact Bool.false_ne_true)]

/-- The position `skipLeft p t k` is characterised as the start of the
maximal run of bytes satisfying `p` that ends at `k`. -/
theorem skipLeft_spec (p : Nat → Bool) (t : List Nat) (k : Nat) :
    skipLeft p t k ≤ k ∧ (∀ i, skipLeft p t k ≤ i → i < k → p (t.getD i 0) = true) ∧
      (skipLeft p t k = 0 ∨ p (t.getD (skipLeft p t k - 1) 0) = false) := by
  induction k with
  | zero => exact ⟨Nat.le_refl _, fun i _ h => absurd h (Nat.not_lt_zero _), Or.inl rfl⟩
  | succ k ih =>
    simp only [skipLeft]
    by_cases hp : p (t.getD k 0) = true
    · rw [if_pos hp]
      refine ⟨by omega, ?_, ih.2.2⟩
      intro i h1 h2
      rcases Nat.eq_or_lt_of_le (Nat.le_of_lt_succ h2) with e | hlt
      · rw [e]; exact hp
      · exact ih.2.1 i h1 hlt
    · rw [if_neg hp]
      refine ⟨Nat.le_refl _, fun i h1 h2 => by omega, Or.inr ?_⟩
      simpa using hp

theorem toSsize_neg (r k : Nat) (hr : r ≤ k) (hk : k ≤ 2 ^ 63) :
    toSsize (toSize ((r : Int) - k)) = (r : Int) - k := by
  unfold toSsize toSize
  rcases Nat.eq_or_lt_of_le hr with e | hlt
  · subst e
    simp
  · have h1 : ((r : Int) - k) % 2 ^ 64 = (r : Int) - k + 2 ^ 64 := by
      rw [← Int.add_emod_self, Int.emod_eq_of_lt (by omega) (by omega)]
    rw [h1]
    have h2 : ((r : Int) - k + 2 ^ 64).toNat = 2 ^ 64 - (k - r) := by omega
    rw [h2, if_neg (by omega)]
    omega

theorem insert_delete (cfg : Config) (s : State) (r : Nat) (hr : r ≤ s.cursor)
    (hc : s.cursor ≤ s.text.length) (hL : s.text.length < cfg.bufsiz)
    (hb : cfg.bufsiz ≤ 2 ^ 63) :
    insert cfg s [] (toSsize (toSize ((r : Int) - s.cursor)))
      = match_ cfg { s with text := s.text.take r ++ s.text.drop s.cursor, cursor := r } := by
  rw [toSsize_neg r s.cursor hr (by omega)]
  unfold insert
  have e1 : (s.text.length : Int) + ((r : Int) - s.cursor)
      = ((s.text.length - (s.cursor - r) : Nat) : Int) := by omega
  have e2 : (s.cursor : Int) + ((r : Int) - s.cursor) = (r : Nat) := by omega
  rw [e1, e2, toSize_nat _ (by omega), toSize_nat _ (by omega)]
  rw [if_neg (by omega), if_neg (by omega), if_neg (by omega), if_neg (by omega),
    if_neg (by omega)]
  simp


theorem take_take_append (t tail : List Nat) (k r : Nat) (hr : r ≤ k) (hk : k ≤ t.length) :
    (t.take k ++ tail).take r = t.take r := by
  rw [List.take_append_of_le_length (by rw [List.length_take]; omega), List.take_take,
    Nat.min_eq_left hr]

theorem drop_take_append (t tail : List Nat) (k : Nat) (hk : k ≤ t.length) :
    (t.take k ++ tail).drop k = tail := by
  rw [List.drop_left' (by rw [List.length_take]; omega)]

theorem match_terminates (cfg : Config) (s : State) : match_ cfg s ≠ .nofuel := by
  obtain ⟨items', -, -, -, hm⟩ := match_spec cfg s
  rw [hm]
  unfold matchOutcome
  split
  · split <;> exact fun h => by cases h
  · exact fun h => by cases h

theorem wordLoop_spec (cfg : Config) (space : Bool) (p : Nat → Bool) (t tail : List Nat)
    (hp : ∀ b, p b = true ↔ decide (b = 32) = space)
    (hb : cfg.bufsiz ≤ 2 ^ 63) (h0 : isCont (t.getD 0 0) = false)
    (hsp : ∀ i, t.getD i 0 = 32 → isCont (t.getD (i + 1) 0) = false) :
    ∀ (fuel k : Nat) (s : State), s.text = t.take k ++ tail → s.cursor = k →
      k ≤ t.length → k + tail.length < cfg.bufsiz → k < fuel →
      (∀ s', wordLoop cfg space fuel s = .ok s' →
        s'.text = t.take (skipLeft p t k) ++ tail ∧ s'.cursor = skipLeft p t k) ∧
      (cfg.returnearly = false → ∃ s', wordLoop cfg space fuel s = .ok s') ∧
      wordLoop cfg space fuel s ≠ .nofuel := by
  intro fuel
  induction fuel with
  | zero => intro k s _ _ _ _ hf; omega
  | succ f ih =>
    intro k s ht hc hk hL hf
    have hlen : s.text.length = k + tail.length := by
      rw [ht, List.length_append, List.length_take, Nat.min_eq_left hk]
    cases k with
    | zero =>
      have hn : ¬ s.cursor > 0 := by omega
      rw [wordLoop, if_neg hn]
      simp only [skipLeft]
      refine ⟨?_, fun _ => ⟨s, rfl⟩, fun h => by cases h⟩
      intro s' h
      cases h
      exact ⟨ht, hc⟩
    | succ n =>
      have hpos : s.cursor > 0 := by omega
      have h0' : isCont (s.text.getD 0 0) = false := by
        rw [ht, getD_take_append t tail (n + 1) 0 (by omega) hk]; exact h0
      obtain ⟨r, hr, hle, -, hall⟩ :=
        nextruneLoop_back s.text h0' (by omega) n (s.text.length + 1) (by omega) (by omega)
      have hnr : nextrune s (-1) = .ok r := by
        unfold nextrune
        rw [hc, toSize_pred n (by omega)]
        exact hr
      have hrd : readText s.text r = .ok (t.getD r 0) := by
        unfold readText
        rw [if_pos (by omega), ht, getD_take_append t tail (n + 1) r (by omega) hk]
      have hcontT : ∀ j, r < j → j ≤ n → isCont (t.getD j 0) = true := by
        intro j h1 h2
        have := hall j h1 h2
        rw [ht, getD_take_append t tail (n + 1) j (by omega) hk] at this
        exact this
      have hins : insert cfg s [] (toSsize (toSize ((r : Int) - s.cursor)))
          = match_ cfg { s with text := t.take r ++ tail, cursor := r } := by
        rw [insert_delete cfg s r (by omega) (by omega) (by omega) hb]
        have e1 : s.text.take r = t.take r := by
          rw [ht]; exact take_take_append t tail (n + 1) r (by omega) hk
        have e2 : s.text.drop s.cursor = tail := by
          rw [hc, ht]; exact drop_take_append t tail (n + 1) hk
        rw [e1, e2]
      have hstep : wordLoop cfg space (f + 1) s =
          if decide (t.getD r 0 = 32) = space then
            (match_ cfg { s with text := t.take r ++ tail, cursor := r }).bind
              (wordLoop cfg space f)
          else .ok s := by
        rw [wordLoop, if_pos hpos, hnr]
        simp only [Res.bind]
        rw [hrd]
        simp only [Res.bind]
        rw [hins]
      have hgap : r < n → t.getD r 0 ≠ 32 := by
        intro hlt e
        have h1 := hsp r e
        rw [hcontT (r + 1) (by omega) (by omega)] at h1
        cases h1
      by_cases hcond : decide (t.getD r 0 = 32) = space
      · rw [hstep, if_pos hcond]
        have hrun : skipLeft p t (n + 1) = skipLeft p t r := by
          apply skipLeft_run p t r (n + 1) (by omega)
          intro i h1 h2
          rcases Nat.eq_or_lt_of_le h1 with e | hlt
          · rw [← e]; exact (hp _).2 hcond
          · apply (hp _).2
            have hne : t.getD i 0 ≠ 32 := cont_ne_space _ (hcontT i hlt (by omega))
            have hner : t.getD r 0 ≠ 32 := hgap (by omega)
            rw [← hcond]
            rw [decide_eq_false hne, decide_eq_false hner]
        rw [hrun]
        refine ⟨?_, ?_, ?_⟩
        · intro s' h
          obtain ⟨s1, h1, h2⟩ := bind_ok _ _ _ h
          obtain ⟨e1, e2, -⟩ := match_ok_shape cfg _ s1 h1
          exact (ih r s1 e1 e2 (by omega) (by omega) (by omega)).1 s' h2
        · intro hre
          obtain ⟨s1, h1, e1, e2, -⟩ := match_total cfg
            { s with text := t.take r ++ tail, cursor := r } hre
          obtain ⟨s', h'⟩ := (ih r s1 e1 e2 (by omega) (by omega) (by omega)).2.1 hre
          exact ⟨s', by rw [h1]; exact h'⟩
        · intro hnf
          cases hm : match_ cfg { s with text := t.take r ++ tail, cursor := r } with
          | ok s1 =>
            rw [hm] at hnf
            obtain ⟨e1, e2, -⟩ := match_ok_shape cfg _ s1 hm
            exact (ih r s1 e1 e2 (by omega) (by omega) (by omega)).2.2 hnf
          | exited b o => rw [hm] at hnf; cases hnf
          | fault => rw [hm] at hnf; cases hnf
          | nofuel => exact match_terminates cfg _ hm
      · rw [hstep, if_neg hcond]
        have hstop : skipLeft p t (n + 1) = n + 1 := by
          apply skipLeft_stop
          cases hpn : p (t.getD n 0) with
          | false => rfl
          | true =>
            exfalso
            have h1 := (hp _).1 hpn
            rcases Nat.eq_or_lt_of_le hle with e | hlt
            · rw [e] at hcond; exact hcond h1
            · have hne : t.getD n 0 ≠ 32 := cont_ne_space _ (hcontT n hlt (Nat.le_refl _))
              have hner : t.getD r 0 ≠ 32 := hgap hlt
              apply hcond
              rw [← h1]
              rw [decide_eq_false hne, decide_eq_false hner]
        rw [hstop]
        refine ⟨?_, fun _ => ⟨s, rfl⟩, fun h => by cases h⟩
        intro s' h
        cases h
        exact ⟨ht, hc⟩

theorem dispatch_w (cfg : Config) (len : Nat) (s : State) (ev : XKeyEvent)
    (hk : tolower ev.ksym = XK_w) (hb : iscntrl (ev.buf.headD 0) = true) :
    dispatch cfg len s ev.ksym ev = .ok s := by
  have h : ev.ksym = 0x57 ∨ ev.ksym = 0x77 := by
    unfold tolower XK_w at hk
    split at hk <;> omega
  have hd : keyDefault cfg s ev.buf = .ok s := by
    unfold keyDefault
    rw [if_pos hb]
  rcases h with h | h <;>
    simp [dispatch, h, XK_Return, XK_Delete, XK_BackSpace, XK_End, XK_Escape, XK_Home, XK_Left,
      XK_Up, XK_Next, XK_Prior, XK_KP_Enter, XK_Right, XK_Down, XK_Tab, hd]

theorem keypress_deleteWord (cfg : Config) (s : State) (ev : XKeyEvent)
    (hev : isDeleteWordBackward ev) : keypress cfg s ev = ctrlW cfg s := by
  obtain ⟨hc, hk, hb⟩ := hev
  have hd : ∀ s1, dispatch cfg s.text.length s1 ev.ksym ev = .ok s1 :=
    fun s1 => dispatch_w cfg _ s1 ev hk hb
  rw [keypress, if_pos hc, hk]
  simp only [XK_w, XK_a, XK_b, XK_c, XK_d, XK_e, XK_f, XK_h, XK_i, XK_j, XK_k, XK_n, XK_p, XK_u,
    hd]
  simp only [Nat.reduceEqDiff, if_false, if_true]
  cases ctrlW cfg s <;> rfl

theorem ctrlW_spec (cfg : Config) (s : State) (hv : utf8Valid s.text = true)
    (hc : s.cursor ≤ s.text.length) (hL : s.text.length < cfg.bufsiz)
    (hb : cfg.bufsiz ≤ 2 ^ 63) :
    (∀ s', ctrlW cfg s = .ok s' →
      s'.text = s.text.take (skipWord s.text (skipSpaces s.text s.cursor))
        ++ s.text.drop s.cursor ∧
      s'.cursor = skipWord s.text (skipSpaces s.text s.cursor)) ∧
    (cfg.returnearly = false → ∃ s', ctrlW cfg s = .ok s') ∧
    ctrlW cfg s ≠ .nofuel := by
  have h0 := utf8_head s.text hv
  have hsp := utf8Go_space_next s.text 0 hv
  have hlen : s.cursor + (s.text.drop s.cursor).length = s.text.length := by
    rw [List.length_drop]; omega
  have hj1 : skipSpaces s.text s.cursor ≤ s.cursor := skipLeft_le _ _ _
  have P1 := wordLoop_spec cfg true (fun b => b == 32) s.text (s.text.drop s.cursor)
    (fun b => by simp) hb h0 hsp (s.text.length + 1) s.cursor s
    (List.take_append_drop _ _).symm rfl hc (by omega) (by omega)
  have P2 : ∀ s1 : State, s1.text = s.text.take (skipSpaces s.text s.cursor) ++ s.text.drop s.cursor →
      s1.cursor = skipSpaces s.text s.cursor → _ := fun s1 e1 e2 =>
    wordLoop_spec cfg false (fun b => b != 32) s.text (s.text.drop s.cursor)
      (fun b => by simp) hb h0 hsp (s1.text.length + 1) (skipSpaces s.text s.cursor) s1
      e1 e2 (by omega) (by omega)
      (by rw [e1, List.length_append, List.length_take]; omega)
  unfold ctrlW
  refine ⟨?_, ?_, ?_⟩
  · intro s' h
    obtain ⟨s1, h1, h2⟩ := bind_ok _ _ _ h
    obtain ⟨e1, e2⟩ := P1.1 s1 h1
    exact (P2 s1 e1 e2).1 s' h2
  · intro hre
    obtain ⟨s1, h1⟩ := P1.2.1 hre
    obtain ⟨e1, e2⟩ := P1.1 s1 h1
    obtain ⟨s', h'⟩ := (P2 s1 e1 e2).2.1 hre
    exact ⟨s', by rw [h1]; exact h'⟩
  · intro hnf
    cases hm : wordLoop cfg true (s.text.length + 1) s with
    | ok s1 =>
      rw [hm] at hnf
      obtain ⟨e1, e2⟩ := P1.1 s1 hm
      exact (P2 s1 e1 e2).2.2 hnf
    | exited b o => rw [hm] at hnf; cases hnf
    | fault => rw [hm] at hnf; cases hnf
    | nofuel => exact P1.2.2 hm


/-- In a well-formed buffer with the cursor on a rune boundary, the two
positions of the word deletion are rune boundaries: the bytes removed are
whole runes. -/
theorem skip_boundary (t : List Nat) (c : Nat) (hv : utf8Valid t = true)
    (hc : runeBoundary t c) :
    runeBoundary t (skipSpaces t c) ∧ runeBoundary t (skipWord t (skipSpaces t c)) := by
  have hsp := utf8Go_space_next t 0 hv
  obtain ⟨h1, h2, -⟩ := skipLeft_spec (fun b => b == 32) t c
  have hb1 : runeBoundary t (skipSpaces t c) := by
    unfold skipSpaces
    rcases Nat.eq_or_lt_of_le h1 with e | hlt
    · rw [e]; exact hc
    · refine ⟨by have := hc.1; omega, Or.inr ?_⟩
      have h3 := h2 _ (Nat.le_refl _) hlt
      have h4 : t.getD (skipLeft (fun b => b == 32) t c) 0 = 32 := by simpa using h3
      rw [h4]
      rfl
  refine ⟨hb1, ?_⟩
  obtain ⟨k1, -, k3⟩ := skipLeft_spec (fun b => b != 32) t (skipSpaces t c)
  unfold skipWord
  refine ⟨by have := hb1.1; omega, ?_⟩
  rcases Nat.eq_zero_or_pos (skipLeft (fun b => b != 32) t (skipSpaces t c)) with e | hpos
  · rw [e]
    exact Or.inr (utf8_head t hv)
  · rcases k3 with e | hstop
    · omega
    · right
      have h4 : t.getD (skipLeft (fun b => b != 32) t (skipSpaces t c) - 1) 0 = 32 := by
        simpa using hstop
      have := hsp _ h4
      rwa [Nat.sub_add_cancel hpos] at this

/-- C11: for a buffer `t` that is well-formed UTF-8 and fits its array, with
the cursor `c` within it, let `j1` be the position reached from `c` by
skipping the maximal run of spaces immediately left of the cursor and `j2`
the position reached from `j1` by skipping the maximal run of non-space
runes left of `j1`.  DeleteWordBackward runs to its end within the fuel of
its two loops; a session it returns (no auto-accept having fired) has the
buffer `t[0..j2) ++ t[c..]` and the cursor `j2`; and with auto-accept
disabled it returns a session. -/
theorem C11_delete_word (cfg : Config) (s : State) (ev : XKeyEvent)
    (hv : utf8Valid s.text = true) (hc : s.cursor ≤ s.text.length)
    (hL : s.text.length < cfg.bufsiz) (hb : cfg.bufsiz ≤ 2 ^ 63)
    (hev : isDeleteWordBackward ev) :
    (∀ s', keypress cfg s ev = .ok s' →
      s'.text = s.text.take (skipWord s.text (skipSpaces s.text s.cursor))
        ++ s.text.drop s.cursor ∧
      s'.cursor = skipWord s.text (skipSpaces s.text s.cursor)) ∧
    (cfg.returnearly = false → ∃ s', keypress cfg s ev = .ok s') ∧
    keypress cfg s ev ≠ .nofuel := by
  rw [keypress_deleteWord cfg s ev hev]
  exact ctrlW_spec cfg s hv hc hL hb

/-- Witness of C11: the buffer "ab cd  " with the cursor at its end. -/
theorem C11_witness :
    (∀ s', keypress exampleCfg wordState deleteWordKey = .ok s' →
      s'.text = wordState.text.take (skipWord wordState.text
          (skipSpaces wordState.text wordState.cursor)) ++ wordState.text.drop wordState.cursor ∧
      s'.cursor = skipWord wordState.text (skipSpaces wordState.text wordState.cursor)) ∧
    (exampleCfg.returnearly = false →
      ∃ s', keypress exampleCfg wordState deleteWordKey = .ok s') ∧
    keypress exampleCfg wordState deleteWordKey ≠ .nofuel :=
  C11_delete_word exampleCfg wordState deleteWordKey (by decide) (by decide) (by decide)
    (by decide) (by decide)

/-- Deleting the word before the cursor of "ab cd  " leaves "ab " with the
cursor at 3: the two spaces and then "cd" are removed. -/
theorem C11_example :
    skipSpaces wordState.text wordState.cursor = 5 ∧
    skipWord wordState.text 5 = 3 ∧
    (keypress exampleCfg wordState deleteWordKey).map (fun s => (s.text, s.cursor))
      = .ok ([0x61, 0x62, 0x20], 3) := by
  decide


/-! ## Configurations beyond the range of the window arithmetic -/

/-- C5 fails where `lines * bh` wraps: with 268435456 rows of 16 pixels the
budget is 0, and the session `setup` returns for five candidates, a reachable
session, has all five candidates in its match list and the selection on the
first, but `next` equal to `curr`: no item is visible and the selection is not
before `next`. -/
theorem C5_wrapped_budget :
    budget wrapCfg = 0 ∧ setup wrapCfg fiveTexts = .ok fiveWrapped ∧
    Reachable wrapCfg fiveTexts fiveWrapped ∧
    matchView fiveWrapped = [0, 1, 2, 3, 4] ∧ fiveWrapped.sel = some 0 ∧
    fiveWrapped.curr = some 0 ∧ fiveWrapped.next = some 0 ∧ visible fiveWrapped = [] ∧
    0 ∉ visible fiveWrapped :=
  ⟨by decide, by decide, Reachable.init fiveWrapped (by decide), by decide, rfl, rfl, rfl,
    by decide, by decide⟩

/-- C6 fails where `lines * bh` wraps: with 268435456 rows of 16 pixels, over
the linked match list of five items with the pivot at the first, `calcoffsets`
returns with `next` on the pivot and no visible item, where the first
`min L 5 = 5` items would be visible and `next` none. -/
theorem C6_wrapped_budget :
    0 < wrapCfg.lines ∧ 0 < wrapCfg.bh ∧ Linked fiveState.items [0, 1, 2, 3, 4] ∧
    fiveState.curr = some 0 ∧ min wrapCfg.lines [0, 1, 2, 3, 4].length = 5 ∧
    ∃ s', calcoffsets wrapCfg fiveState = .ok s' ∧ s'.curr = some 0 ∧ s'.next = some 0 ∧
      visible s' = [] :=
  ⟨by decide, by decide, linked_of_check _ _ (by decide), rfl, by decide,
    fiveWrapped, by decide, rfl, rfl, by decide⟩

/-- C16 fails where `lines * bh` wraps: with 268435456 rows of 16 pixels, in
the session `setup` returns for five candidates (non-empty match list, cursor
at the end of the empty buffer), a round `sel = curr = next; calcoffsets()` of
SelectLast gives back the same session, whose `next` is set: the page-advance
loop does not end within any number of rounds, and `keypress` runs out of its
bound. -/
theorem C16_wrapped_budget :
    setup wrapCfg fiveTexts = .ok fiveWrapped ∧ matchView fiveWrapped = [0, 1, 2, 3, 4] ∧
    fiveWrapped.cursor = fiveWrapped.text.length ∧ fiveWrapped.next = some 0 ∧
    calcoffsets wrapCfg { fiveWrapped with sel := fiveWrapped.next, curr := fiveWrapped.next }
      = .ok fiveWrapped ∧
    (∀ fuel, endPages wrapCfg fuel fiveWrapped = .nofuel) ∧
    keypress wrapCfg fiveWrapped (plainKey XK_End) = .nofuel := by
  have hstep : calcoffsets wrapCfg
      { fiveWrapped with sel := fiveWrapped.next, curr := fiveWrapped.next }
      = .ok fiveWrapped := by decide
  refine ⟨by decide, by decide, rfl, rfl, hstep, ?_, by decide⟩
  intro fuel
  induction fuel with
  | zero => decide
  | succ f ih =>
    rw [endPages, if_neg (by decide), hstep]
    exact ih

/-- The range in the amended C15 is needed: with 268435456 rows of 16 pixels
SelectNext moves the selection to the second item, which is not visible, and
the window is not recomputed. -/
theorem C15_wrapped_example :
    ∃ s', keypress wrapCfg fiveWrapped (plainKey XK_Down) = .ok s' ∧ s'.sel = some 1 ∧
      1 ∉ visible fiveWrapped ∧ s'.curr = some 0 ∧ s'.next = some 0 ∧ visible s' = [] :=
  ⟨{ fiveWrapped with sel := some 1 }, by decide, rfl, by decide, rfl, rfl, by decide⟩

/-! ## A buffer that is not well-formed UTF-8 -/

/-- C17 fails on a buffer that is not well-formed UTF-8: in row mode, over
the single candidate with the bytes 0xa9, 0x78, Tab copies the candidate into
the buffer and Left moves the cursor to 1; a second MoveCursor(-1), with the
cursor not at the edge, steps over the continuation byte at position 0 and
past the start of the buffer (`n >= 0` holds of every `size_t`), and leaves
the cursor at 2^64 - 1, outside the buffer of two bytes. -/
theorem C17_stray_continuation :
    0 < rowCfg.lines ∧
    pressAll rowCfg (setup rowCfg strayTexts) [plainKey XK_Tab, plainKey XK_Left]
      = .ok strayState ∧
    isMoveLeft (plainKey XK_Left) ∧ 0 < strayState.cursor ∧ strayState.text.length = 2 ∧
    nextrune strayState (-1) = .ok (2 ^ 64 - 1) ∧
    keypress rowCfg strayState (plainKey XK_Left)
      = .ok { strayState with cursor := 2 ^ 64 - 1 } := by
  refine ⟨by decide, by decide, by decide, by decide, rfl, by decide, by decide⟩


end Dmenu
